import Mathlib

/-!
Verification development for the nedb embedded document database
(document/query engine, index layer, persistence engine).

The JavaScript sources are shallowly embedded: JS heterogeneous values
become the inductive type `NValue` (numbers are modelled as integers:
the ordering and equality claims under study do not depend on the
fractional part, and IEEE NaN, which the spec itself sets aside, has no
counterpart here), JS exceptions become `Except`, and mutation of the
datastore state becomes explicit state passing.  Platform builtins
(the `JSON.stringify`/`JSON.parse` text layer, `fs`, the AVL tree of the
external binary-search-tree package) are modelled at the interface the
source relies on.  Functions whose JS recursion is not structural are
written with an explicit recursion budget (`fuel`); the budget only
bounds the depth, and the theorems below are insensitive to it.
-/

namespace NeDB

/-- JS value model: the heterogeneous values nedb stores and queries.
`undef` is JavaScript `undefined`; `date` carries epoch milliseconds;
`obj` is an insertion-ordered field list (a JS object cannot carry a
duplicate key; the embedding never constructs one). -/
inductive NValue where
  | undef : NValue
  | null : NValue
  | bool : Bool → NValue
  | num : Int → NValue
  | str : String → NValue
  | date : Int → NValue
  | arr : List NValue → NValue
  | obj : List (String × NValue) → NValue
deriving Repr

mutual

/-- Structural (boolean) equality on `NValue`. -/
def nvBEq : NValue → NValue → Bool
  | .undef, .undef => true
  | .null, .null => true
  | .bool a, .bool b => a == b
  | .num a, .num b => a == b
  | .str a, .str b => a == b
  | .date a, .date b => a == b
  | .arr a, .arr b => nvBEqList a b
  | .obj a, .obj b => nvBEqKVs a b
  | _, _ => false

/-- Elementwise equality of value lists. -/
def nvBEqList : List NValue → List NValue → Bool
  | [], [] => true
  | a :: as, b :: bs => nvBEq a b && nvBEqList as bs
  | _, _ => false

/-- Elementwise equality of field lists. -/
def nvBEqKVs : List (String × NValue) → List (String × NValue) → Bool
  | [], [] => true
  | (ka, va) :: as, (kb, vb) :: bs => ka == kb && nvBEq va vb && nvBEqKVs as bs
  | _, _ => false

end

mutual

/-- Executable structural size of a value (used as a recursion budget
for the fueled functions below). -/
def nvSize : NValue → Nat
  | .arr es => 1 + nvSizeList es
  | .obj kvs => 1 + nvSizeKVs kvs
  | _ => 1

/-- Size over array elements. -/
def nvSizeList : List NValue → Nat
  | [] => 0
  | e :: rest => 1 + nvSize e + nvSizeList rest

/-- Size over field lists. -/
def nvSizeKVs : List (String × NValue) → Nat
  | [] => 0
  | (_, v) :: rest => 1 + nvSize v + nvSizeKVs rest

end

/-- JS truthiness: `undefined`, `null`, `false`, `0` and the empty string
are falsy; every object (so every date, array and map) is truthy. -/
def truthy : NValue → Bool
  | .undef => false
  | .null => false
  | .bool b => b
  | .num n => n != 0
  | .str s => s != ""
  | .date _ => true
  | .arr _ => true
  | .obj _ => true

/-- JS property read `o[k]` restricted to plain objects: the value at the
key, `undefined` when absent or when `o` is not an object (array index
reads are handled separately where the source performs them). -/
def jsGet (v : NValue) (k : String) : NValue :=
  match v with
  | .obj kvs =>
    match kvs.find? (fun kv => kv.1 == k) with
    | some kv => kv.2
    | none => .undef
  | _ => (.undef : NValue)

/-- Position of a value's type in the `compareThings` precedence chain
(`customUtils.compareThings`): undefined < null < numbers < strings <
booleans < dates < arrays < objects. -/
def rank : NValue → Nat
  | .undef => 0
  | .null => 1
  | .num _ => 2
  | .str _ => 3
  | .bool _ => 4
  | .date _ => 5
  | .arr _ => 6
  | .obj _ => 7

/-- Strict code-unit lexicographic order on character lists (JS `<` on
strings, written out so that the kernel can evaluate it). -/
def strLtL : List Char → List Char → Bool
  | [], [] => false
  | [], _ :: _ => true
  | _ :: _, [] => false
  | a :: as, b :: bs =>
    if a.toNat < b.toNat then true
    else if b.toNat < a.toNat then false
    else strLtL as bs

/-- Strict code-unit lexicographic order on strings. -/
def strLtB (a b : String) : Bool := strLtL a.data b.data

/-- `compareNSB` of the source on two integers (JS numbers). -/
def compareNSBInt (a b : Int) : Int :=
  if a < b then -1 else if a > b then 1 else 0

/-- `compareNSB` on two strings (JS `<`/`>` on strings is lexicographic
on code units). -/
def compareNSBString (a b : String) : Int :=
  if strLtB a b then -1 else if strLtB b a then 1 else 0

/-- `compareNSB` on two booleans: JS `<` coerces booleans to 0/1. -/
def compareNSBBool (a b : Bool) : Int :=
  compareNSBInt (if a then 1 else 0) (if b then 1 else 0)

/-- Insert a field into a key-sorted field list (used to model the
`Object.keys(a).sort()` step of `compareThings`). -/
def insertSortedKV (p : String × NValue) : List (String × NValue) → List (String × NValue)
  | [] => [p]
  | q :: qs => if strLtB q.1 p.1 then q :: insertSortedKV p qs else p :: q :: qs

/-- Sort a field list by key (the JS default sort on string keys is
code-unit lexicographic; keys of a JS object are pairwise distinct, so
stability is irrelevant). -/
def sortByKey (l : List (String × NValue)) : List (String × NValue) :=
  l.foldr insertSortedKV []

mutual

/-- Recursively sort every object's field list by key.  `compareThings`
in the source sorts `Object.keys` at each comparison step; pre-sorting
every level once and comparing positionally afterwards computes the
same result (the comparison never observes anything but values taken in
sorted key order). -/
def normalize : NValue → NValue
  | .arr es => .arr (normalizeList es)
  | .obj kvs => .obj (sortByKey (normalizeKVs kvs))
  | v => v

/-- `normalize` mapped over array elements. -/
def normalizeList : List NValue → List NValue
  | [] => []
  | v :: vs => normalize v :: normalizeList vs

/-- `normalize` mapped over field values. -/
def normalizeKVs : List (String × NValue) → List (String × NValue)
  | [] => []
  | (k, v) :: kvs => (k, normalize v) :: normalizeKVs kvs

end

mutual

/-- Core of `customUtils.compareThings` (default string comparator) on
key-normalized values: the type-precedence cascade of the source, with
`compareArrays` for arrays and, for objects, the positional walk over
the (already sorted) field values followed by `compareNSB` on the key
counts. -/
def cmpThings : NValue → NValue → Int
  | .undef, .undef => 0
  | .undef, _ => -1
  | _, .undef => 1
  | .null, .null => 0
  | .null, _ => -1
  | _, .null => 1
  | .num a, .num b => compareNSBInt a b
  | .num _, _ => -1
  | _, .num _ => 1
  | .str a, .str b => compareNSBString a b
  | .str _, _ => -1
  | _, .str _ => 1
  | .bool a, .bool b => compareNSBBool a b
  | .bool _, _ => -1
  | _, .bool _ => 1
  | .date a, .date b => compareNSBInt a b
  | .date _, _ => -1
  | _, .date _ => 1
  | .arr as, .arr bs => cmpList as bs
  | .arr _, _ => -1
  | _, .arr _ => 1
  | .obj akvs, .obj bkvs => cmpKVs akvs bkvs

/-- `customUtils.compareArrays`: first difference wins, else the longer
array wins. -/
def cmpList : List NValue → List NValue → Int
  | [], [] => 0
  | [], _ :: _ => -1
  | _ :: _, [] => 1
  | a :: as, b :: bs =>
    let c := cmpThings a b
    if c = 0 then cmpList as bs else c

/-- Object branch of `compareThings`: compare field values positionally
(field lists are key-sorted by `normalize`), then key counts. -/
def cmpKVs : List (String × NValue) → List (String × NValue) → Int
  | [], [] => 0
  | [], _ :: _ => -1
  | _ :: _, [] => 1
  | (_, va) :: as, (_, vb) :: bs =>
    let c := cmpThings va vb
    if c = 0 then cmpKVs as bs else c

end

/-- `customUtils.compareThings` with the default string comparator:
sort all object key lists once, then run the positional cascade. -/
def compareThings (a b : NValue) : Int :=
  cmpThings (normalize a) (normalize b)

/-- A JS double as the comparator receives it: NaN or an ordinary
(model-integer) value.  `NValue` elsewhere carries only ordinary values
-- the repository never stores NaN and JSON has no literal for it -- but
`compareThings` is also applied to query constants and sort keys, where
NaN does arrive, so its embedding carries the full domain; an invalid
date's `getTime()` is NaN as well, hence the date payload too. -/
inductive JSNum where
  | nan : JSNum
  | val : Int → JSNum
deriving Repr

/-- JS `<` on two doubles: false whenever either side is NaN. -/
def jsNumLt : JSNum → JSNum → Bool
  | .val a, .val b => a < b
  | _, _ => false

/-- Is the double an ordinary value, not NaN. -/
def jsNumIsVal : JSNum → Bool
  | .nan => false
  | .val _ => true

/-- `compareNSB` of the source on two doubles:
`a < b ? -1 : a > b ? 1 : 0`.  Both `<` and `>` are false against NaN,
so any comparison involving NaN returns 0; on two ordinary values it is
the integer comparison. -/
def compareNSBNum : JSNum → JSNum → Int
  | .val a, .val b => compareNSBInt a b
  | _, _ => 0

/-- Heterogeneous values as `compareThings` receives them: `NValue` with
the number and date payloads widened to full JS doubles. -/
inductive CValue where
  | undef : CValue
  | null : CValue
  | bool : Bool → CValue
  | num : JSNum → CValue
  | str : String → CValue
  | date : JSNum → CValue
  | arr : List CValue → CValue
  | obj : List (String × CValue) → CValue
deriving Repr

mutual

/-- Structural size of a `CValue` (the comparator recursion measure). -/
def cvSize : CValue → Nat
  | .arr es => 1 + cvSizeList es
  | .obj kvs => 1 + cvSizeKVs kvs
  | _ => 1

/-- Size over array elements. -/
def cvSizeList : List CValue → Nat
  | [] => 0
  | e :: rest => 1 + cvSize e + cvSizeList rest

/-- Size over field lists. -/
def cvSizeKVs : List (String × CValue) → Nat
  | [] => 0
  | (_, v) :: rest => 1 + cvSize v + cvSizeKVs rest

end

/-- Position of a `CValue`'s type in the `compareThings` precedence
chain (NaN is an ordinary `typeof number`, so it sits with the
numbers). -/
def crank : CValue → Nat
  | .undef => 0
  | .null => 1
  | .num _ => 2
  | .str _ => 3
  | .bool _ => 4
  | .date _ => 5
  | .arr _ => 6
  | .obj _ => 7

/-- Insert a field into a key-sorted field list (the
`Object.keys(a).sort()` step over `CValue` fields). -/
def cinsertSortedKV (p : String × CValue) : List (String × CValue) → List (String × CValue)
  | [] => [p]
  | q :: qs => if strLtB q.1 p.1 then q :: cinsertSortedKV p qs else p :: q :: qs

/-- Sort a `CValue` field list by key. -/
def csortByKey (l : List (String × CValue)) : List (String × CValue) :=
  l.foldr cinsertSortedKV []

mutual

/-- Recursively sort every object's field list by key, as `normalize`
does for `NValue` (see there: pre-sorting once computes the same result
as the source's per-step `Object.keys(...).sort()`). -/
def cnormalize : CValue → CValue
  | .arr es => .arr (cnormalizeList es)
  | .obj kvs => .obj (csortByKey (cnormalizeKVs kvs))
  | v => v

/-- `cnormalize` mapped over array elements. -/
def cnormalizeList : List CValue → List CValue
  | [] => []
  | v :: vs => cnormalize v :: cnormalizeList vs

/-- `cnormalize` mapped over field values. -/
def cnormalizeKVs : List (String × CValue) → List (String × CValue)
  | [] => []
  | (k, v) :: kvs => (k, cnormalize v) :: cnormalizeKVs kvs

end

mutual

/-- Core of `customUtils.compareThings` on key-normalized `CValue`s:
the type-precedence cascade of the source with `compareNSB` at the
number, string, boolean and date leaves, `compareArrays` for arrays
and the positional field-value walk plus key-count comparison for
objects. -/
def ccmpThings : CValue → CValue → Int
  | .undef, .undef => 0
  | .undef, _ => -1
  | _, .undef => 1
  | .null, .null => 0
  | .null, _ => -1
  | _, .null => 1
  | .num a, .num b => compareNSBNum a b
  | .num _, _ => -1
  | _, .num _ => 1
  | .str a, .str b => compareNSBString a b
  | .str _, _ => -1
  | _, .str _ => 1
  | .bool a, .bool b => compareNSBBool a b
  | .bool _, _ => -1
  | _, .bool _ => 1
  | .date a, .date b => compareNSBNum a b
  | .date _, _ => -1
  | _, .date _ => 1
  | .arr as, .arr bs => ccmpList as bs
  | .arr _, _ => -1
  | _, .arr _ => 1
  | .obj akvs, .obj bkvs => ccmpKVs akvs bkvs

/-- `customUtils.compareArrays` over `CValue`s: first difference wins,
else the longer array wins. -/
def ccmpList : List CValue → List CValue → Int
  | [], [] => 0
  | [], _ :: _ => -1
  | _ :: _, [] => 1
  | a :: as, b :: bs =>
    let c := ccmpThings a b
    if c = 0 then ccmpList as bs else c

/-- Object branch over `CValue`s: compare field values positionally,
then key counts. -/
def ccmpKVs : List (String × CValue) → List (String × CValue) → Int
  | [], [] => 0
  | [], _ :: _ => -1
  | _ :: _, [] => 1
  | (_, va) :: as, (_, vb) :: bs =>
    let c := ccmpThings va vb
    if c = 0 then ccmpKVs as bs else c

end

/-- `customUtils.compareThings` with the default string comparator over
full JS doubles: sort all object key lists once, then run the
positional cascade. -/
def ccompareThings (a b : CValue) : Int :=
  ccmpThings (cnormalize a) (cnormalize b)

mutual

/-- No NaN anywhere in the value (number or date payload). -/
def nanFree : CValue → Bool
  | .num x => jsNumIsVal x
  | .date x => jsNumIsVal x
  | .arr es => nanFreeList es
  | .obj kvs => nanFreeKVs kvs
  | _ => true

/-- NaN-freeness over array elements. -/
def nanFreeList : List CValue → Bool
  | [] => true
  | v :: vs => nanFree v && nanFreeList vs

/-- NaN-freeness over field lists. -/
def nanFreeKVs : List (String × CValue) → Bool
  | [] => true
  | (_, v) :: kvs => nanFree v && nanFreeKVs kvs

end

/-- Split a string on dots, accumulator form (`field.split('.')` of the
source). -/
def splitOnDotAux : List Char → List Char → List String
  | [], acc => [String.mk acc.reverse]
  | '.' :: rest, acc => String.mk acc.reverse :: splitOnDotAux rest []
  | c :: rest, acc => splitOnDotAux rest (c :: acc)

/-- Split a string on dots (JS `"".split('.')` is `[""]`, as here). -/
def splitOnDot (s : String) : List String := splitOnDotAux s.data []

/-- JS `parseInt(s, 10)`: optional sign followed by a leading digit run;
`none` models `NaN`. -/
def jsParseInt (s : String) : Option Int :=
  let core : List Char → Option Nat := fun cs =>
    let digits := cs.takeWhile Char.isDigit
    if digits.isEmpty then none
    else some (digits.foldl (fun n c => 10 * n + (c.toNat - 48)) 0)
  match s.data with
  | '-' :: rest => (core rest).map (fun n => -(n : Int))
  | '+' :: rest => (core rest).map (fun n => (n : Int))
  | cs => (core cs).map (fun n => (n : Int))

/-- Does the string start with a dollar sign (the operator test the
source performs with `key[0] === '$'`). -/
def startsDollar (s : String) : Bool :=
  match s.data with
  | '$' :: _ => true
  | _ => false

/-- The canonical array index denoted by a property key, if any: a JS
array has an element at string key `k` exactly when `k` is the decimal
print of an index in range. -/
def canonIndex (k : String) : Option Nat :=
  let cs := k.data
  if cs.isEmpty || !cs.all Char.isDigit then none
  else if cs.length > 1 && cs.head? == some '0' then none
  else some (cs.foldl (fun n c => 10 * n + (c.toNat - 48)) 0)

/-- JS `array[i]` for an integer index: the element when in range,
`undefined` otherwise. -/
def arrGet (es : List NValue) (i : Int) : NValue :=
  if h : 0 ≤ i ∧ i.toNat < es.length then es.get ⟨i.toNat, h.2⟩ else (.undef : NValue)

/-- JS property read `v[k]` as performed by `getDotValue`: object field,
array canonical index or `length`, string `length`; anything else is
`undefined` (method properties are never observed by the source). -/
def jsIndexRead (v : NValue) (k : String) : NValue :=
  match v with
  | .obj _ => jsGet v k
  | .arr es =>
    if k == "length" then .num es.length
    else
      match canonIndex k with
      | some i => arrGet es (i : Int)
      | none => .undef
  | .str s => if k == "length" then .num s.length else .undef
  | _ => (.undef : NValue)

/-- Work items of the `getDotValue` recursion: a value against a path,
or the path mapped across array elements. -/
inductive DotCall where
  | parts : NValue → List String → DotCall
  | list : List NValue → List String → DotCall

/-- `customUtils.getDotValue` (fueled): a falsy base yields `undefined`;
one segment reads the property; when the first segment reads an array
and the next parses as an integer, index into it, otherwise map the
remaining path across the array's elements.  The `.list` items build
the mapped array. -/
def dotEval : Nat → DotCall → NValue
  | 0, _ => .undef
  | fuel + 1, .parts v parts =>
    if truthy v = false then .undef
    else
      match parts with
      | [] => v
      | [f] => jsIndexRead v f
      | f :: f2 :: rest =>
        match jsIndexRead v f with
        | .arr es =>
          (match jsParseInt f2 with
           | some i => dotEval fuel (.parts (arrGet es i) rest)
           | none => dotEval fuel (.list es (f2 :: rest)))
        | w => dotEval fuel (.parts w (f2 :: rest))
  | _ + 1, .list [] _ => .arr []
  | fuel + 1, .list (e :: rest) parts =>
    match dotEval fuel (.list rest parts) with
    | .arr tail => .arr (dotEval fuel (.parts e parts) :: tail)
    | _ => (.undef : NValue)

/-- `customUtils.getDotValue` on an already-split path. -/
def getDotValueParts (v : NValue) (parts : List String) : NValue :=
  dotEval (nvSize v + parts.length + 2) (.parts v parts)

/-- `customUtils.getDotValue`: split the field on dots, then walk. -/
def getDotValue (v : NValue) (field : String) : NValue :=
  getDotValueParts v (splitOnDot field)

/-- JS `===` restricted to the first group of `areThingsEqual`
(null, strings, booleans, numbers against anything). -/
def jsStrictPrimEq : NValue → NValue → Bool
  | .null, .null => true
  | .str a, .str b => a == b
  | .bool a, .bool b => a == b
  | .num a, .num b => a == b
  | _, _ => false

/-- Work items of the `areThingsEqual` recursion: a pair of values, a
pair of arrays walked elementwise, or the first object's fields walked
against the second object. -/
inductive EqCall where
  | pair : NValue → NValue → EqCall
  | listPair : List NValue → List NValue → EqCall
  | kvsWalk : List (String × NValue) → NValue → EqCall

/-- `customUtils.areThingsEqual` (fueled): `===` for
null/strings/booleans/numbers, epoch equality for dates, never-equal for
`undefined`, elementwise for arrays (the source reaches that case
through `Object.keys` of the arrays) and key-by-key structural equality
for plain objects; an array and a plain object never compare equal. -/
def eqEval : Nat → EqCall → Bool
  | 0, _ => false
  | fuel + 1, .pair a b =>
    match a, b with
    | .null, _ => jsStrictPrimEq .null b
    | .str s, _ => jsStrictPrimEq (.str s) b
    | .bool x, _ => jsStrictPrimEq (.bool x) b
    | .num n, _ => jsStrictPrimEq (.num n) b
    | _, .null => jsStrictPrimEq a .null
    | _, .str s => jsStrictPrimEq a (.str s)
    | _, .bool x => jsStrictPrimEq a (.bool x)
    | _, .num n => jsStrictPrimEq a (.num n)
    | .date x, _ => (match b with | .date y => x == y | _ => false)
    | _, .date _ => false
    | .undef, _ => false
    | _, .undef => false
    | .arr as, .arr bs => eqEval fuel (.listPair as bs)
    | .arr _, .obj _ => false
    | .obj _, .arr _ => false
    | .obj as, .obj bs =>
      as.length == bs.length && eqEval fuel (.kvsWalk as (.obj bs))
  | fuel + 1, .listPair as bs =>
    match as, bs with
    | [], [] => true
    | a :: as, b :: bs => eqEval fuel (.pair a b) && eqEval fuel (.listPair as bs)
    | _, _ => false
  | fuel + 1, .kvsWalk kvs b =>
    match kvs with
    | [] => true
    | (k, v) :: rest =>
      (match b with
       | .obj bs => (bs.map Prod.fst).contains k
       | _ => false) &&
      eqEval fuel (.pair v (jsGet b k)) && eqEval fuel (.kvsWalk rest b)

/-- `customUtils.areThingsEqual`. -/
def areThingsEqual (a b : NValue) : Bool :=
  eqEval (nvSize a + 1) (.pair a b)

/-- JS `typeof` (dates, arrays and plain objects are all `"object"`). -/
def typeofStr : NValue → String
  | .undef => "undefined"
  | .null => "object"
  | .bool _ => "boolean"
  | .num _ => "number"
  | .str _ => "string"
  | .date _ => "object"
  | .arr _ => "object"
  | .obj _ => "object"

/-- Is the value a string, a number or a date. -/
def isStrNumDate : NValue → Bool
  | .str _ => true
  | .num _ => true
  | .date _ => true
  | _ => false

/-- `customUtils.areComparable`: at least one side is a string, number
or date, and both sides have the same `typeof`. -/
def areComparable (a b : NValue) : Bool :=
  (isStrNumDate a || isStrNumDate b) && typeofStr a == typeofStr b

/-- JS `<` on the pairs reachable under an `areComparable` guard:
numeric, lexicographic and epoch comparison on same-type pairs; the
remaining date-against-array/object coercion corners (which JS sends
through `valueOf`, a plain object giving `NaN` hence `false`) are
`false`. -/
def jsLt : NValue → NValue → Bool
  | .num a, .num b => a < b
  | .str a, .str b => strLtB a b
  | .date a, .date b => a < b
  | _, _ => false

/-- JS `<=` under the same guard (see `jsLt`). -/
def jsLe : NValue → NValue → Bool
  | .num a, .num b => a ≤ b
  | .str a, .str b => !strLtB b a
  | .date a, .date b => a ≤ b
  | _, _ => false

/-- `customUtils.isPrimitiveType`: boolean, number, string, null, date
or array. -/
def isPrimitiveType : NValue → Bool
  | .bool _ => true
  | .num _ => true
  | .str _ => true
  | .null => true
  | .date _ => true
  | .arr _ => true
  | _ => false

/-- `comparisonFunctions.$ne`: true outright when the object value is
`undefined`, otherwise the negation of `areThingsEqual`. -/
def cfNe (a b : NValue) : Bool :=
  match a with
  | .undef => true
  | _ => !areThingsEqual a b

/-- `comparisonFunctions.$in` (throws on a non-array argument). -/
def cfIn (a b : NValue) : Except String Bool :=
  match b with
  | .arr bs => .ok (bs.any (fun x => areThingsEqual a x))
  | _ => .error "$in operator called with a non-array"

/-- `comparisonFunctions.$exists`: any truthy value, and also the empty
string, means "must exist"; an `undefined` object value satisfies the
query exactly when existence is not required. -/
def cfExists (value exists_ : NValue) : Bool :=
  let e := truthy exists_ || (match exists_ with | .str s => s == "" | _ => false)
  match value with
  | .undef => !e
  | _ => e

/-- `comparisonFunctions.$size`: false on a non-array; JS throws when
the argument is not an integer (`value % 1 !== 0`, which also throws
for every non-number since `NaN !== 0`). -/
def cfSize (a b : NValue) : Except String Bool :=
  match a with
  | .arr es =>
    match b with
    | .num n => .ok ((es.length : Int) == n)
    | _ => .error "$size operator called without an integer"
  | _ => .ok false

/-- Membership in the source's `comparisonFunctions` table. -/
def isComparisonFunction (k : String) : Bool :=
  k == "$lt" || k == "$lte" || k == "$gt" || k == "$gte" || k == "$ne" ||
  k == "$in" || k == "$nin" || k == "$regex" || k == "$exists" ||
  k == "$size" || k == "$elemMatch"

/-- Membership in `arrayComparisonFunctions` (`$size`, `$elemMatch`). -/
def isArrayComparisonFunction (k : String) : Bool :=
  k == "$size" || k == "$elemMatch"

/-- Work items of the `match`/`matchQueryPart` recursion of the source:
a whole match, the key loop of `match`, a single query part, the
element loop of the implicit any-of rule, the comparison-operator walk,
the `$or`/`$and` loops, and the element loop of `$elemMatch`. -/
inductive MatchCall where
  | top : NValue → NValue → MatchCall
  | keys : NValue → List (String × NValue) → MatchCall
  | part : NValue → String → NValue → Bool → MatchCall
  | anyElem : List NValue → NValue → MatchCall
  | comps : NValue → List (String × NValue) → MatchCall
  | orL : NValue → List NValue → MatchCall
  | andL : NValue → List NValue → MatchCall
  | elemL : List NValue → NValue → MatchCall

/-- `model.match` and `model.matchQueryPart` (fueled).

`.top`: primitive-versus-primitive queries run through the source's
`needAKey` wrapper, a map query walks its keys, and `Object.keys` of
`undefined` throws.  `.keys`: logical operators dispatch (`$where`
always throws, `NValue` having no function values); other keys are
field matches.  `.part`: the array-of-values detour unless
`treatObjAsValue` is set, the operator/plain-field mixing check, the
comparison walk, and plain `areThingsEqual` as fallback.  (`NValue` has
no regular-expression values, so the `util.isRegExp` tests of the
source are identically false and `$regex` always reaches its
non-regexp throw.) -/
def matchEval : Nat → MatchCall → Except String Bool
  | 0, _ => .error "out of fuel"
  | fuel + 1, .top obj query =>
    if isPrimitiveType obj || isPrimitiveType query then
      matchEval fuel (.part (.obj [("needAKey", obj)]) "needAKey" query false)
    else
      match query with
      | .obj qkvs => matchEval fuel (.keys obj qkvs)
      | _ => .error "TypeError: cannot read keys of the query"
  | fuel + 1, .keys obj qkvs =>
    match qkvs with
    | [] => .ok true
    | (k, v) :: rest =>
      let step : Except String Bool :=
        if startsDollar k then
          if k == "$not" then (matchEval fuel (.top obj v)).map (fun r => !r)
          else if k == "$where" then .error "$where operator used without a function"
          else if k == "$or" then
            match v with
            | .arr qs => matchEval fuel (.orL obj qs)
            | _ => .error "$or operator used without an array"
          else if k == "$and" then
            match v with
            | .arr qs => matchEval fuel (.andL obj qs)
            | _ => .error "$and operator used without an array"
          else .error ("Unknown logical operator " ++ k)
        else matchEval fuel (.part obj k v false)
      match step with
      | .error msg => .error msg
      | .ok false => .ok false
      | .ok true => matchEval fuel (.keys obj rest)
  | fuel + 1, .part obj queryKey queryValue treatObjAsValue =>
    let objValue := getDotValue obj queryKey
    match objValue, treatObjAsValue with
    | .arr es, false =>
      match queryValue with
      | .arr _ => matchEval fuel (.part obj queryKey queryValue true)
      | .obj qkvs =>
        if qkvs.any (fun kv => isArrayComparisonFunction kv.1) then
          matchEval fuel (.part obj queryKey queryValue true)
        else
          matchEval fuel (.anyElem es queryValue)
      | _ => matchEval fuel (.anyElem es queryValue)
    | _, _ =>
      match queryValue with
      | .obj qkvs =>
        let dollarCount := (qkvs.filter (fun kv => startsDollar kv.1)).length
        if dollarCount != 0 && dollarCount != qkvs.length then
          .error "You cannot mix operators and normal fields"
        else if dollarCount > 0 then
          matchEval fuel (.comps objValue qkvs)
        else if areThingsEqual objValue queryValue then .ok true else .ok false
      | _ => if areThingsEqual objValue queryValue then .ok true else .ok false
  | fuel + 1, .anyElem es queryValue =>
    match es with
    | [] => .ok false
    | e :: rest =>
      match matchEval fuel (.part (.obj [("k", e)]) "k" queryValue false) with
      | .error msg => .error msg
      | .ok true => .ok true
      | .ok false => matchEval fuel (.anyElem rest queryValue)
  | fuel + 1, .comps objValue qkvs =>
    match qkvs with
    | [] => .ok true
    | (k, v) :: rest =>
      if !isComparisonFunction k then
        .error ("Unknown comparison function " ++ k)
      else
        let step : Except String Bool :=
          if k == "$lt" then .ok (areComparable objValue v && jsLt objValue v)
          else if k == "$lte" then .ok (areComparable objValue v && jsLe objValue v)
          else if k == "$gt" then .ok (areComparable objValue v && jsLt v objValue)
          else if k == "$gte" then .ok (areComparable objValue v && jsLe v objValue)
          else if k == "$ne" then .ok (cfNe objValue v)
          else if k == "$in" then cfIn objValue v
          else if k == "$nin" then (cfIn objValue v).map (fun r => !r)
          else if k == "$regex" then .error "$regex operator called with non regular expression"
          else if k == "$exists" then .ok (cfExists objValue v)
          else if k == "$size" then cfSize objValue v
          else
            match objValue with
            | .arr es => matchEval fuel (.elemL es v)
            | _ => .ok false
        match step with
        | .error msg => .error msg
        | .ok false => .ok false
        | .ok true => matchEval fuel (.comps objValue rest)
  | fuel + 1, .orL obj qs =>
    match qs with
    | [] => .ok false
    | q :: rest =>
      match matchEval fuel (.top obj q) with
      | .error msg => .error msg
      | .ok true => .ok true
      | .ok false => matchEval fuel (.orL obj rest)
  | fuel + 1, .andL obj qs =>
    match qs with
    | [] => .ok true
    | q :: rest =>
      match matchEval fuel (.top obj q) with
      | .error msg => .error msg
      | .ok false => .ok false
      | .ok true => matchEval fuel (.andL obj rest)
  | fuel + 1, .elemL es v =>
    match es with
    | [] => .ok false
    | e :: rest =>
      match matchEval fuel (.top e v) with
      | .error msg => .error msg
      | .ok true => .ok true
      | .ok false => matchEval fuel (.elemL rest v)

/-- `model.match`: run the matcher with a budget that covers the
recursion depth on the given input. -/
def jsMatch (obj query : NValue) : Except String Bool :=
  matchEval (nvSize obj + nvSize query + 4) (.top obj query)

/-- JSON values: what survives `JSON.stringify` (no dates, no
`undefined`).  The textual layer (`JSON.stringify`/`JSON.parse` proper)
is a platform builtin and a bijection between these trees and wire
lines; the embedding works on the trees. -/
inductive JValue where
  | jnull : JValue
  | jbool : Bool → JValue
  | jnum : Int → JValue
  | jstr : String → JValue
  | jarr : List JValue → JValue
  | jobj : List (String × JValue) → JValue
deriving Repr

/-- `customUtils.checkKey`: a key beginning with `$` is rejected unless
it is `$$date` with a number value, `$$deleted` with value `true`,
`$$indexCreated` or `$$indexRemoved`; a key containing `.` is rejected.
(The serializer calls it with the value JSON is about to write; for a
date that value is the `toJSON` string, which fails the
number test just as the `date` constructor does here.) -/
def checkKeyOk (k : String) (v : NValue) : Bool :=
  if startsDollar k &&
     !(k == "$$date" && (match v with | .num _ => true | _ => false)) &&
     !(k == "$$deleted" && (match v with | .bool true => true | _ => false)) &&
     !(k == "$$indexCreated") &&
     !(k == "$$indexRemoved") then
    false
  else if k.data.contains '.' then
    false
  else
    true

mutual

/-- `model.serialize`, value step: the replacer drops `undefined`,
passes primitives through, turns a date into its
`($$date: epoch-millis)` wrapper (whose own field then passes
`checkKey`), and recurses into arrays and objects. -/
def serCore : NValue → Except String (Option JValue)
  | .undef => .ok none
  | .null => .ok (some .jnull)
  | .bool b => .ok (some (.jbool b))
  | .num n => .ok (some (.jnum n))
  | .str s => .ok (some (.jstr s))
  | .date ms => .ok (some (.jobj [("$$date", .jnum ms)]))
  | .arr es =>
    match serArr es with
    | .error e => .error e
    | .ok js => .ok (some (.jarr js))
  | .obj kvs =>
    match serObj kvs with
    | .error e => .error e
    | .ok fields => .ok (some (.jobj fields))

/-- Array elements: a decimal index always passes `checkKey`; an element
that serializes to `undefined` is written as `null` by JSON. -/
def serArr : List NValue → Except String (List JValue)
  | [] => .ok []
  | e :: rest =>
    match serCore e with
    | .error msg => .error msg
    | .ok je =>
      match serArr rest with
      | .error msg => .error msg
      | .ok jrest => .ok (je.getD .jnull :: jrest)

/-- Object fields: `checkKey` each, drop fields whose value serializes
to `undefined`. -/
def serObj : List (String × NValue) → Except String (List (String × JValue))
  | [] => .ok []
  | (k, v) :: rest =>
    if checkKeyOk k v = false then
      .error ("Field names cannot begin with the $ character or contain a .: " ++ k)
    else
      match serCore v with
      | .error msg => .error msg
      | .ok jv =>
        match serObj rest with
        | .error msg => .error msg
        | .ok jrest =>
          .ok (match jv with
               | some j => (k, j) :: jrest
               | none => jrest)

end

/-- `model.serialize` (the top-level replacer call has the empty key,
which always passes `checkKey`); `none` is JS returning `undefined`
rather than a string. -/
def serialize (v : NValue) : Except String (Option JValue) :=
  serCore v

/-- JS `new Date(x)` for the values the deserializer's reviver can hand
it: numbers are epoch millis, booleans and `null` coerce to 0/1; the
remaining inputs give an invalid date and are collapsed to epoch 0
(no line this repository writes reaches them). -/
def jsNewDateMillis : NValue → Int
  | .num n => n
  | .bool b => if b then 1 else 0
  | .null => 0
  | .date d => d
  | _ => 0

mutual

/-- `model.deserialize`'s reviver, bottom-up over the parse tree: at a
key named `$$date` the revived value is wrapped in a date; an object
value holding a truthy `$$date` member collapses to that member. -/
def revive : JValue → NValue
  | .jnull => .null
  | .jbool b => .bool b
  | .jnum n => .num n
  | .jstr s => .str s
  | .jarr js => .arr (reviveList js)
  | .jobj fields =>
    let m := reviveFields fields
    match m.find? (fun kv => kv.1 == "$$date") with
    | some kv => if truthy kv.2 then kv.2 else .obj m
    | none => .obj m

/-- Revive array elements (their keys are numeric, never `$$date`). -/
def reviveList : List JValue → List NValue
  | [] => []
  | j :: rest => revive j :: reviveList rest

/-- Revive object fields; the reviver sees each child at its key. -/
def reviveFields : List (String × JValue) → List (String × NValue)
  | [] => []
  | (k, j) :: rest =>
    (k, if k == "$$date" then .date (jsNewDateMillis (revive j)) else revive j) ::
    reviveFields rest

end

/-- `model.deserialize` modulo the textual layer. -/
def deserialize (j : JValue) : NValue := revive j

/-- `deserialize` after `serialize`: `none` when serialization threw or
produced no output. -/
def roundTrip (v : NValue) : Option NValue :=
  match serialize v with
  | .ok (some j) => some (deserialize j)
  | _ => none

/-- The four reserved sentinel keys of the datafile format. -/
def isSentinelKey (k : String) : Bool :=
  k == "$$date" || k == "$$deleted" || k == "$$indexCreated" || k == "$$indexRemoved"

mutual

/-- Serializability exactly as claim C6 words it: every key is free of
`.` and does not begin with `$`, apart from the reserved sentinels. -/
def claimSerializable : NValue → Bool
  | .arr es => claimSerializableList es
  | .obj kvs => claimSerializableKVs kvs
  | _ => true

/-- Claim-serializability over array elements. -/
def claimSerializableList : List NValue → Bool
  | [] => true
  | e :: rest => claimSerializable e && claimSerializableList rest

/-- Claim-serializability over fields. -/
def claimSerializableKVs : List (String × NValue) → Bool
  | [] => true
  | (k, v) :: rest =>
    !k.data.contains '.' && (!startsDollar k || isSentinelKey k) &&
    claimSerializable v && claimSerializableKVs rest

end

mutual

/-- The serializable documents that genuinely survive the round trip:
all keys pass `checkKey`, no object uses the key `$$date` itself (the
reviver would turn such a member into a date), and no value is
`undefined` (the replacer would drop the field, or JSON would write
`null` inside an array). -/
def wfSerializable : NValue → Bool
  | .undef => false
  | .arr es => wfSerializableList es
  | .obj kvs => wfSerializableKVs kvs
  | _ => true

/-- Well-formedness over array elements. -/
def wfSerializableList : List NValue → Bool
  | [] => true
  | e :: rest => wfSerializable e && wfSerializableList rest

/-- Well-formedness over fields. -/
def wfSerializableKVs : List (String × NValue) → Bool
  | [] => true
  | (k, v) :: rest =>
    checkKeyOk k v && k != "$$date" && wfSerializable v && wfSerializableKVs rest

end

/-!
### Index layer (`lib/indexes.js` over the binary-search-tree package)

The AVL tree of the external binary-search-tree package is modelled by
its observable content: a list of nodes ordered by `compareThings` on
the stored key — node position in the real tree is determined by the
key alone, while the balancing shape is unobservable — each node
holding the key under which it was created and its `data` array of
document pointers in insertion order.  `checkValueEquality` of the
source is JS `===` on document pointers; documents in the model are
values, so structural equality stands in for pointer identity (every
theorem below that needs pointer-style reasoning assumes the documents
involved are pairwise distinct values, which the datastore guarantees by
deep-copying on insert).

A JS method that both mutates state and can throw becomes a function
returning the post-call state together with the thrown error, if any:
an exception aborts the remaining statements but keeps the mutations
already performed.
-/

/-- One AVL node: the key it was created under and its document array. -/
abbrev TreeNode := NValue × List NValue

/-- The observable content of one AVL tree. -/
abbrev Tree := List TreeNode

/-- AVL `tree.search(key)`: the data array of the node whose key
compares equal, else `[]`. -/
def treeSearch (t : Tree) (k : NValue) : List NValue :=
  match t with
  | [] => []
  | (k', ds) :: rest =>
    if compareThings k k' = 0 then ds else treeSearch rest k

/-- AVL `tree.insert(key, doc)`: append to the equal-key node's data
array, throwing `uniqueViolated` instead when the tree is unique; a new
key creates a node at its ordered position.  The throw happens before
any mutation. -/
def treeInsert (unique : Bool) (t : Tree) (k : NValue) (d : NValue) :
    Except String Tree :=
  match t with
  | [] => .ok [(k, [d])]
  | (k', ds) :: rest =>
    let c := compareThings k k'
    if c < 0 then .ok ((k, [d]) :: (k', ds) :: rest)
    else if c = 0 then
      if unique then .error "uniqueViolated" else .ok ((k', ds ++ [d]) :: rest)
    else
      match treeInsert unique rest k d with
      | .error e => .error e
      | .ok rest' => .ok ((k', ds) :: rest')

/-- AVL `tree.delete(key, doc)`: drop the pointer-equal entries from the
equal-key node's data array, removing the node when it empties; absent
keys are a no-op. -/
def treeDelete (t : Tree) (k : NValue) (d : NValue) : Tree :=
  match t with
  | [] => []
  | (k', ds) :: rest =>
    if compareThings k k' = 0 then
      match ds.filter (fun x => !nvBEq x d) with
      | [] => rest
      | ds' => (k', ds') :: rest
    else (k', ds) :: treeDelete rest k d

/-- In-order traversal (`executeOnEveryNode` pushing every `data`
entry). -/
def treeGetAll (t : Tree) : List NValue :=
  t.flatMap (fun node => node.2)

/-- One index of the datastore (`lib/indexes.js`): field name, the
`unique`/`sparse` flags, and the tree content. -/
structure IndexState where
  fieldName : String
  unique : Bool
  sparse : Bool
  tree : Tree
deriving Repr

/-- `new Index(options)`. -/
def indexNew (fieldName : String) (unique sparse : Bool) : IndexState :=
  { fieldName := fieldName, unique := unique, sparse := sparse, tree := [] }

/-- Are two array elements identified by `projectForUnique`?  The
source projects null/string/boolean/number to a type-tagged string, so
two such elements are identified exactly when they are equal with equal
type; dates and plain objects are projected to themselves and compared
with `===`, which distinct objects never satisfy. -/
def projSame (a b : NValue) : Bool :=
  match a, b with
  | .null, .null => true
  | .str x, .str y => x == y
  | .bool x, .bool y => x == y
  | .num x, .num y => x == y
  | _, _ => false

/-- Walk of `_.uniq(key, projectForUnique)` with the projections seen so
far: keep the first occurrence of each projection class.  An array
element throws: this fork's `projectForUnique` calls `elt.getTime()`
under an `isArray` test, a `TypeError` on every array (underscore
projects every element, so the throw surfaces whether or not the
element would have been kept). -/
def uniqProjGo (seen : List NValue) : List NValue → Except String (List NValue)
  | [] => .ok []
  | e :: rest =>
    match e with
    | .arr _ => .error "TypeError: elt.getTime is not a function"
    | _ =>
      if seen.any (fun s => projSame s e) then uniqProjGo seen rest
      else
        match uniqProjGo (seen ++ [e]) rest with
        | .error msg => .error msg
        | .ok tail => .ok (e :: tail)

/-- `_.uniq(key, projectForUnique)`. -/
def uniqProj (ks : List NValue) : Except String (List NValue) :=
  uniqProjGo [] ks

/-- Element loop of `Index.insert` for an array key: insert the document
under each projected-distinct element, rolling the already-inserted
elements back by `tree.delete` when one insert throws. -/
def idxInsertKeysLoop (unique : Bool) (d : NValue) (t : Tree) :
    List NValue → List NValue → Tree × Option String
  | inserted, [] => (t, none)
  | inserted, k :: rest =>
    match treeInsert unique t k d with
    | .ok t' => idxInsertKeysLoop unique d t' (inserted ++ [k]) rest
    | .error e =>
      (inserted.foldl (fun acc kk => treeDelete acc kk d) t, some e)

/-- `Index.insert` on a single document: project the key, skip sparse
`undefined`, insert under the key — once per projected-distinct element
when the key is an array, with per-element rollback. -/
def idxInsertDoc (idx : IndexState) (d : NValue) : IndexState × Option String :=
  let key := getDotValue d idx.fieldName
  match key with
  | .undef =>
    if idx.sparse then (idx, none)
    else
      match treeInsert idx.unique idx.tree .undef d with
      | .ok t' => ({ idx with tree := t' }, none)
      | .error e => (idx, some e)
  | .arr ks =>
    (match uniqProj ks with
     | .error e => (idx, some e)
     | .ok keys =>
       match idxInsertKeysLoop idx.unique d idx.tree [] keys with
       | (t', err) => ({ idx with tree := t' }, err))
  | k =>
    match treeInsert idx.unique idx.tree k d with
    | .ok t' => ({ idx with tree := t' }, none)
    | .error e => (idx, some e)

/-- `Index.remove` on a single document (the array-key case runs
`_.uniq` as well, whose array-element `TypeError` propagates). -/
def idxRemoveDoc (idx : IndexState) (d : NValue) : IndexState × Option String :=
  let key := getDotValue d idx.fieldName
  match key with
  | .undef =>
    if idx.sparse then (idx, none)
    else ({ idx with tree := treeDelete idx.tree .undef d }, none)
  | .arr ks =>
    (match uniqProj ks with
     | .error e => (idx, some e)
     | .ok keys =>
       ({ idx with tree := keys.foldl (fun t k => treeDelete t k d) idx.tree }, none))
  | k => ({ idx with tree := treeDelete idx.tree k d }, none)

/-- Document loop of `Index.insert` on an array of documents
(`insertMultipleDocs`): stop at the first throwing insert and remove
the documents inserted before it. -/
def idxInsertList (idx : IndexState) : List NValue → List NValue → IndexState × Option String
  | inserted, [] => (idx, none)
  | inserted, d :: rest =>
    match idxInsertDoc idx d with
    | (idx', none) => idxInsertList idx' (inserted ++ [d]) rest
    | (idx', some e) =>
      let rolled := inserted.foldl
        (fun acc dd =>
          match acc with
          | (st, some msg) => (st, some msg)
          | (st, none) => idxRemoveDoc st dd)
        (idx', none)
      (rolled.1, some (rolled.2.getD e))

/-- `Index.remove` over an array of documents. -/
def idxRemoveList (idx : IndexState) : List NValue → IndexState × Option String
  | [] => (idx, none)
  | d :: rest =>
    match idxRemoveDoc idx d with
    | (idx', none) => idxRemoveList idx' rest
    | (idx', some e) => (idx', some e)

/-- `Index.update(oldDoc, newDoc)` in the single-document form: remove
the old version, insert the new one; a throwing insert reinserts the old
version before rethrowing. -/
def idxUpdateDoc (idx : IndexState) (oldDoc newDoc : NValue) : IndexState × Option String :=
  match idxRemoveDoc idx oldDoc with
  | (idx₁, some e) => (idx₁, some e)
  | (idx₁, none) =>
    match idxInsertDoc idx₁ newDoc with
    | (idx₂, none) => (idx₂, none)
    | (idx₂, some e) =>
      match idxInsertDoc idx₂ oldDoc with
      | (idx₃, some e') => (idx₃, some e')
      | (idx₃, none) => (idx₃, some e)

/-- Insert loop of `updateMultipleDocs`: insert every new version,
stopping at the first throw. -/
def idxUpdateInsertLoop (idx : IndexState) :
    List NValue → List (NValue × NValue) → IndexState × Option String × List NValue
  | done, [] => (idx, none, done)
  | done, (_, newDoc) :: rest =>
    match idxInsertDoc idx newDoc with
    | (idx', none) => idxUpdateInsertLoop idx' (done ++ [newDoc]) rest
    | (idx', some e) => (idx', some e, done)

/-- `Index.updateMultipleDocs(pairs)`: remove every old version, insert
every new one; when an insert throws, remove the new versions inserted
so far, reinsert every old version, and rethrow. -/
def idxUpdateMulti (idx : IndexState) (pairs : List (NValue × NValue)) :
    IndexState × Option String :=
  match idxRemoveList idx (pairs.map Prod.fst) with
  | (idx₁, some e) => (idx₁, some e)
  | (idx₁, none) =>
    match idxUpdateInsertLoop idx₁ [] pairs with
    | (idx₂, none, _) => (idx₂, none)
    | (idx₂, some e, insertedNews) =>
      let removedBack := insertedNews.foldl
        (fun acc dd =>
          match acc with
          | (st, some msg) => (st, some msg)
          | (st, none) => idxRemoveDoc st dd)
        (idx₂, (none : Option String))
      match removedBack with
      | (idx₃, some e') => (idx₃, some e')
      | (idx₃, none) =>
        match idxInsertList idx₃ [] (pairs.map Prod.fst) with
        | (idx₄, some e') => (idx₄, some e')
        | (idx₄, none) => (idx₄, some e)

/-- `Index.revertUpdate` for the pair-list form: update with the pairs
swapped. -/
def idxRevertUpdateMulti (idx : IndexState) (pairs : List (NValue × NValue)) :
    IndexState × Option String :=
  idxUpdateMulti idx (pairs.map (fun p => (p.2, p.1)))

/-- Set a slot in a JS-object-like association list: replace in place
when the key is present, append otherwise. -/
def assocSet (m : List (NValue × NValue)) (k v : NValue) : List (NValue × NValue) :=
  match m with
  | [] => [(k, v)]
  | (k', v') :: rest =>
    if nvBEq k' k then (k', v) :: rest else (k', v') :: assocSet rest k v

/-- Union loop of `Index.getMatching` on an array of values: collect the
per-value matches into an object keyed by `_id` (JS keys the slot by the
string coercion of `_id`; for string ids, which every theorem below
assumes, value equality on the `_id` field agrees with it). -/
def getMatchingUnion (idx : IndexState) (vs : List NValue)
    (acc : List (NValue × NValue)) : List (NValue × NValue) :=
  match vs with
  | [] => acc
  | v :: rest =>
    getMatchingUnion idx rest
      ((treeSearch idx.tree v).foldl (fun m doc => assocSet m (jsGet doc "_id") doc) acc)

/-- `Index.getMatching(value)`: a point lookup, or for an array of
values the deduplicated union of the per-value lookups. -/
def idxGetMatching (idx : IndexState) (v : NValue) : List NValue :=
  match v with
  | .arr vs => (getMatchingUnion idx vs []).map Prod.snd
  | _ => treeSearch idx.tree v

/-!
### Datastore (`lib/datastore.js`)

Only the parts the claims quantify over are carried in the state: the
index set (an insertion-ordered association list, as `Object.keys`
iterates it for these non-numeric keys), the TTL table, and the journal
of records handed to `persistNewState` (deserialized view; the textual
append is the platform layer).
-/

/-- The datastore state visible to the index-set claims. -/
structure DsState where
  indexes : List (String × IndexState)
  ttlIndexes : List (String × Int)
  journal : List NValue
deriving Repr

/-- The state after `new Datastore(...)`: exactly one index, the unique
`_id` index. -/
def dsInit : DsState :=
  { indexes := [("_id", indexNew "_id" true false)],
    ttlIndexes := [],
    journal := [] }

/-- `Datastore.getAllData()`: the in-order content of the `_id` index. -/
def dsGetAllData (st : DsState) : List NValue :=
  match st.indexes.find? (fun kv => kv.1 == "_id") with
  | some kv => treeGetAll kv.2.tree
  | none => []

/-- Ascending rollback walk of `addToIndexes`: remove the document from
the indexes it was inserted into (a throwing remove aborts the walk, as
a JS exception would). -/
def dsRollbackInsert (doc : NValue) :
    List (String × IndexState) → List (String × IndexState) × Option String
  | [] => ([], none)
  | (name, idx) :: rest =>
    match idxRemoveDoc idx doc with
    | (idx', none) =>
      match dsRollbackInsert doc rest with
      | (rest', err) => ((name, idx') :: rest', err)
    | (idx', some e) => ((name, idx') :: rest, some e)

/-- Index loop of `Datastore.addToIndexes(doc)`. -/
def dsAddToIndexesGo (doc : NValue) (done : List (String × IndexState)) :
    List (String × IndexState) → List (String × IndexState) × Option String
  | [] => (done, none)
  | (name, idx) :: rest =>
    match idxInsertDoc idx doc with
    | (idx', none) => dsAddToIndexesGo doc (done ++ [(name, idx')]) rest
    | (idx', some e) =>
      match dsRollbackInsert doc done with
      | (done', some e') => (done' ++ (name, idx') :: rest, some e')
      | (done', none) => (done' ++ (name, idx') :: rest, some e)

/-- `Datastore.addToIndexes(doc)`: insert into every index in order; on
a throw, roll the insert back on the indexes before the failing one and
rethrow. -/
def dsAddToIndexes (st : DsState) (doc : NValue) : DsState × Option String :=
  match dsAddToIndexesGo doc [] st.indexes with
  | (indexes', err) => ({ st with indexes := indexes' }, err)

/-- `Datastore.removeFromIndexes(doc)`: remove from every index (an
exception would abort the `forEach`). -/
def dsRemoveFromIndexes (st : DsState) (doc : NValue) : DsState × Option String :=
  match dsRollbackInsert doc st.indexes with
  | (indexes', err) => ({ st with indexes := indexes' }, err)

/-- Ascending rollback walk of `updateIndexes`: `revertUpdate` on the
indexes before the failing one. -/
def dsRollbackUpdate (pairs : List (NValue × NValue)) :
    List (String × IndexState) → List (String × IndexState) × Option String
  | [] => ([], none)
  | (name, idx) :: rest =>
    match idxRevertUpdateMulti idx pairs with
    | (idx', none) =>
      match dsRollbackUpdate pairs rest with
      | (rest', err) => ((name, idx') :: rest', err)
    | (idx', some e) => ((name, idx') :: rest, some e)

/-- Index loop of `Datastore.updateIndexes(modifications)`. -/
def dsUpdateIndexesGo (pairs : List (NValue × NValue))
    (done : List (String × IndexState)) :
    List (String × IndexState) → List (String × IndexState) × Option String
  | [] => (done, none)
  | (name, idx) :: rest =>
    match idxUpdateMulti idx pairs with
    | (idx', none) => dsUpdateIndexesGo pairs (done ++ [(name, idx')]) rest
    | (idx', some e) =>
      match dsRollbackUpdate pairs done with
      | (done', some e') => (done' ++ (name, idx') :: rest, some e')
      | (done', none) => (done' ++ (name, idx') :: rest, some e)

/-- `Datastore.updateIndexes(modifications)` in the pair-list form used
by `_update`: update every index in order; on a throw, revert the
indexes before the failing one and rethrow. -/
def dsUpdateIndexes (st : DsState) (pairs : List (NValue × NValue)) :
    DsState × Option String :=
  match dsUpdateIndexesGo pairs [] st.indexes with
  | (indexes', err) => ({ st with indexes := indexes' }, err)

/-- Document loop of `_insertMultipleDocsInCache`: `addToIndexes` each
prepared document, restoring every earlier document's entries on a
throw. -/
def dsInsertMultiGo (st : DsState) (done : List NValue) :
    List NValue → DsState × Option String
  | [] => (st, none)
  | d :: rest =>
    match dsAddToIndexes st d with
    | (st', none) => dsInsertMultiGo st' (done ++ [d]) rest
    | (st', some e) =>
      let rolled := done.foldl
        (fun acc dd =>
          match acc with
          | (s, some msg) => (s, some msg)
          | (s, none) => dsRemoveFromIndexes s dd)
        (st', (none : Option String))
      (rolled.1, some (rolled.2.getD e))

/-- `Datastore._insertInCache`: one document or an array of documents,
atomically across indexes. -/
def dsInsertInCache (st : DsState) (newDoc : Except (List NValue) NValue) :
    DsState × Option String :=
  match newDoc with
  | .ok d => dsAddToIndexes st d
  | .error docs => dsInsertMultiGo st [] docs

/-- Options accepted by `ensureIndex` (an empty `fieldName` models the
falsy missing field). -/
structure EnsureOpts where
  fieldName : String
  unique : Bool
  sparse : Bool
  expireAfterSeconds : Option Int
deriving Repr

/-- The `$$indexCreated` journal record for the given options (the
source persists the options object itself). -/
def indexCreatedRecord (opts : EnsureOpts) : NValue :=
  .obj [("$$indexCreated",
    .obj ([("fieldName", .str opts.fieldName),
           ("unique", .bool opts.unique),
           ("sparse", .bool opts.sparse)] ++
          (match opts.expireAfterSeconds with
           | some n => [("expireAfterSeconds", .num n)]
           | none => [])))]

/-- `Datastore.ensureIndex(options)`: refuse a missing field name; an
existing index for the field returns immediately with no change; else
create the index, record a TTL entry when `expireAfterSeconds` is set,
fill the index from the current data (deleting it again on a throw —
the TTL entry stays, as in the source), and append the
`$$indexCreated` record to the datafile. -/
def dsEnsureIndex (st : DsState) (opts : EnsureOpts) : DsState × Option String :=
  if opts.fieldName == "" then
    (st, some "Cannot create an index without a fieldName")
  else if (st.indexes.find? (fun kv => kv.1 == opts.fieldName)).isSome then
    (st, none)
  else
    let idx := indexNew opts.fieldName opts.unique opts.sparse
    let ttl' :=
      match opts.expireAfterSeconds with
      | some n => st.ttlIndexes ++ [(opts.fieldName, n)]
      | none => st.ttlIndexes
    match idxInsertList idx [] (dsGetAllData st) with
    | (_, some e) => ({ st with ttlIndexes := ttl' }, some e)
    | (idx', none) =>
      ({ st with
          indexes := st.indexes ++ [(opts.fieldName, idx')],
          ttlIndexes := ttl',
          journal := st.journal ++ [indexCreatedRecord opts] }, none)

/-- `Datastore.removeIndex(fieldName)`: delete the slot — whatever the
field name, `_id` included — and append a `$$indexRemoved` record. -/
def dsRemoveIndex (st : DsState) (fieldName : String) : DsState × Option String :=
  ({ st with
      indexes := st.indexes.filter (fun kv => kv.1 != fieldName),
      journal := st.journal ++ [.obj [("$$indexRemoved", .str fieldName)]] }, none)

/-!
### Persistence (`lib/persistence.js`)

A datafile is split into lines; each line either deserializes (through
`beforeDeserialization` and `JSON.parse`) to a value or throws.  The
textual layer is the platform builtin, so `treatRawData` is modelled on
the list of per-line outcomes; the conventional final empty line of a
file written by this code is one of the failing lines.
-/

/-- One line of the datafile, by its deserialization outcome. -/
inductive RawLine where
  | emptyLine : RawLine
  | junk : RawLine
  | good : NValue → RawLine
deriving Repr

/-- Does deserializing this line throw (`JSON.parse("")` throws, so the
conventional final empty line fails like any junk line). -/
def parseFailsB : RawLine → Bool
  | .good _ => false
  | _ => true

/-- Decimal digits of a natural number (fuel is the number itself). -/
def natDecimalAux : Nat → Nat → List Char
  | 0, _ => []
  | _ + 1, 0 => []
  | fuel + 1, n => natDecimalAux fuel (n / 10) ++ [Char.ofNat (48 + n % 10)]

/-- Decimal print of a natural number. -/
def natDecimal (n : Nat) : String :=
  if n == 0 then "0" else String.mk (natDecimalAux (n + 1) n)

/-- Decimal print of an integer. -/
def intDecimal (i : Int) : String :=
  if i < 0 then "-" ++ natDecimal i.natAbs else natDecimal i.toNat

/-- JS property-key coercion `String(v)` for the values used as
`dataById[doc._id]` slots.  Strings, numbers, booleans and null
are coerced as JS does; dates and containers are tagged
approximations (JS prints a locale date string or joins elements —
every theorem below assumes string ids, where the two agree). -/
def jsPropKey : NValue → String
  | .str s => s
  | .num n => intDecimal n
  | .bool b => if b then "true" else "false"
  | .null => "null"
  | .undef => "undefined"
  | .date ms => "@Date:" ++ intDecimal ms
  | .arr _ => "@Array"
  | .obj _ => "[object Object]"

/-- Set a slot in a string-keyed JS object: replace in place when
present, append otherwise. -/
def sAssocSet (m : List (String × NValue)) (k : String) (v : NValue) :
    List (String × NValue) :=
  match m with
  | [] => [(k, v)]
  | (k', v') :: rest =>
    if k' == k then (k', v) :: rest else (k', v') :: sAssocSet rest k v

/-- Delete a slot from a string-keyed JS object. -/
def sAssocDelete (m : List (String × NValue)) (k : String) :
    List (String × NValue) :=
  m.filter (fun kv => kv.1 != k)

/-- Lookup in a string-keyed JS object. -/
def sAssocGet (m : List (String × NValue)) (k : String) : Option NValue :=
  (m.find? (fun kv => kv.1 == k)).map Prod.snd

/-- Accumulator of the `treatRawData` loop: the `dataById` object, the
`indexes` object, and the corruption counter (which starts at −1). -/
structure TreatAcc where
  dataById : List (String × NValue)
  indexes : List (String × NValue)
  corruptItems : Int
deriving Repr

/-- One iteration of the `treatRawData` loop: a failing line bumps the
corruption counter; a record with a truthy `_id` is stored or, when its
`$$deleted` is strictly `true`, deletes its slot; otherwise a
`$$indexCreated` object with a non-nullish `fieldName` is stored in the
index table and a string `$$indexRemoved` deletes from it. -/
def treatLine (acc : TreatAcc) (l : RawLine) : TreatAcc :=
  match l with
  | .emptyLine => { acc with corruptItems := acc.corruptItems + 1 }
  | .junk => { acc with corruptItems := acc.corruptItems + 1 }
  | .good doc =>
    let idv := jsGet doc "_id"
    if truthy idv then
      if (match jsGet doc "$$deleted" with | .bool true => true | _ => false) then
        { acc with dataById := sAssocDelete acc.dataById (jsPropKey idv) }
      else
        { acc with dataById := sAssocSet acc.dataById (jsPropKey idv) doc }
    else
      let ic := jsGet doc "$$indexCreated"
      if truthy ic &&
         !(match jsGet ic "fieldName" with | .undef => true | .null => true | _ => false) then
        { acc with indexes := sAssocSet acc.indexes (jsPropKey (jsGet ic "fieldName")) ic }
      else
        match jsGet doc "$$indexRemoved" with
        | .str fn => { acc with indexes := sAssocDelete acc.indexes fn }
        | _ => acc

/-- The full `treatRawData` loop from the initial accumulator. -/
def treatFold (lines : List RawLine) : TreatAcc :=
  lines.foldl treatLine { dataById := [], indexes := [], corruptItems := -1 }

/-- `Persistence.treatRawData`: run the loop, fail when the corruption
ratio exceeds the threshold, else return the surviving documents (in
slot order) and the index table. -/
def treatRawData (threshold : ℚ) (lines : List RawLine) :
    Except String (List NValue × List (String × NValue)) :=
  if 0 < lines.length ∧
     ((treatFold lines).corruptItems : ℚ) / (lines.length : ℚ) > threshold then
    .error "More than a fraction corruptAlertThreshold of the data file is corrupt"
  else
    .ok ((treatFold lines).dataById.map Prod.snd, (treatFold lines).indexes)

/-- `Datastore.resetIndexes()` with no data: clear every index's tree. -/
def dsClearIndexes (st : DsState) : DsState :=
  { st with indexes := st.indexes.map (fun kv => (kv.1, { kv.2 with tree := [] })) }

/-- `new Index(record)` for a `$$indexCreated` record: the stored
options object supplies the field name and the truthiness-coerced
`unique`/`sparse` flags. -/
def indexFromRecord (v : NValue) : IndexState :=
  indexNew
    (match jsGet v "fieldName" with
     | .str s => s
     | w => jsPropKey w)
    (truthy (jsGet v "unique"))
    (truthy (jsGet v "sparse"))

/-- `Datastore.resetIndexes(newData)`: every index is reset to a fresh
tree and filled with the documents; a throw aborts the walk. -/
def dsFillIndexes (docs : List NValue) :
    List (String × IndexState) → List (String × IndexState) × Option String
  | [] => ([], none)
  | (name, idx) :: rest =>
    match idxInsertList { idx with tree := [] } [] docs with
    | (idx', none) =>
      match dsFillIndexes docs rest with
      | (rest', err) => ((name, idx') :: rest', err)
    | (idx', some e) => ((name, idx') :: rest, some e)

/-- `Persistence.loadDatabase` after the I/O steps: reset the indexes,
fold the datafile, recreate the recorded indexes, and fill every index
with the surviving documents; a corruption error or a unique-constraint
throw during the fill leaves every index cleared.  (The compaction that
follows a successful load rewrites the file but does not change the
in-memory state.) -/
def loadDb (st : DsState) (threshold : ℚ) (lines : List RawLine) :
    DsState × Option String :=
  let st₀ := dsClearIndexes st
  match treatRawData threshold lines with
  | .error e => (st₀, some e)
  | .ok (docs, idxRecords) =>
    let indexes₁ := idxRecords.foldl
      (fun acc kv =>
        match acc.find? (fun slot => slot.1 == kv.1) with
        | some _ => acc.map (fun slot => if slot.1 == kv.1 then (slot.1, indexFromRecord kv.2) else slot)
        | none => acc ++ [(kv.1, indexFromRecord kv.2)])
      st₀.indexes
    match dsFillIndexes docs indexes₁ with
    | (_, some e) => (dsClearIndexes { st₀ with indexes := indexes₁ }, some e)
    | (indexes₂, none) => ({ st₀ with indexes := indexes₂ }, none)

/-!
#### The logical fold and the operation journal (claim C1)

`specFoldDocs` is modelled from the spec: "a record carrying `_id` and
not marked `$$deleted` maps its `_id` to that document, overriding any
earlier record with the same `_id`; a tombstone removes that `_id`; a
`$$indexCreated` record adds the named index definition and a
`$$indexRemoved` record removes it."
-/

/-- Modelled from the spec: one step of the logical left fold of the
datafile (claim C1's wording; a failing line contributes nothing). -/
def specFoldLine (acc : List (String × NValue) × List (String × NValue))
    (l : RawLine) : List (String × NValue) × List (String × NValue) :=
  match l with
  | .emptyLine => acc
  | .junk => acc
  | .good doc =>
    match jsGet doc "_id" with
    | .undef =>
      let ic := jsGet doc "$$indexCreated"
      if !(match ic with | .undef => true | .null => true | _ => false) &&
         !(match jsGet ic "fieldName" with | .undef => true | .null => true | _ => false) then
        (acc.1, sAssocSet acc.2 (jsPropKey (jsGet ic "fieldName")) ic)
      else
        match jsGet doc "$$indexRemoved" with
        | .str fn => (acc.1, sAssocDelete acc.2 fn)
        | _ => acc
    | idv =>
      if (match jsGet doc "$$deleted" with | .bool true => true | _ => false) then
        (sAssocDelete acc.1 (jsPropKey idv), acc.2)
      else
        (sAssocSet acc.1 (jsPropKey idv) doc, acc.2)

/-- Modelled from the spec: the logical fold of a datafile. -/
def specFold (lines : List RawLine) :
    List (String × NValue) × List (String × NValue) :=
  lines.foldl specFoldLine ([], [])

/-- One executor-serialized mutating operation, by the journal records
it appends on success: an insert of one or several documents, an update
carrying its (old, new) modifications, a remove carrying the removed
ids. -/
inductive DsOp where
  | ins : List NValue → DsOp
  | upd : List (NValue × NValue) → DsOp
  | rem : List String → DsOp

/-- The datafile lines one successful operation appends: inserted
documents, new versions, tombstones (the source builds a tombstone as
`($$deleted: true, _id: id)`). -/
def linesOfOp : DsOp → List NValue
  | .ins docs => docs
  | .upd mods => mods.map Prod.snd
  | .rem ids => ids.map (fun id => .obj [("$$deleted", .bool true), ("_id", .str id)])

/-- All lines of a run of operations, in submission order. -/
def linesOfOps (ops : List DsOp) : List NValue :=
  ops.flatMap linesOfOp

/-- The datafile line a persisted document yields on reload:
`persistNewState` appends `serialize(doc)` as one line (the JSON text
layer being a bijection between `JValue` trees and wire lines), and
`treatRawData` reads the line back through `deserialize`.  A document
whose serialization throws or returns `undefined` is never written by a
successful operation; such a line would be corrupt. -/
def rawLineOfDoc (d : NValue) : RawLine :=
  match serialize d with
  | .ok (some j) => .good (deserialize j)
  | _ => .junk

/-- Does this document qualify for faithful replay: a plain object whose
`_id` is a non-empty string, which carries no `$$deleted` field, and
which survives the serialization round trip unchanged (`wfSerializable`:
every key passes `checkKey`, no literal `$$date` key anywhere, no
`undefined` value -- a document violating these is either refused by the
serializer or read back from the datafile as a different value). -/
def replayableDoc (d : NValue) (id : String) : Bool :=
  (match d with | .obj _ => true | _ => false) &&
  (match jsGet d "_id" with | .str s => s == id && s != "" | _ => false) &&
  (match jsGet d "$$deleted" with | .undef => true | _ => false) &&
  wfSerializable d

/-- String-id discipline of one datafile line: a deserialized record
either has no `_id` or a non-empty string `_id` (the ids the datastore
itself generates are such strings; the claim's fold refinement is
stated for files honouring that discipline, where the truthy `_id` test
of the code and the spec's "carrying `_id`" agree). -/
def lineOk : RawLine → Bool
  | .good doc =>
    (match jsGet doc "_id" with
     | .undef => true
     | .str s => s != ""
     | _ => false)
  | _ => true

/-- Every document stored in `dataById` is a plain object with a
non-empty string `_id`. -/
def docIdOk (d : NValue) : Bool :=
  (match d with | .obj _ => true | _ => false) &&
  (match jsGet d "_id" with | .str s => s != "" | _ => false)

/-- The logical effect of one successful operation on the document map
(`none` when the operation could not have succeeded in that state, or
when it falls outside the replayable fragment). -/
def execOp (m : List (String × NValue)) : DsOp → Option (List (String × NValue))
  | .ins docs =>
    docs.foldlM
      (fun acc d =>
        match jsGet d "_id" with
        | .str id =>
          if replayableDoc d id && (sAssocGet acc id).isNone then
            some (sAssocSet acc id d)
          else none
        | _ => none)
      m
  | .upd mods =>
    mods.foldlM
      (fun acc p =>
        match jsGet p.1 "_id" with
        | .str id =>
          if replayableDoc p.2 id &&
             (match sAssocGet acc id with | some d => nvBEq d p.1 | none => false) then
            some (sAssocSet acc id p.2)
          else none
        | _ => none)
      m
  | .rem ids =>
    ids.foldlM
      (fun acc id =>
        if id != "" && (sAssocGet acc id).isSome then
          some (sAssocDelete acc id)
        else none)
      m

/-- The logical result of a run of successful operations, from the
empty store. -/
def execOps (ops : List DsOp) : Option (List (String × NValue)) :=
  ops.foldlM execOp []

/-- The documents held in memory: the content of the `_id` index. -/
def dsDocs (st : DsState) : List NValue := dsGetAllData st

/-!
### The Persistence constructor's hook validation (claim C7)
-/

/-- The random strings the constructor round-trips: `uid i j` stands for
the fresh random string drawn in iteration `(i, j)`; the loops run
`i = 1 … 29` and `j = 0 … 9`. -/
def hookValidationSamples (uid : Nat → Nat → String) : List String :=
  (List.range 29).flatMap (fun i => (List.range 10).map (fun j => uid (i + 1) j))

/-- The constructor checks of `new Persistence(...)` around the
serialization hooks: a datafile name ending in `~` is refused, a
one-sided hook pair is refused, and with both hooks present every
sampled round trip must return the original string. -/
def persistenceCtor (filenameEndsTilde : Bool)
    (afterSer beforeDeser : Option (String → String))
    (uid : Nat → Nat → String) : Option String :=
  if filenameEndsTilde then
    some "The datafile name cannot end with a ~"
  else
    match afterSer, beforeDeser with
    | some _, none => some "Serialization hook defined but deserialization hook undefined"
    | none, some _ => some "Serialization hook undefined but deserialization hook defined"
    | a?, b? =>
      let after := a?.getD id
      let before := b?.getD id
      if (hookValidationSamples uid).all (fun s => before (after s) == s) then none
      else some "beforeDeserialization is not the reverse of afterSerialization"

/-!
### Storage (`lib/storage.js`, claim C3)

`crashSafeWriteFile` is a waterfall of `fs` calls; the file system is
the platform, so the embedding records which calls run, in order, and
an environment prescribes each call's outcome.
-/

/-- The observable steps of `crashSafeWriteFile(filename, data)`. -/
inductive WriteStep where
  | fsyncParentDir : WriteStep
  | fsyncTarget : WriteStep
  | writeTemp : WriteStep
  | fsyncTemp : WriteStep
  | renameTempToTarget : WriteStep
deriving Repr, DecidableEq

/-- Outcomes the file system gives to each potential step of one
`crashSafeWriteFile` run (`none` is success; `fs.exists` cannot fail). -/
structure WriteEnv where
  targetExists : Bool
  dirFsync1 : Option String
  targetFsync : Option String
  tempWrite : Option String
  tempFsync : Option String
  renameRes : Option String
  dirFsync2 : Option String

/-- `storage.crashSafeWriteFile`: fsync the parent directory, fsync the
target if it exists, write the temporary `filename~`, fsync it, rename
it over the target, fsync the parent directory again; the first failing
step ends the waterfall with its error.  Returns the steps attempted,
in order, and the surfaced error if any. -/
def crashSafeWriteFile (env : WriteEnv) : List WriteStep × Option String :=
  match env.dirFsync1 with
  | some e => ([.fsyncParentDir], some e)
  | none =>
    let afterCheck : List WriteStep × Option String :=
      if env.targetExists then
        match env.targetFsync with
        | some e => ([.fsyncParentDir, .fsyncTarget], some e)
        | none => ([.fsyncParentDir, .fsyncTarget], none)
      else ([.fsyncParentDir], none)
    match afterCheck with
    | (tr, some e) => (tr, some e)
    | (tr, none) =>
      match env.tempWrite with
      | some e => (tr ++ [.writeTemp], some e)
      | none =>
        match env.tempFsync with
        | some e => (tr ++ [.writeTemp, .fsyncTemp], some e)
        | none =>
          match env.renameRes with
          | some e => (tr ++ [.writeTemp, .fsyncTemp, .renameTempToTarget], some e)
          | none =>
            match env.dirFsync2 with
            | some e =>
              (tr ++ [.writeTemp, .fsyncTemp, .renameTempToTarget, .fsyncParentDir], some e)
            | none =>
              (tr ++ [.writeTemp, .fsyncTemp, .renameTempToTarget, .fsyncParentDir], none)

/-!
### Support definitions for the claim statements
-/

/-- Did the `Except` computation succeed. -/
def exceptOk {ε α : Type} : Except ε α → Bool
  | .ok _ => true
  | .error _ => false

/-- Is the value defined (not JS `undefined`). -/
def isDefinedB : NValue → Bool
  | .undef => false
  | _ => true

/-- Modelled from the spec: claim C8's reading of the `$exists`
argument, "v is truthy and non-empty" (the empty string is already
falsy; an empty array or map is truthy but empty). -/
def claimTruthyNonEmpty (v : NValue) : Bool :=
  truthy v &&
  (match v with
   | .arr [] => false
   | .obj [] => false
   | _ => true)

/-- Modelled from the spec: claim C4's corruption count, "every line of
the datafile that fails to deserialize increments a corruption counter,
the conventional final empty line does not count toward corruption". -/
def claimCorruptCount (lines : List RawLine) : Nat :=
  let body :=
    match lines.getLast? with
    | some .emptyLine => lines.dropLast
    | _ => lines
  (body.filter parseFailsB).length

/-- The field values of an object in sorted key order — what the object
branch of `compareThings` walks positionally. -/
def sortedFieldValues (kvs : List (String × NValue)) : List NValue :=
  (sortByKey (normalizeKVs kvs)).map Prod.snd

/-- Is the document held somewhere in the index's tree (standing in for
JS pointer membership; see the index-layer note). -/
def docInIndex (idx : IndexState) (d : NValue) : Prop :=
  ∃ node ∈ idx.tree, d ∈ node.2

/-- Every node of the tree holds a non-empty document array (an
invariant of the AVL package: a delete that empties a node removes the
node). -/
def bucketsNonEmpty (t : Tree) : Bool :=
  t.all (fun node => !node.2.isEmpty)

/-- The document value appears nowhere in the tree (the model of JS
pointer freshness: the datastore deep-copies documents before adding
them to indexes, so a new document is `===`-distinct from every stored
one). -/
def docFresh (t : Tree) (d : NValue) : Bool :=
  (treeGetAll t).all (fun x => !nvBEq x d)

/-- Is the value not a JS array. -/
def keyNonArray : NValue → Bool
  | .arr _ => false
  | _ => true

/-- Hypotheses under which a failed insert restores an index exactly:
the document is fresh for the tree, its key under the index's field is
not an array, and the tree's buckets are non-empty. -/
def insertSafe (doc : NValue) (idx : IndexState) : Bool :=
  docFresh idx.tree doc &&
  keyNonArray (getDotValue doc idx.fieldName) &&
  bucketsNonEmpty idx.tree

/-- Hypotheses under which an inserted document is reachable through an
index: its key under the index's field is not an array, and it is not
skipped as an undefined key of a sparse index. -/
def reachCond (doc : NValue) (idx : IndexState) : Bool :=
  keyNonArray (getDotValue doc idx.fieldName) &&
  !(match getDotValue doc idx.fieldName with
    | .undef => idx.sparse
    | _ => false)

/-- The steps `crashSafeWriteFile` performs before touching the
temporary file: fsync the parent directory, and fsync the target when
it exists. -/
def writePrefix (env : WriteEnv) : List WriteStep :=
  if env.targetExists then [.fsyncParentDir, .fsyncTarget] else [.fsyncParentDir]

/-!
## Theorems

### Shared helper lemmas
-/

/-- Every value has positive structural size. -/
theorem nvSize_pos (v : NValue) : 1 ≤ nvSize v := by
  cases v <;> simp [nvSize]

/-- A cleared datastore holds no documents. -/
theorem dsDocs_dsClearIndexes (st : DsState) : dsDocs (dsClearIndexes st) = [] := by
  unfold dsDocs dsGetAllData dsClearIndexes
  cases h : List.find? (fun kv => kv.1 == "_id")
      (st.indexes.map (fun kv => (kv.1, { kv.2 with tree := [] }))) with
  | none => simp [h]
  | some kv =>
    have hmem := List.mem_of_find?_eq_some h
    simp only [List.mem_map] at hmem
    obtain ⟨orig, _, hkv⟩ := hmem
    simp [← hkv, treeGetAll]

/-- The corruption counter after the `treatRawData` loop: the starting
value plus one per failing line (a successfully parsed record never
touches it). -/
theorem treatFold_corrupt (lines : List RawLine) (acc : TreatAcc) :
    (List.foldl treatLine acc lines).corruptItems =
      acc.corruptItems + (lines.filter parseFailsB).length := by
  induction lines generalizing acc with
  | nil => simp
  | cons l rest ih =>
    have hgood : ∀ doc a, (treatLine a (RawLine.good doc)).corruptItems = a.corruptItems := by
      intro doc a
      simp only [treatLine]
      repeat' split <;> try rfl
    have hstep : (treatLine acc l).corruptItems =
        acc.corruptItems + if parseFailsB l then 1 else 0 := by
      cases l with
      | emptyLine => simp [treatLine, parseFailsB]
      | junk => simp [treatLine, parseFailsB]
      | good doc => simp [hgood, parseFailsB]
    rw [List.foldl_cons, ih, hstep]
    cases h : parseFailsB l <;> simp [h, List.filter_cons] <;> omega

/-!
### Claim C3 — the crash-safe write sequence
-/

/-- C3: `crashSafeWriteFile` performs exactly (1) fsync the parent
directory, (2) fsync the target if it exists, (3) write `filename~`,
(4) fsync `filename~`, (5) rename `filename~` to the target, (6) fsync
the parent directory, in this order; when every step succeeds that full
trace is produced with no error, and the first failing step ends the
run with exactly the steps so far attempted and that step's error. -/
theorem C3_crashSafeWriteFile_sequence (env : WriteEnv) :
    (env.dirFsync1 = none → (env.targetExists = true → env.targetFsync = none) →
     env.tempWrite = none → env.tempFsync = none → env.renameRes = none →
     env.dirFsync2 = none →
     crashSafeWriteFile env =
       (writePrefix env ++
          [.writeTemp, .fsyncTemp, .renameTempToTarget, .fsyncParentDir], none)) ∧
    (∀ e, env.dirFsync1 = some e →
       crashSafeWriteFile env = ([.fsyncParentDir], some e)) ∧
    (∀ e, env.dirFsync1 = none → env.targetExists = true → env.targetFsync = some e →
       crashSafeWriteFile env = ([.fsyncParentDir, .fsyncTarget], some e)) ∧
    (∀ e, env.dirFsync1 = none → (env.targetExists = true → env.targetFsync = none) →
       env.tempWrite = some e →
       crashSafeWriteFile env = (writePrefix env ++ [.writeTemp], some e)) ∧
    (∀ e, env.dirFsync1 = none → (env.targetExists = true → env.targetFsync = none) →
       env.tempWrite = none → env.tempFsync = some e →
       crashSafeWriteFile env = (writePrefix env ++ [.writeTemp, .fsyncTemp], some e)) ∧
    (∀ e, env.dirFsync1 = none → (env.targetExists = true → env.targetFsync = none) →
       env.tempWrite = none → env.tempFsync = none → env.renameRes = some e →
       crashSafeWriteFile env =
         (writePrefix env ++ [.writeTemp, .fsyncTemp, .renameTempToTarget], some e)) ∧
    (∀ e, env.dirFsync1 = none → (env.targetExists = true → env.targetFsync = none) →
       env.tempWrite = none → env.tempFsync = none → env.renameRes = none →
       env.dirFsync2 = some e →
       crashSafeWriteFile env =
         (writePrefix env ++
            [.writeTemp, .fsyncTemp, .renameTempToTarget, .fsyncParentDir], some e)) := by
  obtain ⟨te, d1, tf, tw, tfs, rr, d2⟩ := env
  refine ⟨?_, ?_, ?_, ?_, ?_, ?_, ?_⟩
  · intro h1 h2 h3 h4 h5 h6
    cases te <;> simp_all [crashSafeWriteFile, writePrefix]
  · intro e h1
    cases te <;> simp_all [crashSafeWriteFile, writePrefix]
  · intro e h1 h2 h3
    cases te <;> simp_all [crashSafeWriteFile, writePrefix]
  · intro e h1 h2 h3
    cases te <;> simp_all [crashSafeWriteFile, writePrefix]
  · intro e h1 h2 h3 h4
    cases te <;> simp_all [crashSafeWriteFile, writePrefix]
  · intro e h1 h2 h3 h4 h5
    cases te <;> simp_all [crashSafeWriteFile, writePrefix]
  · intro e h1 h2 h3 h4 h5 h6
    cases te <;> simp_all [crashSafeWriteFile, writePrefix]

/-- Witness for C3 at a concrete environment: target exists and every
step succeeds, giving the full six-step trace. -/
theorem C3_crashSafeWriteFile_sequence_witness :
    crashSafeWriteFile
      { targetExists := true, dirFsync1 := none, targetFsync := none,
        tempWrite := none, tempFsync := none, renameRes := none, dirFsync2 := none } =
      ([.fsyncParentDir, .fsyncTarget, .writeTemp, .fsyncTemp,
        .renameTempToTarget, .fsyncParentDir], none) := by
  have h := (C3_crashSafeWriteFile_sequence
    { targetExists := true, dirFsync1 := none, targetFsync := none,
      tempWrite := none, tempFsync := none, renameRes := none, dirFsync2 := none }).1
    rfl (fun _ => rfl) rfl rfl rfl rfl
  simpa [writePrefix] using h

/-!
### Claim C4 — the corruption threshold
-/

/-- Counterexample to C4 as stated: a datafile consisting of one junk
line (and no conventional trailing empty line).  Per the claim the
corruption counter is 1 and `1/1 > 0.1` should fail the load, but
`treatRawData` starts its counter at −1, computes `0/1`, and loads
successfully with no documents. -/
theorem C4_counterexample :
    treatRawData (1/10) [.junk] = .ok ([], []) ∧
    claimCorruptCount [.junk] = 1 ∧
    ((claimCorruptCount [.junk] : ℚ) / (([RawLine.junk] : List RawLine).length : ℚ)
      > 1/10) := by
  refine ⟨?_, rfl, ?_⟩
  · show (if 0 < ([RawLine.junk] : List RawLine).length ∧
        ((treatFold [.junk]).corruptItems : ℚ) / (([RawLine.junk] : List RawLine).length : ℚ)
          > 1/10 then _ else _) = _
    norm_num [treatFold, treatLine]
  · norm_num [claimCorruptCount, parseFailsB, List.filter]

/-- C4 as amended: every failing line increments the corruption counter,
which starts at −1 — so exactly one failing line (in a well-formed file
the conventional final empty line) is forgiven; the load fails with the
corruption error if and only if (#failing − 1) / #lines exceeds the
threshold; and a load that fails this way installs no documents. -/
theorem C4_corruption_threshold (threshold : ℚ) (lines : List RawLine) :
    (treatFold lines).corruptItems = ((lines.filter parseFailsB).length : Int) - 1 ∧
    (exceptOk (treatRawData threshold lines) = false ↔
      0 < lines.length ∧
      (((lines.filter parseFailsB).length : ℚ) - 1) / (lines.length : ℚ) > threshold) ∧
    (∀ st e, treatRawData threshold lines = .error e →
      (loadDb st threshold lines).2 = some e ∧
      dsDocs (loadDb st threshold lines).1 = []) := by
  have hfold : (treatFold lines).corruptItems =
      ((lines.filter parseFailsB).length : Int) - 1 := by
    unfold treatFold
    rw [treatFold_corrupt]
    simp; omega
  refine ⟨hfold, ?_, ?_⟩
  · unfold treatRawData
    rw [hfold]
    have hcast : ((((lines.filter parseFailsB).length : Int) - 1 : Int) : ℚ) =
        ((lines.filter parseFailsB).length : ℚ) - 1 := by push_cast; ring
    rw [hcast]
    split <;> rename_i hcond <;> simp [exceptOk]
    · exact hcond
    · intro hlen
      exact not_lt.1 fun hgt => hcond ⟨hlen, hgt⟩
  · intro st e herr
    unfold loadDb
    rw [herr]
    exact ⟨rfl, dsDocs_dsClearIndexes st⟩

/-- Witness for C4's amended theorem at a concrete corrupt file: two
junk lines and one record out of three lines; the counter reads 1 and
`1/3 > 0.1` makes the load fail, installing nothing. -/
theorem C4_corruption_threshold_witness :
    (treatFold [.junk, .good (.obj [("_id", .str "a")]), .junk]).corruptItems = 1 ∧
    exceptOk (treatRawData (1/10) [.junk, .good (.obj [("_id", .str "a")]), .junk]) = false := by
  constructor
  · rfl
  · have h := (C4_corruption_threshold (1/10)
      [.junk, .good (.obj [("_id", .str "a")]), .junk]).2.1
    rw [h]
    refine ⟨by decide, ?_⟩
    norm_num [List.filter, parseFailsB]

/-!
### Claim C7 — hook round-trip validation at construction
-/

/-- Counterexample to C7 as stated: the validation loops run lengths
1 through 29 with ten draws each, 290 round trips, not 300. -/
theorem C7_counterexample :
    (hookValidationSamples (fun _ _ => "s")).length = 290 ∧ (290 : Nat) ≠ 300 := by
  refine ⟨?_, by decide⟩
  rw [hookValidationSamples, List.length_flatMap]
  rw [show (List.map (List.length ∘ fun i =>
        List.map (fun j => (fun _ _ => "s") (i + 1) j) (List.range 10)) (List.range 29)) =
      List.map (fun _ => 10) (List.range 29) from by
    apply List.map_congr_left
    intro a _
    simp [Function.comp]]
  decide

/-- C7 as amended: construction validates exactly 290 random-string
round trips (29 lengths, 10 draws each); providing exactly one of the
two hooks refuses construction; with both hooks, construction succeeds
exactly when every sampled round trip returns the original string. -/
theorem C7_hook_validation (uid : Nat → Nat → String) (f g : String → String) :
    (hookValidationSamples uid).length = 290 ∧
    (persistenceCtor false (some f) none uid).isSome = true ∧
    (persistenceCtor false none (some g) uid).isSome = true ∧
    (persistenceCtor false (some f) (some g) uid = none ↔
      ∀ s ∈ hookValidationSamples uid, g (f s) = s) := by
  refine ⟨?_, rfl, rfl, ?_⟩
  · rw [hookValidationSamples, List.length_flatMap]
    rw [show (List.map (List.length ∘ fun i =>
          List.map (fun j => uid (i + 1) j) (List.range 10)) (List.range 29)) =
        List.map (fun _ => 10) (List.range 29) from by
      apply List.map_congr_left
      intro a _
      simp [Function.comp]]
    decide
  · have hred : persistenceCtor false (some f) (some g) uid =
        (if (hookValidationSamples uid).all (fun s => g (f s) == s) = true then none
         else some "beforeDeserialization is not the reverse of afterSerialization") := rfl
    constructor
    · intro hnone s hs
      cases hall : (hookValidationSamples uid).all (fun s => g (f s) == s) with
      | true => simpa using List.all_eq_true.mp hall s hs
      | false =>
        rw [hred, hall] at hnone
        simp at hnone
    · intro hforall
      have hall : (hookValidationSamples uid).all (fun s => g (f s) == s) = true := by
        rw [List.all_eq_true]
        intro s hs
        simpa using hforall s hs
      rw [hred, hall]
      simp

/-!
### Claim C6 — serialization round trip
-/

/-- Round-trip induction: a well-formed value serializes successfully
and revives to itself; similarly for element lists and field lists,
where additionally no field is named `$$date`. -/
theorem serRound_aux :
    ∀ n : Nat,
      (∀ v, nvSize v ≤ n → wfSerializable v = true →
        ∃ j, serCore v = .ok (some j) ∧ revive j = v) ∧
      (∀ es, nvSizeList es ≤ n → wfSerializableList es = true →
        ∃ js, serArr es = .ok js ∧ reviveList js = es) ∧
      (∀ kvs, nvSizeKVs kvs ≤ n → wfSerializableKVs kvs = true →
        ∃ jfs, serObj kvs = .ok jfs ∧ reviveFields jfs = kvs ∧
          kvs.find? (fun kv => kv.1 == "$$date") = none) := by
  intro n
  induction n with
  | zero =>
    refine ⟨?_, ?_, ?_⟩
    · intro v hv _
      exact absurd hv (by have := nvSize_pos v; omega)
    · intro es hes _
      cases es with
      | nil => exact ⟨[], rfl, rfl⟩
      | cons e rest =>
        exfalso
        have := nvSize_pos e
        simp [nvSizeList] at hes
    · intro kvs hkvs _
      cases kvs with
      | nil => exact ⟨[], rfl, rfl, rfl⟩
      | cons kv rest =>
        exfalso
        have := nvSize_pos kv.2
        cases kv
        simp [nvSizeKVs] at hkvs
  | succ n ih =>
    obtain ⟨ihV, ihL, ihK⟩ := ih
    refine ⟨?_, ?_, ?_⟩
    · intro v hv hwf
      cases v with
      | undef => simp [wfSerializable] at hwf
      | null => exact ⟨.jnull, rfl, rfl⟩
      | bool b => exact ⟨.jbool b, rfl, rfl⟩
      | num m => exact ⟨.jnum m, rfl, rfl⟩
      | str s => exact ⟨.jstr s, rfl, rfl⟩
      | date ms =>
        refine ⟨.jobj [("$$date", .jnum ms)], rfl, ?_⟩
        simp [revive, reviveFields, reviveList, jsNewDateMillis, truthy]
      | arr es =>
        have hsz : nvSizeList es ≤ n := by
          simp [nvSize] at hv
          omega
        have hwf' : wfSerializableList es = true := by
          simpa [wfSerializable] using hwf
        obtain ⟨js, hs, hr⟩ := ihL es hsz hwf'
        refine ⟨.jarr js, ?_, ?_⟩
        · simp [serCore, hs]
        · simp [revive, hr]
      | obj kvs =>
        have hsz : nvSizeKVs kvs ≤ n := by
          simp [nvSize] at hv
          omega
        have hwf' : wfSerializableKVs kvs = true := by
          simpa [wfSerializable] using hwf
        obtain ⟨jfs, hs, hr, hfind⟩ := ihK kvs hsz hwf'
        refine ⟨.jobj jfs, ?_, ?_⟩
        · simp [serCore, hs]
        · simp [revive, hr, hfind]
    · intro es hes hwf
      cases es with
      | nil => exact ⟨[], rfl, rfl⟩
      | cons e rest =>
        have hsz1 : nvSize e ≤ n := by
          simp [nvSizeList] at hes
          omega
        have hsz2 : nvSizeList rest ≤ n := by
          simp [nvSizeList] at hes
          omega
        have hwf1 : wfSerializable e = true := by
          simp [wfSerializableList] at hwf
          exact hwf.1
        have hwf2 : wfSerializableList rest = true := by
          simp [wfSerializableList] at hwf
          exact hwf.2
        obtain ⟨j, hje, hre⟩ := ihV e hsz1 hwf1
        obtain ⟨js, hjs, hrs⟩ := ihL rest hsz2 hwf2
        refine ⟨j :: js, ?_, ?_⟩
        · simp [serArr, hje, hjs]
        · simp [reviveList, hre, hrs]
    · intro kvs hkvs hwf
      cases kvs with
      | nil => exact ⟨[], rfl, rfl, rfl⟩
      | cons kv rest =>
        obtain ⟨k, v⟩ := kv
        have hsz1 : nvSize v ≤ n := by
          simp [nvSizeKVs] at hkvs
          omega
        have hsz2 : nvSizeKVs rest ≤ n := by
          simp [nvSizeKVs] at hkvs
          omega
        simp only [wfSerializableKVs, Bool.and_eq_true] at hwf
        obtain ⟨⟨⟨hkey, hknd⟩, hv⟩, hrest⟩ := hwf
        obtain ⟨j, hje, hre⟩ := ihV v hsz1 hv
        obtain ⟨jfs, hjs, hrs, hfind⟩ := ihK rest hsz2 hrest
        have hkne : (k == "$$date") = false := by
          simpa using hknd
        refine ⟨(k, j) :: jfs, ?_, ?_, ?_⟩
        · simp [serObj, hkey, hje, hjs]
        · simp [reviveFields, hkne, hre, hrs]
        · simp [List.find?, hkne, hfind]

/-- Counterexample to C6 as stated: the sentinel carve-out lets a
document carry a literal `$$date` key (with a number value, `checkKey`
allows it), but the deserializer's reviver turns that member into a
date — the round trip returns a different document. -/
theorem C6_counterexample :
    claimSerializable (NValue.obj [("x", NValue.obj [("$$date", NValue.num 5)])]) = true ∧
    roundTrip (NValue.obj [("x", NValue.obj [("$$date", NValue.num 5)])]) =
      some (NValue.obj [("x", NValue.date 5)]) ∧
    roundTrip (NValue.obj [("x", NValue.obj [("$$date", NValue.num 5)])]) ≠
      some (NValue.obj [("x", NValue.obj [("$$date", NValue.num 5)])]) := by
  refine ⟨rfl, rfl, ?_⟩
  intro h
  rw [show roundTrip (NValue.obj [("x", NValue.obj [("$$date", NValue.num 5)])]) =
    some (NValue.obj [("x", NValue.date 5)]) from rfl] at h
  simp at h

/-- C6 as amended: for every document whose keys are free of `.` and of
a leading `$` apart from the reserved sentinels, whose values are never
`undefined`, and which contains no literal `$$date` key,
`deserialize(serialize(D))` is structurally equal to `D`; in particular
date values survive the round trip through the `$$date` encoding. -/
theorem C6_serialize_roundTrip (v : NValue) (h : wfSerializable v = true) :
    roundTrip v = some v := by
  obtain ⟨j, hs, hr⟩ := (serRound_aux (nvSize v)).1 v le_rfl h
  simp [roundTrip, serialize, hs, deserialize, hr]

/-- Witness for C6 at a concrete document containing a date, an array
and a sentinel tombstone marker. -/
theorem C6_serialize_roundTrip_witness :
    roundTrip (NValue.obj [("a", NValue.date 3),
      ("b", NValue.arr [NValue.num 1, NValue.str "x"]), ("$$deleted", NValue.bool true)]) =
      some (NValue.obj [("a", NValue.date 3),
        ("b", NValue.arr [NValue.num 1, NValue.str "x"]), ("$$deleted", NValue.bool true)]) :=
  C6_serialize_roundTrip _ (by rfl)

/-!
### Claim C5 — `compareThings` ordering laws
-/

theorem charEq_of_toNat {a b : Char} (h : a.toNat = b.toNat) : a = b := by
  apply Char.ext
  exact UInt32.toNat.inj h

theorem strLtL_irrefl : ∀ l, strLtL l l = false := by
  intro l
  induction l with
  | nil => rfl
  | cons a as ih => simp [strLtL, ih]

theorem strLtL_asymm : ∀ l1 l2, strLtL l1 l2 = true → strLtL l2 l1 = false := by
  intro l1
  induction l1 with
  | nil => intro l2 h; cases l2 <;> simp [strLtL] at h ⊢
  | cons a as ih =>
    intro l2 h
    cases l2 with
    | nil => simp [strLtL] at h
    | cons b bs =>
      simp only [strLtL] at h ⊢
      split_ifs at h ⊢ <;> try omega
      · rfl
      · exact ih bs h

theorem strLtL_trans : ∀ l1 l2 l3, strLtL l1 l2 = true → strLtL l2 l3 = true →
    strLtL l1 l3 = true := by
  intro l1
  induction l1 with
  | nil =>
    intro l2 l3 h1 h2
    cases l2 with
    | nil => simp [strLtL] at h1
    | cons b bs =>
      cases l3 with
      | nil => simp [strLtL] at h2
      | cons c cs => simp [strLtL]
  | cons a as ih =>
    intro l2 l3 h1 h2
    cases l2 with
    | nil => simp [strLtL] at h1
    | cons b bs =>
      cases l3 with
      | nil => simp [strLtL] at h2
      | cons c cs =>
        simp only [strLtL] at h1 h2 ⊢
        split_ifs at h1 h2 ⊢ <;> try omega
        all_goals try rfl
        exact ih bs cs h1 h2

theorem strLtL_conn : ∀ l1 l2, strLtL l1 l2 = false → strLtL l2 l1 = false → l1 = l2 := by
  intro l1
  induction l1 with
  | nil =>
    intro l2 h1 h2
    cases l2 with
    | nil => rfl
    | cons b bs => simp [strLtL] at h1
  | cons a as ih =>
    intro l2 h1 h2
    cases l2 with
    | nil => simp [strLtL] at h2
    | cons b bs =>
      simp only [strLtL] at h1 h2
      split_ifs at h1 h2 <;> try omega
      have hab : a = b := charEq_of_toNat (by omega)
      rw [hab, ih bs h1 h2]

theorem strLtB_asymm (a b : String) (h : strLtB a b = true) : strLtB b a = false :=
  strLtL_asymm a.data b.data h

theorem strLtB_trans (a b c : String) (h1 : strLtB a b = true) (h2 : strLtB b c = true) :
    strLtB a c = true :=
  strLtL_trans a.data b.data c.data h1 h2

theorem strLtB_conn (a b : String) (h1 : strLtB a b = false) (h2 : strLtB b a = false) :
    a = b := by
  cases a with
  | mk la =>
    cases b with
    | mk lb => exact congrArg String.mk (strLtL_conn la lb h1 h2)

theorem compareNSBInt_antisymm (a b : Int) : compareNSBInt a b = -compareNSBInt b a := by
  unfold compareNSBInt
  split_ifs <;> omega

theorem compareNSBInt_trans (a b c : Int) (h1 : compareNSBInt a b ≤ 0)
    (h2 : compareNSBInt b c ≤ 0) : compareNSBInt a c ≤ 0 := by
  unfold compareNSBInt at h1 h2 ⊢
  split_ifs at h1 h2 ⊢ <;> omega

theorem compareNSBInt_vals (a b : Int) :
    compareNSBInt a b = -1 ∨ compareNSBInt a b = 0 ∨ compareNSBInt a b = 1 := by
  unfold compareNSBInt
  split_ifs <;> simp

theorem compareNSBString_antisymm (a b : String) :
    compareNSBString a b = -compareNSBString b a := by
  unfold compareNSBString
  cases hab : strLtB a b
  · cases hba : strLtB b a <;> simp
  · rw [strLtB_asymm a b hab]
    simp

theorem compareNSBString_trans (a b c : String) (h1 : compareNSBString a b ≤ 0)
    (h2 : compareNSBString b c ≤ 0) : compareNSBString a c ≤ 0 := by
  unfold compareNSBString at h1 h2 ⊢
  cases hac : strLtB a c
  · cases hca : strLtB c a
    · simp
    · exfalso
      cases hab : strLtB a b
      · cases hba : strLtB b a
        · have hEq := strLtB_conn a b hab hba
          subst hEq
          rw [hac, hca] at h2
          simp at h2
        · rw [hab, hba] at h1
          simp at h1
      · have hcb : strLtB c b = true := strLtB_trans c a b hca hab
        cases hbc : strLtB b c
        · rw [hbc, hcb] at h2
          simp at h2
        · have hfalse := strLtB_asymm b c hbc
          rw [hfalse] at hcb
          exact Bool.noConfusion hcb
  · simp

theorem compareNSBString_vals (a b : String) :
    compareNSBString a b = -1 ∨ compareNSBString a b = 0 ∨ compareNSBString a b = 1 := by
  unfold compareNSBString
  split_ifs <;> simp

theorem compareNSBBool_antisymm (a b : Bool) : compareNSBBool a b = -compareNSBBool b a :=
  compareNSBInt_antisymm _ _

theorem compareNSBBool_trans (a b c : Bool) (h1 : compareNSBBool a b ≤ 0)
    (h2 : compareNSBBool b c ≤ 0) : compareNSBBool a c ≤ 0 :=
  compareNSBInt_trans _ _ _ h1 h2

theorem compareNSBBool_vals (a b : Bool) :
    compareNSBBool a b = -1 ∨ compareNSBBool a b = 0 ∨ compareNSBBool a b = 1 :=
  compareNSBInt_vals _ _

theorem cmpAntisym_aux :
    ∀ n : Nat,
      (∀ a b, nvSize a + nvSize b ≤ n → cmpThings a b = -cmpThings b a) ∧
      (∀ as bs, nvSizeList as + nvSizeList bs ≤ n → cmpList as bs = -cmpList bs as) ∧
      (∀ aks bks, nvSizeKVs aks + nvSizeKVs bks ≤ n → cmpKVs aks bks = -cmpKVs bks aks) := by
  intro n
  induction n with
  | zero =>
    refine ⟨?_, ?_, ?_⟩
    · intro a b hab
      have ha := nvSize_pos a
      have hb := nvSize_pos b
      omega
    · intro as bs hab
      rcases as with _ | ⟨a, as⟩
      · rcases bs with _ | ⟨b, bs⟩
        · rfl
        · have hb := nvSize_pos b
          simp only [nvSizeList] at hab
          omega
      · have ha := nvSize_pos a
        simp only [nvSizeList] at hab
        omega
    · intro aks bks hab
      rcases aks with _ | ⟨⟨ka, va⟩, aks⟩
      · rcases bks with _ | ⟨⟨kb, vb⟩, bks⟩
        · rfl
        · have hb := nvSize_pos vb
          simp only [nvSizeKVs] at hab
          omega
      · have ha := nvSize_pos va
        simp only [nvSizeKVs] at hab
        omega
  | succ n ih =>
    obtain ⟨ihV, ihL, ihK⟩ := ih
    refine ⟨?_, ?_, ?_⟩
    · intro a b hab
      cases a <;> cases b <;>
        first
          | rfl
          | exact compareNSBInt_antisymm _ _
          | exact compareNSBString_antisymm _ _
          | exact compareNSBBool_antisymm _ _
          | (simp only [nvSize] at hab; exact ihL _ _ (by omega))
          | (simp only [nvSize] at hab; exact ihK _ _ (by omega))
    · intro as bs hab
      rcases as with _ | ⟨a, as⟩
      · rcases bs with _ | ⟨b, bs⟩
        · rfl
        · rfl
      · rcases bs with _ | ⟨b, bs⟩
        · rfl
        · simp only [nvSizeList] at hab
          have hA : cmpThings a b = -cmpThings b a := ihV a b (by omega)
          have hT : cmpList as bs = -cmpList bs as := ihL as bs (by omega)
          have hs1 : cmpList (a :: as) (b :: bs) =
              (if cmpThings a b = 0 then cmpList as bs else cmpThings a b) := rfl
          have hs2 : cmpList (b :: bs) (a :: as) =
              (if cmpThings b a = 0 then cmpList bs as else cmpThings b a) := rfl
          rw [hs1, hs2, hA]
          by_cases hc : cmpThings b a = 0
          · rw [hc]
            simp [hT]
          · rw [if_neg (fun h => hc (neg_eq_zero.mp h)), if_neg hc]
    · intro aks bks hab
      rcases aks with _ | ⟨⟨ka, va⟩, aks⟩
      · rcases bks with _ | ⟨⟨kb, vb⟩, bks⟩
        · rfl
        · rfl
      · rcases bks with _ | ⟨⟨kb, vb⟩, bks⟩
        · rfl
        · simp only [nvSizeKVs] at hab
          have hA : cmpThings va vb = -cmpThings vb va := ihV va vb (by omega)
          have hT : cmpKVs aks bks = -cmpKVs bks aks := ihK aks bks (by omega)
          have hs1 : cmpKVs ((ka, va) :: aks) ((kb, vb) :: bks) =
              (if cmpThings va vb = 0 then cmpKVs aks bks else cmpThings va vb) := rfl
          have hs2 : cmpKVs ((kb, vb) :: bks) ((ka, va) :: aks) =
              (if cmpThings vb va = 0 then cmpKVs bks aks else cmpThings vb va) := rfl
          rw [hs1, hs2, hA]
          by_cases hc : cmpThings vb va = 0
          · rw [hc]
            simp [hT]
          · rw [if_neg (fun h => hc (neg_eq_zero.mp h)), if_neg hc]

theorem cmpThings_antisymm (a b : NValue) : cmpThings a b = -cmpThings b a :=
  (cmpAntisym_aux (nvSize a + nvSize b)).1 a b le_rfl

theorem cmpRefl_aux :
    ∀ n : Nat,
      (∀ a, nvSize a ≤ n → cmpThings a a = 0) ∧
      (∀ as, nvSizeList as ≤ n → cmpList as as = 0) ∧
      (∀ aks, nvSizeKVs aks ≤ n → cmpKVs aks aks = 0) := by
  intro n
  induction n with
  | zero =>
    refine ⟨?_, ?_, ?_⟩
    · intro a ha
      have := nvSize_pos a
      omega
    · intro as ha
      rcases as with _ | ⟨a, as⟩
      · rfl
      · have := nvSize_pos a
        simp only [nvSizeList] at ha
        omega
    · intro aks ha
      rcases aks with _ | ⟨⟨ka, va⟩, aks⟩
      · rfl
      · have := nvSize_pos va
        simp only [nvSizeKVs] at ha
        omega
  | succ n ih =>
    obtain ⟨ihV, ihL, ihK⟩ := ih
    refine ⟨?_, ?_, ?_⟩
    · intro a ha
      cases a <;>
        first
          | rfl
          | (show compareNSBInt _ _ = 0; unfold compareNSBInt; split_ifs <;> omega)
          | (show compareNSBString _ _ = 0;
             unfold compareNSBString
             rw [show strLtB _ _ = false from strLtL_irrefl _]
             rfl)
          | (simp only [nvSize] at ha; exact ihL _ (by omega))
          | (simp only [nvSize] at ha; exact ihK _ (by omega))
    · intro as ha
      rcases as with _ | ⟨a, as⟩
      · rfl
      · simp only [nvSizeList] at ha
        have hA : cmpThings a a = 0 := ihV a (by omega)
        have hT : cmpList as as = 0 := ihL as (by omega)
        have hs1 : cmpList (a :: as) (a :: as) =
            (if cmpThings a a = 0 then cmpList as as else cmpThings a a) := rfl
        rw [hs1, hA]
        simpa using hT
    · intro aks ha
      rcases aks with _ | ⟨⟨ka, va⟩, aks⟩
      · rfl
      · simp only [nvSizeKVs] at ha
        have hA : cmpThings va va = 0 := ihV va (by omega)
        have hT : cmpKVs aks aks = 0 := ihK aks (by omega)
        have hs1 : cmpKVs ((ka, va) :: aks) ((ka, va) :: aks) =
            (if cmpThings va va = 0 then cmpKVs aks aks else cmpThings va va) := rfl
        rw [hs1, hA]
        simpa using hT

theorem cmpThings_refl (a : NValue) : cmpThings a a = 0 :=
  (cmpRefl_aux (nvSize a)).1 a le_rfl

theorem cmpVals_aux :
    ∀ n : Nat,
      (∀ a b, nvSize a + nvSize b ≤ n →
        cmpThings a b = -1 ∨ cmpThings a b = 0 ∨ cmpThings a b = 1) ∧
      (∀ as bs, nvSizeList as + nvSizeList bs ≤ n →
        cmpList as bs = -1 ∨ cmpList as bs = 0 ∨ cmpList as bs = 1) ∧
      (∀ aks bks, nvSizeKVs aks + nvSizeKVs bks ≤ n →
        cmpKVs aks bks = -1 ∨ cmpKVs aks bks = 0 ∨ cmpKVs aks bks = 1) := by
  intro n
  induction n with
  | zero =>
    refine ⟨?_, ?_, ?_⟩
    · intro a b hab
      have := nvSize_pos a
      have := nvSize_pos b
      omega
    · intro as bs hab
      rcases as with _ | ⟨a, as⟩
      · rcases bs with _ | ⟨b, bs⟩
        · right; left; rfl
        · have := nvSize_pos b
          simp only [nvSizeList] at hab
          omega
      · have := nvSize_pos a
        simp only [nvSizeList] at hab
        omega
    · intro aks bks hab
      rcases aks with _ | ⟨⟨ka, va⟩, aks⟩
      · rcases bks with _ | ⟨⟨kb, vb⟩, bks⟩
        · right; left; rfl
        · have := nvSize_pos vb
          simp only [nvSizeKVs] at hab
          omega
      · have := nvSize_pos va
        simp only [nvSizeKVs] at hab
        omega
  | succ n ih =>
    obtain ⟨ihV, ihL, ihK⟩ := ih
    refine ⟨?_, ?_, ?_⟩
    · intro a b hab
      cases a <;> cases b <;>
        first
          | (left; rfl)
          | (right; left; rfl)
          | (right; right; rfl)
          | exact compareNSBInt_vals _ _
          | exact compareNSBString_vals _ _
          | exact compareNSBBool_vals _ _
          | (simp only [nvSize] at hab; exact ihL _ _ (by omega))
          | (simp only [nvSize] at hab; exact ihK _ _ (by omega))
    · intro as bs hab
      rcases as with _ | ⟨a, as⟩
      · rcases bs with _ | ⟨b, bs⟩
        · right; left; rfl
        · left; rfl
      · rcases bs with _ | ⟨b, bs⟩
        · right; right; rfl
        · simp only [nvSizeList] at hab
          have hs1 : cmpList (a :: as) (b :: bs) =
              (if cmpThings a b = 0 then cmpList as bs else cmpThings a b) := rfl
          rw [hs1]
          by_cases hc : cmpThings a b = 0
          · rw [if_pos hc]
            exact ihL as bs (by omega)
          · rw [if_neg hc]
            exact ihV a b (by omega)
    · intro aks bks hab
      rcases aks with _ | ⟨⟨ka, va⟩, aks⟩
      · rcases bks with _ | ⟨⟨kb, vb⟩, bks⟩
        · right; left; rfl
        · left; rfl
      · rcases bks with _ | ⟨⟨kb, vb⟩, bks⟩
        · right; right; rfl
        · simp only [nvSizeKVs] at hab
          have hs1 : cmpKVs ((ka, va) :: aks) ((kb, vb) :: bks) =
              (if cmpThings va vb = 0 then cmpKVs aks bks else cmpThings va vb) := rfl
          rw [hs1]
          by_cases hc : cmpThings va vb = 0
          · rw [if_pos hc]
            exact ihK aks bks (by omega)
          · rw [if_neg hc]
            exact ihV va vb (by omega)

theorem cmpThings_vals (a b : NValue) :
    cmpThings a b = -1 ∨ cmpThings a b = 0 ∨ cmpThings a b = 1 :=
  (cmpVals_aux (nvSize a + nvSize b)).1 a b le_rfl

theorem cmpThings_rank_lt (a b : NValue) (h : rank a < rank b) : cmpThings a b = -1 := by
  cases a <;> cases b <;>
    first
      | rfl
      | (simp [rank] at h)

theorem cmpThings_rank_gt (a b : NValue) (h : rank b < rank a) : cmpThings a b = 1 := by
  rw [cmpThings_antisymm, cmpThings_rank_lt b a h]
  rfl

theorem cmpLexStep (c1 c2 c3 t1 t2 t3 : Int)
    (P1 : c1 ≤ 0 → c2 ≤ 0 → c3 ≤ 0)
    (P2 : -c3 ≤ 0 → c1 ≤ 0 → -c2 ≤ 0)
    (P3 : c2 ≤ 0 → -c3 ≤ 0 → -c1 ≤ 0)
    (P4 : -c2 ≤ 0 → -c1 ≤ 0 → -c3 ≤ 0)
    (ht : c1 = 0 → c2 = 0 → t1 ≤ 0 → t2 ≤ 0 → t3 ≤ 0)
    (h1 : (if c1 = 0 then t1 else c1) ≤ 0)
    (h2 : (if c2 = 0 then t2 else c2) ≤ 0) :
    (if c3 = 0 then t3 else c3) ≤ 0 := by
  by_cases hc1 : c1 = 0
  · rw [if_pos hc1] at h1
    by_cases hc2 : c2 = 0
    · rw [if_pos hc2] at h2
      have hc3 : c3 = 0 := by
        have ha := P1 (by omega) (by omega)
        have hb := P4 (by omega) (by omega)
        omega
      rw [if_pos hc3]
      exact ht hc1 hc2 h1 h2
    · rw [if_neg hc2] at h2
      have hc3le : c3 ≤ 0 := P1 (by omega) h2
      have hc3 : c3 ≠ 0 := by
        intro h0
        have := P2 (by omega) (by omega)
        omega
      rw [if_neg hc3]
      exact hc3le
  · rw [if_neg hc1] at h1
    by_cases hc2 : c2 = 0
    · rw [if_pos hc2] at h2
      have hc3le : c3 ≤ 0 := P1 h1 (by omega)
      have hc3 : c3 ≠ 0 := by
        intro h0
        have := P3 (by omega) (by omega)
        omega
      rw [if_neg hc3]
      exact hc3le
    · rw [if_neg hc2] at h2
      have hc3le : c3 ≤ 0 := P1 h1 h2
      have hc3 : c3 ≠ 0 := by
        intro h0
        have := P2 (by omega) h1
        omega
      rw [if_neg hc3]
      exact hc3le

theorem cmpTrans_aux :
    ∀ n : Nat,
      (∀ a b c, nvSize a + nvSize b + nvSize c ≤ n →
        cmpThings a b ≤ 0 → cmpThings b c ≤ 0 → cmpThings a c ≤ 0) ∧
      (∀ as bs cs, nvSizeList as + nvSizeList bs + nvSizeList cs ≤ n →
        cmpList as bs ≤ 0 → cmpList bs cs ≤ 0 → cmpList as cs ≤ 0) ∧
      (∀ aks bks cks, nvSizeKVs aks + nvSizeKVs bks + nvSizeKVs cks ≤ n →
        cmpKVs aks bks ≤ 0 → cmpKVs bks cks ≤ 0 → cmpKVs aks cks ≤ 0) := by
  intro n
  induction n with
  | zero =>
    refine ⟨?_, ?_, ?_⟩
    · intro a b c hab _ _
      have := nvSize_pos a
      have := nvSize_pos b
      omega
    · intro as bs cs hab h1 h2
      rcases as with _ | ⟨a, as⟩
      · rcases cs with _ | ⟨c, cs⟩
        · decide
        · show (-1 : Int) ≤ 0
          decide
      · have := nvSize_pos a
        simp only [nvSizeList] at hab
        omega
    · intro aks bks cks hab h1 h2
      rcases aks with _ | ⟨⟨ka, va⟩, aks⟩
      · rcases cks with _ | ⟨⟨kc, vc⟩, cks⟩
        · decide
        · show (-1 : Int) ≤ 0
          decide
      · have := nvSize_pos va
        simp only [nvSizeKVs] at hab
        omega
  | succ n ih =>
    obtain ⟨ihV, ihL, ihK⟩ := ih
    refine ⟨?_, ?_, ?_⟩
    · intro a b c hab h1 h2
      have hr1 : rank a ≤ rank b := by
        by_contra hgt
        push_neg at hgt
        rw [cmpThings_rank_gt a b hgt] at h1
        omega
      have hr2 : rank b ≤ rank c := by
        by_contra hgt
        push_neg at hgt
        rw [cmpThings_rank_gt b c hgt] at h2
        omega
      rcases Nat.lt_or_ge (rank a) (rank c) with hlt | hge
      · rw [cmpThings_rank_lt a c hlt]
        decide
      · have hrab : rank a = rank b := by omega
        have hrbc : rank b = rank c := by omega
        cases a <;> cases b <;> cases c <;>
          simp only [rank] at hrab hrbc <;>
          first
            | omega
            | exact le_of_eq (cmpThings_refl _)
            | exact compareNSBInt_trans _ _ _ h1 h2
            | exact compareNSBString_trans _ _ _ h1 h2
            | exact compareNSBBool_trans _ _ _ h1 h2
            | (simp only [nvSize] at hab; exact ihL _ _ _ (by omega) h1 h2)
            | (simp only [nvSize] at hab; exact ihK _ _ _ (by omega) h1 h2)
    · intro as bs cs hab h1 h2
      rcases as with _ | ⟨a, as⟩
      · rcases cs with _ | ⟨c, cs⟩
        · decide
        · show (-1 : Int) ≤ 0
          decide
      · rcases bs with _ | ⟨b, bs⟩
        · exact absurd h1 (show ¬((1 : Int) ≤ 0) by decide)
        · rcases cs with _ | ⟨c, cs⟩
          · exact absurd h2 (show ¬((1 : Int) ≤ 0) by decide)
          · simp only [nvSizeList] at hab
            have hs1 : cmpList (a :: as) (b :: bs) =
                (if cmpThings a b = 0 then cmpList as bs else cmpThings a b) := rfl
            have hs2 : cmpList (b :: bs) (c :: cs) =
                (if cmpThings b c = 0 then cmpList bs cs else cmpThings b c) := rfl
            have hs3 : cmpList (a :: as) (c :: cs) =
                (if cmpThings a c = 0 then cmpList as cs else cmpThings a c) := rfl
            rw [hs1] at h1
            rw [hs2] at h2
            rw [hs3]
            refine cmpLexStep (cmpThings a b) (cmpThings b c) (cmpThings a c)
              (cmpList as bs) (cmpList bs cs) (cmpList as cs) ?_ ?_ ?_ ?_ ?_ h1 h2
            · exact fun p q => ihV a b c (by omega) p q
            · intro p q
              have hres := ihV c a b (by omega)
                (by rw [cmpThings_antisymm c a]; omega) q
              rw [cmpThings_antisymm c b] at hres
              omega
            · intro p q
              have hres := ihV b c a (by omega) p
                (by rw [cmpThings_antisymm c a]; omega)
              rw [cmpThings_antisymm b a] at hres
              omega
            · intro p q
              have hres := ihV c b a (by omega)
                (by rw [cmpThings_antisymm c b]; omega)
                (by rw [cmpThings_antisymm b a]; omega)
              rw [cmpThings_antisymm c a] at hres
              omega
            · exact fun _ _ p q => ihL as bs cs (by omega) p q
    · intro aks bks cks hab h1 h2
      rcases aks with _ | ⟨⟨ka, va⟩, aks⟩
      · rcases cks with _ | ⟨⟨kc, vc⟩, cks⟩
        · decide
        · show (-1 : Int) ≤ 0
          decide
      · rcases bks with _ | ⟨⟨kb, vb⟩, bks⟩
        · exact absurd h1 (show ¬((1 : Int) ≤ 0) by decide)
        · rcases cks with _ | ⟨⟨kc, vc⟩, cks⟩
          · exact absurd h2 (show ¬((1 : Int) ≤ 0) by decide)
          · simp only [nvSizeKVs] at hab
            have hs1 : cmpKVs ((ka, va) :: aks) ((kb, vb) :: bks) =
                (if cmpThings va vb = 0 then cmpKVs aks bks else cmpThings va vb) := rfl
            have hs2 : cmpKVs ((kb, vb) :: bks) ((kc, vc) :: cks) =
                (if cmpThings vb vc = 0 then cmpKVs bks cks else cmpThings vb vc) := rfl
            have hs3 : cmpKVs ((ka, va) :: aks) ((kc, vc) :: cks) =
                (if cmpThings va vc = 0 then cmpKVs aks cks else cmpThings va vc) := rfl
            rw [hs1] at h1
            rw [hs2] at h2
            rw [hs3]
            refine cmpLexStep (cmpThings va vb) (cmpThings vb vc) (cmpThings va vc)
              (cmpKVs aks bks) (cmpKVs bks cks) (cmpKVs aks cks) ?_ ?_ ?_ ?_ ?_ h1 h2
            · exact fun p q => ihV va vb vc (by omega) p q
            · intro p q
              have hres := ihV vc va vb (by omega)
                (by rw [cmpThings_antisymm vc va]; omega) q
              rw [cmpThings_antisymm vc vb] at hres
              omega
            · intro p q
              have hres := ihV vb vc va (by omega) p
                (by rw [cmpThings_antisymm vc va]; omega)
              rw [cmpThings_antisymm vb va] at hres
              omega
            · intro p q
              have hres := ihV vc vb va (by omega)
                (by rw [cmpThings_antisymm vc vb]; omega)
                (by rw [cmpThings_antisymm vb va]; omega)
              rw [cmpThings_antisymm vc va] at hres
              omega
            · exact fun _ _ p q => ihK aks bks cks (by omega) p q

theorem cmpThings_trans (a b c : NValue) (h1 : cmpThings a b ≤ 0) (h2 : cmpThings b c ≤ 0) :
    cmpThings a c ≤ 0 :=
  (cmpTrans_aux (nvSize a + nvSize b + nvSize c)).1 a b c le_rfl h1 h2

theorem cmpKVs_map_snd : ∀ l1 l2, cmpKVs l1 l2 = cmpList (l1.map Prod.snd) (l2.map Prod.snd) := by
  intro l1
  induction l1 with
  | nil =>
    intro l2
    cases l2 with
    | nil => rfl
    | cons bkv bks => rfl
  | cons akv aks ih =>
    intro l2
    obtain ⟨ka, va⟩ := akv
    cases l2 with
    | nil => rfl
    | cons bkv bks =>
      obtain ⟨kb, vb⟩ := bkv
      have hs1 : cmpKVs ((ka, va) :: aks) ((kb, vb) :: bks) =
          (if cmpThings va vb = 0 then cmpKVs aks bks else cmpThings va vb) := rfl
      have hs2 : cmpList (((ka, va) :: aks).map Prod.snd) (((kb, vb) :: bks).map Prod.snd) =
          (if cmpThings va vb = 0 then cmpList (aks.map Prod.snd) (bks.map Prod.snd)
           else cmpThings va vb) := rfl
      rw [hs1, hs2, ih bks]

theorem rank_normalize (a : NValue) : rank (normalize a) = rank a := by
  cases a <;> rfl

theorem cvSize_pos (v : CValue) : 1 ≤ cvSize v := by
  cases v <;> simp [cvSize]

theorem compareNSBNum_eq_lt (a b : JSNum) :
    compareNSBNum a b = if jsNumLt a b then -1 else if jsNumLt b a then 1 else 0 := by
  cases a <;> cases b <;> simp [compareNSBNum, compareNSBInt, jsNumLt]

theorem compareNSBNum_nan_left (x : JSNum) : compareNSBNum JSNum.nan x = 0 := by
  cases x <;> rfl

theorem compareNSBNum_nan_right (x : JSNum) : compareNSBNum x JSNum.nan = 0 := by
  cases x <;> rfl

theorem compareNSBNum_refl (x : JSNum) : compareNSBNum x x = 0 := by
  cases x
  · rfl
  · show compareNSBInt _ _ = 0
    unfold compareNSBInt
    split_ifs <;> omega

theorem compareNSBNum_antisymm (a b : JSNum) : compareNSBNum a b = -compareNSBNum b a := by
  cases a <;> cases b <;> first | rfl | exact compareNSBInt_antisymm _ _

theorem compareNSBNum_vals (a b : JSNum) :
    compareNSBNum a b = -1 ∨ compareNSBNum a b = 0 ∨ compareNSBNum a b = 1 := by
  cases a <;> cases b <;> first | (right; left; rfl) | exact compareNSBInt_vals _ _

theorem compareNSBNum_trans (x y z : JSNum) (hx : jsNumIsVal x = true)
    (hy : jsNumIsVal y = true) (hz : jsNumIsVal z = true)
    (h1 : compareNSBNum x y ≤ 0) (h2 : compareNSBNum y z ≤ 0) :
    compareNSBNum x z ≤ 0 := by
  rcases x with _ | i
  · exact absurd hx Bool.false_ne_true
  rcases y with _ | j
  · exact absurd hy Bool.false_ne_true
  rcases z with _ | k
  · exact absurd hz Bool.false_ne_true
  exact compareNSBInt_trans i j k h1 h2

theorem ccmpAntisym_aux :
    ∀ n : Nat,
      (∀ a b, cvSize a + cvSize b ≤ n → ccmpThings a b = -ccmpThings b a) ∧
      (∀ as bs, cvSizeList as + cvSizeList bs ≤ n → ccmpList as bs = -ccmpList bs as) ∧
      (∀ aks bks, cvSizeKVs aks + cvSizeKVs bks ≤ n → ccmpKVs aks bks = -ccmpKVs bks aks) := by
  intro n
  induction n with
  | zero =>
    refine ⟨?_, ?_, ?_⟩
    · intro a b hab
      have ha := cvSize_pos a
      have hb := cvSize_pos b
      omega
    · intro as bs hab
      rcases as with _ | ⟨a, as⟩
      · rcases bs with _ | ⟨b, bs⟩
        · rfl
        · have hb := cvSize_pos b
          simp only [cvSizeList] at hab
          omega
      · have ha := cvSize_pos a
        simp only [cvSizeList] at hab
        omega
    · intro aks bks hab
      rcases aks with _ | ⟨⟨ka, va⟩, aks⟩
      · rcases bks with _ | ⟨⟨kb, vb⟩, bks⟩
        · rfl
        · have hb := cvSize_pos vb
          simp only [cvSizeKVs] at hab
          omega
      · have ha := cvSize_pos va
        simp only [cvSizeKVs] at hab
        omega
  | succ n ih =>
    obtain ⟨ihV, ihL, ihK⟩ := ih
    refine ⟨?_, ?_, ?_⟩
    · intro a b hab
      cases a <;> cases b <;>
        first
          | rfl
          | exact compareNSBNum_antisymm _ _
          | exact compareNSBString_antisymm _ _
          | exact compareNSBBool_antisymm _ _
          | (simp only [cvSize] at hab; exact ihL _ _ (by omega))
          | (simp only [cvSize] at hab; exact ihK _ _ (by omega))
    · intro as bs hab
      rcases as with _ | ⟨a, as⟩
      · rcases bs with _ | ⟨b, bs⟩
        · rfl
        · rfl
      · rcases bs with _ | ⟨b, bs⟩
        · rfl
        · simp only [cvSizeList] at hab
          have hA : ccmpThings a b = -ccmpThings b a := ihV a b (by omega)
          have hT : ccmpList as bs = -ccmpList bs as := ihL as bs (by omega)
          have hs1 : ccmpList (a :: as) (b :: bs) =
              (if ccmpThings a b = 0 then ccmpList as bs else ccmpThings a b) := rfl
          have hs2 : ccmpList (b :: bs) (a :: as) =
              (if ccmpThings b a = 0 then ccmpList bs as else ccmpThings b a) := rfl
          rw [hs1, hs2, hA]
          by_cases hc : ccmpThings b a = 0
          · rw [hc]
            simp [hT]
          · rw [if_neg (fun h => hc (neg_eq_zero.mp h)), if_neg hc]
    · intro aks bks hab
      rcases aks with _ | ⟨⟨ka, va⟩, aks⟩
      · rcases bks with _ | ⟨⟨kb, vb⟩, bks⟩
        · rfl
        · rfl
      · rcases bks with _ | ⟨⟨kb, vb⟩, bks⟩
        · rfl
        · simp only [cvSizeKVs] at hab
          have hA : ccmpThings va vb = -ccmpThings vb va := ihV va vb (by omega)
          have hT : ccmpKVs aks bks = -ccmpKVs bks aks := ihK aks bks (by omega)
          have hs1 : ccmpKVs ((ka, va) :: aks) ((kb, vb) :: bks) =
              (if ccmpThings va vb = 0 then ccmpKVs aks bks else ccmpThings va vb) := rfl
          have hs2 : ccmpKVs ((kb, vb) :: bks) ((ka, va) :: aks) =
              (if ccmpThings vb va = 0 then ccmpKVs bks aks else ccmpThings vb va) := rfl
          rw [hs1, hs2, hA]
          by_cases hc : ccmpThings vb va = 0
          · rw [hc]
            simp [hT]
          · rw [if_neg (fun h => hc (neg_eq_zero.mp h)), if_neg hc]

theorem ccmpThings_antisymm (a b : CValue) : ccmpThings a b = -ccmpThings b a :=
  (ccmpAntisym_aux (cvSize a + cvSize b)).1 a b le_rfl

theorem ccmpRefl_aux :
    ∀ n : Nat,
      (∀ a, cvSize a ≤ n → ccmpThings a a = 0) ∧
      (∀ as, cvSizeList as ≤ n → ccmpList as as = 0) ∧
      (∀ aks, cvSizeKVs aks ≤ n → ccmpKVs aks aks = 0) := by
  intro n
  induction n with
  | zero =>
    refine ⟨?_, ?_, ?_⟩
    · intro a ha
      have := cvSize_pos a
      omega
    · intro as ha
      rcases as with _ | ⟨a, as⟩
      · rfl
      · have := cvSize_pos a
        simp only [cvSizeList] at ha
        omega
    · intro aks ha
      rcases aks with _ | ⟨⟨ka, va⟩, aks⟩
      · rfl
      · have := cvSize_pos va
        simp only [cvSizeKVs] at ha
        omega
  | succ n ih =>
    obtain ⟨ihV, ihL, ihK⟩ := ih
    refine ⟨?_, ?_, ?_⟩
    · intro a ha
      cases a <;>
        first
          | rfl
          | exact compareNSBNum_refl _
          | (show compareNSBString _ _ = 0;
             unfold compareNSBString
             rw [show strLtB _ _ = false from strLtL_irrefl _]
             rfl)
          | (show compareNSBBool _ _ = 0;
             unfold compareNSBBool compareNSBInt
             split_ifs <;> omega)
          | (simp only [cvSize] at ha; exact ihL _ (by omega))
          | (simp only [cvSize] at ha; exact ihK _ (by omega))
    · intro as ha
      rcases as with _ | ⟨a, as⟩
      · rfl
      · simp only [cvSizeList] at ha
        have hA : ccmpThings a a = 0 := ihV a (by omega)
        have hT : ccmpList as as = 0 := ihL as (by omega)
        have hs1 : ccmpList (a :: as) (a :: as) =
            (if ccmpThings a a = 0 then ccmpList as as else ccmpThings a a) := rfl
        rw [hs1, hA]
        simpa using hT
    · intro aks ha
      rcases aks with _ | ⟨⟨ka, va⟩, aks⟩
      · rfl
      · simp only [cvSizeKVs] at ha
        have hA : ccmpThings va va = 0 := ihV va (by omega)
        have hT : ccmpKVs aks aks = 0 := ihK aks (by omega)
        have hs1 : ccmpKVs ((ka, va) :: aks) ((ka, va) :: aks) =
            (if ccmpThings va va = 0 then ccmpKVs aks aks else ccmpThings va va) := rfl
        rw [hs1, hA]
        simpa using hT

theorem ccmpThings_refl (a : CValue) : ccmpThings a a = 0 :=
  (ccmpRefl_aux (cvSize a)).1 a le_rfl

theorem ccmpVals_aux :
    ∀ n : Nat,
      (∀ a b, cvSize a + cvSize b ≤ n →
        ccmpThings a b = -1 ∨ ccmpThings a b = 0 ∨ ccmpThings a b = 1) ∧
      (∀ as bs, cvSizeList as + cvSizeList bs ≤ n →
        ccmpList as bs = -1 ∨ ccmpList as bs = 0 ∨ ccmpList as bs = 1) ∧
      (∀ aks bks, cvSizeKVs aks + cvSizeKVs bks ≤ n →
        ccmpKVs aks bks = -1 ∨ ccmpKVs aks bks = 0 ∨ ccmpKVs aks bks = 1) := by
  intro n
  induction n with
  | zero =>
    refine ⟨?_, ?_, ?_⟩
    · intro a b hab
      have := cvSize_pos a
      have := cvSize_pos b
      omega
    · intro as bs hab
      rcases as with _ | ⟨a, as⟩
      · rcases bs with _ | ⟨b, bs⟩
        · right; left; rfl
        · have := cvSize_pos b
          simp only [cvSizeList] at hab
          omega
      · have := cvSize_pos a
        simp only [cvSizeList] at hab
        omega
    · intro aks bks hab
      rcases aks with _ | ⟨⟨ka, va⟩, aks⟩
      · rcases bks with _ | ⟨⟨kb, vb⟩, bks⟩
        · right; left; rfl
        · have := cvSize_pos vb
          simp only [cvSizeKVs] at hab
          omega
      · have := cvSize_pos va
        simp only [cvSizeKVs] at hab
        omega
  | succ n ih =>
    obtain ⟨ihV, ihL, ihK⟩ := ih
    refine ⟨?_, ?_, ?_⟩
    · intro a b hab
      cases a <;> cases b <;>
        first
          | (left; rfl)
          | (right; left; rfl)
          | (right; right; rfl)
          | exact compareNSBNum_vals _ _
          | exact compareNSBString_vals _ _
          | exact compareNSBBool_vals _ _
          | (simp only [cvSize] at hab; exact ihL _ _ (by omega))
          | (simp only [cvSize] at hab; exact ihK _ _ (by omega))
    · intro as bs hab
      rcases as with _ | ⟨a, as⟩
      · rcases bs with _ | ⟨b, bs⟩
        · right; left; rfl
        · left; rfl
      · rcases bs with _ | ⟨b, bs⟩
        · right; right; rfl
        · simp only [cvSizeList] at hab
          have hs1 : ccmpList (a :: as) (b :: bs) =
              (if ccmpThings a b = 0 then ccmpList as bs else ccmpThings a b) := rfl
          rw [hs1]
          by_cases hc : ccmpThings a b = 0
          · rw [if_pos hc]
            exact ihL as bs (by omega)
          · rw [if_neg hc]
            exact ihV a b (by omega)
    · intro aks bks hab
      rcases aks with _ | ⟨⟨ka, va⟩, aks⟩
      · rcases bks with _ | ⟨⟨kb, vb⟩, bks⟩
        · right; left; rfl
        · left; rfl
      · rcases bks with _ | ⟨⟨kb, vb⟩, bks⟩
        · right; right; rfl
        · simp only [cvSizeKVs] at hab
          have hs1 : ccmpKVs ((ka, va) :: aks) ((kb, vb) :: bks) =
              (if ccmpThings va vb = 0 then ccmpKVs aks bks else ccmpThings va vb) := rfl
          rw [hs1]
          by_cases hc : ccmpThings va vb = 0
          · rw [if_pos hc]
            exact ihK aks bks (by omega)
          · rw [if_neg hc]
            exact ihV va vb (by omega)

theorem ccmpThings_vals (a b : CValue) :
    ccmpThings a b = -1 ∨ ccmpThings a b = 0 ∨ ccmpThings a b = 1 :=
  (ccmpVals_aux (cvSize a + cvSize b)).1 a b le_rfl

theorem ccmpThings_rank_lt (a b : CValue) (h : crank a < crank b) : ccmpThings a b = -1 := by
  cases a <;> cases b <;>
    first
      | rfl
      | (simp [crank] at h)

theorem ccmpThings_rank_gt (a b : CValue) (h : crank b < crank a) : ccmpThings a b = 1 := by
  rw [ccmpThings_antisymm, ccmpThings_rank_lt b a h]
  rfl

theorem ccmpTrans_aux :
    ∀ n : Nat,
      (∀ a b c, cvSize a + cvSize b + cvSize c ≤ n →
        nanFree a = true → nanFree b = true → nanFree c = true →
        ccmpThings a b ≤ 0 → ccmpThings b c ≤ 0 → ccmpThings a c ≤ 0) ∧
      (∀ as bs cs, cvSizeList as + cvSizeList bs + cvSizeList cs ≤ n →
        nanFreeList as = true → nanFreeList bs = true → nanFreeList cs = true →
        ccmpList as bs ≤ 0 → ccmpList bs cs ≤ 0 → ccmpList as cs ≤ 0) ∧
      (∀ aks bks cks, cvSizeKVs aks + cvSizeKVs bks + cvSizeKVs cks ≤ n →
        nanFreeKVs aks = true → nanFreeKVs bks = true → nanFreeKVs cks = true →
        ccmpKVs aks bks ≤ 0 → ccmpKVs bks cks ≤ 0 → ccmpKVs aks cks ≤ 0) := by
  intro n
  induction n with
  | zero =>
    refine ⟨?_, ?_, ?_⟩
    · intro a b c hab _ _ _ _ _
      have := cvSize_pos a
      have := cvSize_pos b
      omega
    · intro as bs cs hab _ _ _ h1 h2
      rcases as with _ | ⟨a, as⟩
      · rcases cs with _ | ⟨c, cs⟩
        · decide
        · show (-1 : Int) ≤ 0
          decide
      · have := cvSize_pos a
        simp only [cvSizeList] at hab
        omega
    · intro aks bks cks hab _ _ _ h1 h2
      rcases aks with _ | ⟨⟨ka, va⟩, aks⟩
      · rcases cks with _ | ⟨⟨kc, vc⟩, cks⟩
        · decide
        · show (-1 : Int) ≤ 0
          decide
      · have := cvSize_pos va
        simp only [cvSizeKVs] at hab
        omega
  | succ n ih =>
    obtain ⟨ihV, ihL, ihK⟩ := ih
    refine ⟨?_, ?_, ?_⟩
    · intro a b c hab hna hnb hnc h1 h2
      have hr1 : crank a ≤ crank b := by
        by_contra hgt
        push_neg at hgt
        rw [ccmpThings_rank_gt a b hgt] at h1
        omega
      have hr2 : crank b ≤ crank c := by
        by_contra hgt
        push_neg at hgt
        rw [ccmpThings_rank_gt b c hgt] at h2
        omega
      rcases Nat.lt_or_ge (crank a) (crank c) with hlt | hge
      · rw [ccmpThings_rank_lt a c hlt]
        decide
      · have hrab : crank a = crank b := by omega
        have hrbc : crank b = crank c := by omega
        cases a <;> cases b <;> cases c <;>
          simp only [crank] at hrab hrbc <;>
          first
            | omega
            | exact le_of_eq (ccmpThings_refl _)
            | exact compareNSBNum_trans _ _ _ hna hnb hnc h1 h2
            | exact compareNSBString_trans _ _ _ h1 h2
            | exact compareNSBBool_trans _ _ _ h1 h2
            | (simp only [cvSize] at hab; exact ihL _ _ _ (by omega) hna hnb hnc h1 h2)
            | (simp only [cvSize] at hab; exact ihK _ _ _ (by omega) hna hnb hnc h1 h2)
    · intro as bs cs hab hna hnb hnc h1 h2
      rcases as with _ | ⟨a, as⟩
      · rcases cs with _ | ⟨c, cs⟩
        · decide
        · show (-1 : Int) ≤ 0
          decide
      · rcases bs with _ | ⟨b, bs⟩
        · exact absurd h1 (show ¬((1 : Int) ≤ 0) by decide)
        · rcases cs with _ | ⟨c, cs⟩
          · exact absurd h2 (show ¬((1 : Int) ≤ 0) by decide)
          · simp only [cvSizeList] at hab
            simp only [nanFreeList, Bool.and_eq_true] at hna hnb hnc
            obtain ⟨hna1, hna2⟩ := hna
            obtain ⟨hnb1, hnb2⟩ := hnb
            obtain ⟨hnc1, hnc2⟩ := hnc
            have hs1 : ccmpList (a :: as) (b :: bs) =
                (if ccmpThings a b = 0 then ccmpList as bs else ccmpThings a b) := rfl
            have hs2 : ccmpList (b :: bs) (c :: cs) =
                (if ccmpThings b c = 0 then ccmpList bs cs else ccmpThings b c) := rfl
            have hs3 : ccmpList (a :: as) (c :: cs) =
                (if ccmpThings a c = 0 then ccmpList as cs else ccmpThings a c) := rfl
            rw [hs1] at h1
            rw [hs2] at h2
            rw [hs3]
            refine cmpLexStep (ccmpThings a b) (ccmpThings b c) (ccmpThings a c)
              (ccmpList as bs) (ccmpList bs cs) (ccmpList as cs) ?_ ?_ ?_ ?_ ?_ h1 h2
            · exact fun p q => ihV a b c (by omega) hna1 hnb1 hnc1 p q
            · intro p q
              have hres := ihV c a b (by omega) hnc1 hna1 hnb1
                (by rw [ccmpThings_antisymm c a]; omega) q
              rw [ccmpThings_antisymm c b] at hres
              omega
            · intro p q
              have hres := ihV b c a (by omega) hnb1 hnc1 hna1 p
                (by rw [ccmpThings_antisymm c a]; omega)
              rw [ccmpThings_antisymm b a] at hres
              omega
            · intro p q
              have hres := ihV c b a (by omega) hnc1 hnb1 hna1
                (by rw [ccmpThings_antisymm c b]; omega)
                (by rw [ccmpThings_antisymm b a]; omega)
              rw [ccmpThings_antisymm c a] at hres
              omega
            · exact fun _ _ p q => ihL as bs cs (by omega) hna2 hnb2 hnc2 p q
    · intro aks bks cks hab hna hnb hnc h1 h2
      rcases aks with _ | ⟨⟨ka, va⟩, aks⟩
      · rcases cks with _ | ⟨⟨kc, vc⟩, cks⟩
        · decide
        · show (-1 : Int) ≤ 0
          decide
      · rcases bks with _ | ⟨⟨kb, vb⟩, bks⟩
        · exact absurd h1 (show ¬((1 : Int) ≤ 0) by decide)
        · rcases cks with _ | ⟨⟨kc, vc⟩, cks⟩
          · exact absurd h2 (show ¬((1 : Int) ≤ 0) by decide)
          · simp only [cvSizeKVs] at hab
            simp only [nanFreeKVs, Bool.and_eq_true] at hna hnb hnc
            obtain ⟨hna1, hna2⟩ := hna
            obtain ⟨hnb1, hnb2⟩ := hnb
            obtain ⟨hnc1, hnc2⟩ := hnc
            have hs1 : ccmpKVs ((ka, va) :: aks) ((kb, vb) :: bks) =
                (if ccmpThings va vb = 0 then ccmpKVs aks bks else ccmpThings va vb) := rfl
            have hs2 : ccmpKVs ((kb, vb) :: bks) ((kc, vc) :: cks) =
                (if ccmpThings vb vc = 0 then ccmpKVs bks cks else ccmpThings vb vc) := rfl
            have hs3 : ccmpKVs ((ka, va) :: aks) ((kc, vc) :: cks) =
                (if ccmpThings va vc = 0 then ccmpKVs aks cks else ccmpThings va vc) := rfl
            rw [hs1] at h1
            rw [hs2] at h2
            rw [hs3]
            refine cmpLexStep (ccmpThings va vb) (ccmpThings vb vc) (ccmpThings va vc)
              (ccmpKVs aks bks) (ccmpKVs bks cks) (ccmpKVs aks cks) ?_ ?_ ?_ ?_ ?_ h1 h2
            · exact fun p q => ihV va vb vc (by omega) hna1 hnb1 hnc1 p q
            · intro p q
              have hres := ihV vc va vb (by omega) hnc1 hna1 hnb1
                (by rw [ccmpThings_antisymm vc va]; omega) q
              rw [ccmpThings_antisymm vc vb] at hres
              omega
            · intro p q
              have hres := ihV vb vc va (by omega) hnb1 hnc1 hna1 p
                (by rw [ccmpThings_antisymm vc va]; omega)
              rw [ccmpThings_antisymm vb va] at hres
              omega
            · intro p q
              have hres := ihV vc vb va (by omega) hnc1 hnb1 hna1
                (by rw [ccmpThings_antisymm vc vb]; omega)
                (by rw [ccmpThings_antisymm vb va]; omega)
              rw [ccmpThings_antisymm vc va] at hres
              omega
            · exact fun _ _ p q => ihK aks bks cks (by omega) hna2 hnb2 hnc2 p q

theorem ccmpThings_trans (a b c : CValue) (hna : nanFree a = true)
    (hnb : nanFree b = true) (hnc : nanFree c = true)
    (h1 : ccmpThings a b ≤ 0) (h2 : ccmpThings b c ≤ 0) : ccmpThings a c ≤ 0 :=
  (ccmpTrans_aux (cvSize a + cvSize b + cvSize c)).1 a b c le_rfl hna hnb hnc h1 h2

theorem ccmpKVs_map_snd :
    ∀ l1 l2, ccmpKVs l1 l2 = ccmpList (l1.map Prod.snd) (l2.map Prod.snd) := by
  intro l1
  induction l1 with
  | nil =>
    intro l2
    cases l2 with
    | nil => rfl
    | cons bkv bks => rfl
  | cons akv aks ih =>
    intro l2
    obtain ⟨ka, va⟩ := akv
    cases l2 with
    | nil => rfl
    | cons bkv bks =>
      obtain ⟨kb, vb⟩ := bkv
      have hs1 : ccmpKVs ((ka, va) :: aks) ((kb, vb) :: bks) =
          (if ccmpThings va vb = 0 then ccmpKVs aks bks else ccmpThings va vb) := rfl
      have hs2 : ccmpList (((ka, va) :: aks).map Prod.snd) (((kb, vb) :: bks).map Prod.snd) =
          (if ccmpThings va vb = 0 then ccmpList (aks.map Prod.snd) (bks.map Prod.snd)
           else ccmpThings va vb) := rfl
      rw [hs1, hs2, ih bks]

theorem crank_cnormalize (a : CValue) : crank (cnormalize a) = crank a := by
  cases a <;> rfl

theorem nanFree_cinsertSortedKV (k : String) (v : CValue) :
    ∀ l : List (String × CValue),
      nanFreeKVs (cinsertSortedKV (k, v) l) = (nanFree v && nanFreeKVs l) := by
  intro l
  induction l with
  | nil => rfl
  | cons q qs ih =>
    obtain ⟨kq, vq⟩ := q
    show nanFreeKVs (if strLtB kq k then (kq, vq) :: cinsertSortedKV (k, v) qs
        else (k, v) :: (kq, vq) :: qs) = _
    by_cases hlt : strLtB kq k
    · rw [if_pos hlt]
      show (nanFree vq && nanFreeKVs (cinsertSortedKV (k, v) qs)) = _
      rw [ih]
      show _ = (nanFree v && (nanFree vq && nanFreeKVs qs))
      rw [Bool.and_left_comm]
    · rw [if_neg hlt]
      rfl

theorem nanFree_csortByKey :
    ∀ l : List (String × CValue), nanFreeKVs (csortByKey l) = nanFreeKVs l := by
  intro l
  induction l with
  | nil => rfl
  | cons p ps ih =>
    obtain ⟨k, v⟩ := p
    show nanFreeKVs (cinsertSortedKV (k, v) (csortByKey ps)) = _
    rw [nanFree_cinsertSortedKV, ih]
    rfl

theorem nanFree_cnormalize_aux :
    ∀ n : Nat,
      (∀ a, cvSize a ≤ n → nanFree (cnormalize a) = nanFree a) ∧
      (∀ as, cvSizeList as ≤ n → nanFreeList (cnormalizeList as) = nanFreeList as) ∧
      (∀ aks, cvSizeKVs aks ≤ n → nanFreeKVs (cnormalizeKVs aks) = nanFreeKVs aks) := by
  intro n
  induction n with
  | zero =>
    refine ⟨?_, ?_, ?_⟩
    · intro a ha
      have := cvSize_pos a
      omega
    · intro as ha
      rcases as with _ | ⟨a, as⟩
      · rfl
      · have := cvSize_pos a
        simp only [cvSizeList] at ha
        omega
    · intro aks ha
      rcases aks with _ | ⟨⟨k, v⟩, aks⟩
      · rfl
      · have := cvSize_pos v
        simp only [cvSizeKVs] at ha
        omega
  | succ n ih =>
    obtain ⟨ihV, ihL, ihK⟩ := ih
    refine ⟨?_, ?_, ?_⟩
    · intro a ha
      rcases a with _ | _ | b | x | s | x | es | kvs
      · rfl
      · rfl
      · rfl
      · rfl
      · rfl
      · rfl
      · simp only [cvSize] at ha
        exact ihL es (by omega)
      · simp only [cvSize] at ha
        show nanFreeKVs (csortByKey (cnormalizeKVs kvs)) = nanFreeKVs kvs
        rw [nanFree_csortByKey]
        exact ihK kvs (by omega)
    · intro as ha
      rcases as with _ | ⟨a, as⟩
      · rfl
      · simp only [cvSizeList] at ha
        show (nanFree (cnormalize a) && nanFreeList (cnormalizeList as)) = _
        rw [ihV a (by omega), ihL as (by omega)]
        rfl
    · intro aks ha
      rcases aks with _ | ⟨⟨k, v⟩, aks⟩
      · rfl
      · simp only [cvSizeKVs] at ha
        show (nanFree (cnormalize v) && nanFreeKVs (cnormalizeKVs aks)) = _
        rw [ihV v (by omega), ihK aks (by omega)]
        rfl

theorem nanFree_cnormalize (a : CValue) : nanFree (cnormalize a) = nanFree a :=
  (nanFree_cnormalize_aux (cvSize a)).1 a le_rfl

/-- Counterexamples to C5 as stated.  `compareThings` is not
antisymmetric with respect to structural equality: the objects `(a: 1)`
and `(b: 1)` are distinct yet compare equal, because the source compares
only the values found at the sorted key positions (and the key counts),
never the key names themselves.  And it is not even transitive on the
full number domain: `compareNSB` answers 0 whenever either side is NaN
-- both `<` and `>` are false -- so `2` and `NaN` compare equal, `NaN`
and `1` compare equal, yet `2` and `1` do not. -/
theorem C5_counterexample :
    ccompareThings (CValue.obj [("a", CValue.num (JSNum.val 1))])
      (CValue.obj [("b", CValue.num (JSNum.val 1))]) = 0 ∧
    CValue.obj [("a", CValue.num (JSNum.val 1))] ≠
      CValue.obj [("b", CValue.num (JSNum.val 1))] ∧
    ccompareThings (CValue.num (JSNum.val 2)) (CValue.num JSNum.nan) = 0 ∧
    ccompareThings (CValue.num JSNum.nan) (CValue.num (JSNum.val 1)) = 0 ∧
    ccompareThings (CValue.num (JSNum.val 2)) (CValue.num (JSNum.val 1)) = 1 := by
  refine ⟨rfl, ?_, rfl, rfl, by decide⟩
  intro h
  injection h with h1
  injection h1 with h2 h3
  injection h2 with h4 h5
  exact absurd h4 (by decide)

/-- C5 as amended: over the full JS number domain (NaN included)
`compareThings` is reflexive, antisymmetric in sign, with every verdict
in `(-1, 0, 1)` and the claimed type precedence undefined < null <
numbers < strings < booleans < dates < arrays < objects; arrays compare
lexicographically and recursively with the shorter array smaller when
the common prefix ties, and objects compare by the values at their
sorted key positions and then by key count -- never by the key names,
so distinct values may compare equal and the comparator is not a total
order.  Transitivity -- hence the total-preorder structure -- holds on
NaN-free values but fails in the presence of NaN, because `compareNSB`
returns 0 whenever either number is NaN. -/
theorem C5_compareThings_laws :
    (∀ a, ccompareThings a a = 0) ∧
    (∀ a b, ccompareThings a b = -1 ∨ ccompareThings a b = 0 ∨ ccompareThings a b = 1) ∧
    (∀ a b, ccompareThings a b = -ccompareThings b a) ∧
    (∀ a b c, nanFree a = true → nanFree b = true → nanFree c = true →
      ccompareThings a b ≤ 0 → ccompareThings b c ≤ 0 → ccompareThings a c ≤ 0) ∧
    (∀ x, compareNSBNum x JSNum.nan = 0 ∧ compareNSBNum JSNum.nan x = 0) ∧
    (∀ a b, crank a < crank b → ccompareThings a b = -1) ∧
    (∀ a b as bs, ccompareThings (.arr (a :: as)) (.arr (b :: bs)) =
      (if ccompareThings a b = 0 then ccompareThings (.arr as) (.arr bs)
       else ccompareThings a b)) ∧
    (∀ b bs, ccompareThings (.arr []) (.arr (b :: bs)) = -1) ∧
    (∀ akvs bkvs, ccompareThings (.obj akvs) (.obj bkvs) =
      ccmpList ((csortByKey (cnormalizeKVs akvs)).map Prod.snd)
        ((csortByKey (cnormalizeKVs bkvs)).map Prod.snd)) := by
  refine ⟨?_, ?_, ?_, ?_, ?_, ?_, ?_, ?_, ?_⟩
  · exact fun a => ccmpThings_refl (cnormalize a)
  · exact fun a b => ccmpThings_vals _ _
  · exact fun a b => ccmpThings_antisymm _ _
  · intro a b c hna hnb hnc h1 h2
    exact ccmpThings_trans _ _ _ ((nanFree_cnormalize a).trans hna)
      ((nanFree_cnormalize b).trans hnb) ((nanFree_cnormalize c).trans hnc) h1 h2
  · exact fun x => ⟨compareNSBNum_nan_right x, compareNSBNum_nan_left x⟩
  · intro a b h
    exact ccmpThings_rank_lt _ _ (by rw [crank_cnormalize, crank_cnormalize]; exact h)
  · intro a b as bs
    rfl
  · intro b bs
    rfl
  · intro akvs bkvs
    exact ccmpKVs_map_snd _ _

/-- Witness for C5 at concrete inputs: the precedence rule at
`null < 3`, transitivity on NaN-free numbers at `1, 2, 3`, and NaN
absorption at `2` against NaN. -/
theorem C5_compareThings_laws_witness :
    ccompareThings CValue.null (CValue.num (JSNum.val 3)) = -1 ∧
    ccompareThings (CValue.num (JSNum.val 1)) (CValue.num (JSNum.val 3)) ≤ 0 ∧
    compareNSBNum (JSNum.val 2) JSNum.nan = 0 := by
  refine ⟨C5_compareThings_laws.2.2.2.2.2.1 CValue.null (CValue.num (JSNum.val 3))
    (by decide), ?_, (C5_compareThings_laws.2.2.2.2.1 (JSNum.val 2)).1⟩
  exact C5_compareThings_laws.2.2.2.1 (CValue.num (JSNum.val 1)) (CValue.num (JSNum.val 2))
    (CValue.num (JSNum.val 3)) rfl rfl rfl (by decide) (by decide)

/-!
### Claim C2 — index atomicity and reachability
-/

theorem nvBEq_refl_aux :
    ∀ n : Nat,
      (∀ a, nvSize a ≤ n → nvBEq a a = true) ∧
      (∀ as, nvSizeList as ≤ n → nvBEqList as as = true) ∧
      (∀ ks, nvSizeKVs ks ≤ n → nvBEqKVs ks ks = true) := by
  intro n
  induction n with
  | zero =>
    refine ⟨?_, ?_, ?_⟩
    · intro a ha
      have := nvSize_pos a
      omega
    · intro as ha
      rcases as with _ | ⟨a, as⟩
      · rfl
      · have := nvSize_pos a
        simp only [nvSizeList] at ha
        omega
    · intro ks ha
      rcases ks with _ | ⟨⟨k, v⟩, ks⟩
      · rfl
      · have := nvSize_pos v
        simp only [nvSizeKVs] at ha
        omega
  | succ n ih =>
    obtain ⟨ihV, ihL, ihK⟩ := ih
    refine ⟨?_, ?_, ?_⟩
    · intro a ha
      cases a <;>
        first
          | rfl
          | exact beq_self_eq_true _
          | (simp only [nvSize] at ha; exact ihL _ (by omega))
          | (simp only [nvSize] at ha; exact ihK _ (by omega))
    · intro as ha
      rcases as with _ | ⟨a, as⟩
      · rfl
      · simp only [nvSizeList] at ha
        have h1 : nvBEq a a = true := ihV a (by omega)
        have h2 : nvBEqList as as = true := ihL as (by omega)
        have hs : nvBEqList (a :: as) (a :: as) = (nvBEq a a && nvBEqList as as) := rfl
        rw [hs, h1, h2]
        rfl
    · intro ks ha
      rcases ks with _ | ⟨⟨k, v⟩, ks⟩
      · rfl
      · simp only [nvSizeKVs] at ha
        have h1 : nvBEq v v = true := ihV v (by omega)
        have h2 : nvBEqKVs ks ks = true := ihK ks (by omega)
        have hs : nvBEqKVs ((k, v) :: ks) ((k, v) :: ks) =
            ((k == k) && nvBEq v v && nvBEqKVs ks ks) := rfl
        rw [hs, h1, h2]
        simp

theorem nvBEq_refl (a : NValue) : nvBEq a a = true :=
  (nvBEq_refl_aux (nvSize a)).1 a le_rfl

theorem compareThings_refl (a : NValue) : compareThings a a = 0 :=
  cmpThings_refl (normalize a)

theorem treeInsert_mem (unique : Bool) :
    ∀ (t t' : Tree) (k d : NValue),
      treeInsert unique t k d = .ok t' → d ∈ treeSearch t' k := by
  intro t
  induction t with
  | nil =>
    intro t' k d h
    simp only [treeInsert, Except.ok.injEq] at h
    subst h
    simp [treeSearch, compareThings_refl]
  | cons node rest ih =>
    obtain ⟨k', ds⟩ := node
    intro t' k d h
    simp only [treeInsert] at h
    split_ifs at h with h1 h2 h3
    · simp only [Except.ok.injEq] at h
      subst h
      simp [treeSearch, compareThings_refl]
    · simp only [Except.ok.injEq] at h
      subst h
      simp [treeSearch, h2]
    · cases hrec : treeInsert unique rest k d with
      | error e => rw [hrec] at h; exact absurd h (by simp)
      | ok rest' =>
        rw [hrec] at h
        simp only [Except.ok.injEq] at h
        subst h
        have hne : ¬(compareThings k k' = 0) := h2
        simp only [treeSearch, if_neg hne]
        exact ih rest' k d hrec

theorem treeDelete_of_insert (unique : Bool) :
    ∀ (t t' : Tree) (k d : NValue),
      docFresh t d = true →
      bucketsNonEmpty t = true →
      treeInsert unique t k d = .ok t' →
      treeDelete t' k d = t := by
  intro t
  induction t with
  | nil =>
    intro t' k d hfresh hwf h
    simp only [treeInsert, Except.ok.injEq] at h
    subst h
    simp [treeDelete, compareThings_refl, nvBEq_refl]
  | cons node rest ih =>
    obtain ⟨k', ds⟩ := node
    intro t' k d hfresh hwf h
    have hfresh' : docFresh rest d = true := by
      simp only [docFresh, treeGetAll, List.all_eq_true] at hfresh ⊢
      intro x hx
      exact hfresh x (by simp only [List.flatMap_cons]; exact List.mem_append_right _ hx)
    have hwf' : bucketsNonEmpty rest = true := by
      simp only [bucketsNonEmpty, List.all_eq_true] at hwf ⊢
      intro node hn
      exact hwf node (List.mem_cons_of_mem _ hn)
    have hfreshds : ∀ x ∈ ds, nvBEq x d = false := by
      simp only [docFresh, treeGetAll, List.all_eq_true] at hfresh
      intro x hx
      have := hfresh x (by simp only [List.flatMap_cons]; exact List.mem_append_left _ hx)
      simpa using this
    have hdsne : ds ≠ [] := by
      simp only [bucketsNonEmpty, List.all_eq_true] at hwf
      have := hwf (k', ds) (List.mem_cons_self _ _)
      simpa using this
    simp only [treeInsert] at h
    split_ifs at h with h1 h2 h3
    · simp only [Except.ok.injEq] at h
      subst h
      simp only [treeDelete, if_pos (compareThings_refl k)]
      have hflt : [d].filter (fun x => !nvBEq x d) = [] := by
        simp [nvBEq_refl]
      rw [hflt]
    · simp only [Except.ok.injEq] at h
      subst h
      simp only [treeDelete, if_pos h2]
      have hflt : (ds ++ [d]).filter (fun x => !nvBEq x d) = ds := by
        rw [List.filter_append]
        have h1' : ds.filter (fun x => !nvBEq x d) = ds :=
          List.filter_eq_self.mpr (fun x hx => by simp [hfreshds x hx])
        have h2' : [d].filter (fun x => !nvBEq x d) = [] := by simp [nvBEq_refl]
        rw [h1', h2', List.append_nil]
      rw [hflt]
      cases hds : ds with
      | nil => exact absurd hds hdsne
      | cons e es => rfl
    · cases hrec : treeInsert unique rest k d with
      | error e => rw [hrec] at h; exact absurd h (by simp)
      | ok rest' =>
        rw [hrec] at h
        simp only [Except.ok.injEq] at h
        subst h
        have hne : ¬(compareThings k k' = 0) := h2
        simp only [treeDelete, if_neg hne]
        rw [ih rest' k d hfresh' hwf' hrec]

theorem idxInsertDoc_eq (idx : IndexState) (d : NValue) :
    idxInsertDoc idx d =
      (match getDotValue d idx.fieldName with
       | .undef =>
         if idx.sparse then (idx, none)
         else
           match treeInsert idx.unique idx.tree .undef d with
           | .ok t' => ({ idx with tree := t' }, none)
           | .error e => (idx, some e)
       | .arr ks =>
         (match uniqProj ks with
          | .error e => (idx, some e)
          | .ok keys =>
            match idxInsertKeysLoop idx.unique d idx.tree [] keys with
            | (t', err) => ({ idx with tree := t' }, err))
       | k =>
         match treeInsert idx.unique idx.tree k d with
         | .ok t' => ({ idx with tree := t' }, none)
         | .error e => (idx, some e)) := rfl

theorem idxRemoveDoc_eq (idx : IndexState) (d : NValue) :
    idxRemoveDoc idx d =
      (match getDotValue d idx.fieldName with
       | .undef =>
         if idx.sparse then (idx, none)
         else ({ idx with tree := treeDelete idx.tree .undef d }, none)
       | .arr ks =>
         (match uniqProj ks with
          | .error e => (idx, some e)
          | .ok keys =>
            ({ idx with tree := keys.foldl (fun t k => treeDelete t k d) idx.tree }, none))
       | k => ({ idx with tree := treeDelete idx.tree k d }, none)) := rfl

theorem idxInsertDoc_fields (idx idx' : IndexState) (d : NValue) (err : Option String)
    (h : idxInsertDoc idx d = (idx', err)) :
    idx'.fieldName = idx.fieldName ∧ idx'.sparse = idx.sparse ∧ idx'.unique = idx.unique := by
  rw [idxInsertDoc_eq] at h
  repeat' split at h
  all_goals cases h
  all_goals exact ⟨rfl, rfl, rfl⟩

theorem idxRemoveDoc_fields (idx idx' : IndexState) (d : NValue) (err : Option String)
    (h : idxRemoveDoc idx d = (idx', err)) :
    idx'.fieldName = idx.fieldName ∧ idx'.sparse = idx.sparse ∧ idx'.unique = idx.unique := by
  rw [idxRemoveDoc_eq] at h
  repeat' split at h
  all_goals cases h
  all_goals exact ⟨rfl, rfl, rfl⟩

theorem idxInsertDoc_fail (idx idx2 : IndexState) (d : NValue) (e : String)
    (hk : keyNonArray (getDotValue d idx.fieldName) = true)
    (h : idxInsertDoc idx d = (idx2, some e)) : idx2 = idx := by
  rw [idxInsertDoc_eq] at h
  repeat' split at h
  all_goals
    first
      | (injection h with hA hB; exact Option.noConfusion hB)
      | (injection h with hA hB; exact hA.symm)
      | simp_all [keyNonArray]

theorem idxInsertDoc_restore (idx idx' : IndexState) (d : NValue)
    (hsafe : insertSafe d idx = true)
    (h : idxInsertDoc idx d = (idx', none)) :
    idxRemoveDoc idx' d = (idx, none) := by
  obtain ⟨f, u, sp, t⟩ := idx
  have hparts := hsafe
  simp only [insertSafe, Bool.and_eq_true] at hparts
  obtain ⟨⟨hfresh, hk⟩, hwf⟩ := hparts
  rw [idxInsertDoc_eq] at h
  dsimp only at h hfresh hk hwf
  rcases hkv : getDotValue d f with _ | _ | b | m | s | dd | es | kvs <;>
    (rw [hkv] at h hk; dsimp only at h)
  case arr => simp [keyNonArray] at hk
  case undef =>
    by_cases hs : sp = true
    · rw [if_pos hs] at h
      injection h with hA hB
      subst hA
      rw [idxRemoveDoc_eq]
      dsimp only
      rw [hkv]
      dsimp only
      rw [if_pos hs]
    · rw [if_neg hs] at h
      cases htr : treeInsert u t .undef d with
      | error e =>
        rw [htr] at h
        injection h with hA hB
        exact Option.noConfusion hB
      | ok t' =>
        rw [htr] at h
        injection h with hA hB
        subst hA
        rw [idxRemoveDoc_eq]
        dsimp only
        rw [hkv]
        dsimp only
        rw [if_neg hs, treeDelete_of_insert u t t' .undef d hfresh hwf htr]
  all_goals
    cases htr : treeInsert u t _ d with
    | error e =>
      rw [htr] at h
      injection h with hA hB
      exact Option.noConfusion hB
    | ok t' =>
      rw [htr] at h
      injection h with hA hB
      subst hA
      rw [idxRemoveDoc_eq]
      dsimp only
      rw [hkv]
      dsimp only
      rw [treeDelete_of_insert u t t' _ d hfresh hwf htr]

theorem idxInsertDoc_reach (idx idx' : IndexState) (d : NValue)
    (hrc : reachCond d idx = true)
    (h : idxInsertDoc idx d = (idx', none)) :
    d ∈ idxGetMatching idx' (getDotValue d idx'.fieldName) := by
  obtain ⟨f, u, sp, t⟩ := idx
  have hparts := hrc
  simp only [reachCond, Bool.and_eq_true] at hparts
  obtain ⟨hk, hns⟩ := hparts
  rw [idxInsertDoc_eq] at h
  dsimp only at h hk hns
  rcases hkv : getDotValue d f with _ | _ | b | m | s | dd | es | kvs <;>
    (rw [hkv] at h hk hns; dsimp only at h)
  case arr => simp [keyNonArray] at hk
  case undef =>
    have hs : sp = false := by simpa using hns
    rw [hs] at h
    simp only [if_neg Bool.false_ne_true] at h
    cases htr : treeInsert u t .undef d with
    | error e =>
      rw [htr] at h
      injection h with hA hB
      exact Option.noConfusion hB
    | ok t' =>
      rw [htr] at h
      injection h with hA hB
      subst hA
      dsimp only
      rw [hkv]
      exact treeInsert_mem u t t' .undef d htr
  all_goals
    cases htr : treeInsert u t _ d with
    | error e =>
      rw [htr] at h
      injection h with hA hB
      exact Option.noConfusion hB
    | ok t' =>
      rw [htr] at h
      injection h with hA hB
      subst hA
      dsimp only
      rw [hkv]
      exact treeInsert_mem u t t' _ d htr

theorem dsRollbackInsert_append (doc : NValue) :
    ∀ l1 l2 r1 r2,
      dsRollbackInsert doc l1 = (r1, none) →
      dsRollbackInsert doc l2 = (r2, none) →
      dsRollbackInsert doc (l1 ++ l2) = (r1 ++ r2, none) := by
  intro l1
  induction l1 with
  | nil =>
    intro l2 r1 r2 h1 h2
    have h1' : (([] : List (String × IndexState)), (none : Option String)) = (r1, none) := h1
    injection h1' with hA hB
    subst hA
    simpa using h2
  | cons kv rest ih =>
    obtain ⟨nm, idx⟩ := kv
    intro l2 r1 r2 h1 h2
    have hstep : dsRollbackInsert doc ((nm, idx) :: rest) =
        (match idxRemoveDoc idx doc with
         | (idx', none) =>
           match dsRollbackInsert doc rest with
           | (rest', err) => ((nm, idx') :: rest', err)
         | (idx', some e) => ((nm, idx') :: rest, some e)) := rfl
    rw [hstep] at h1
    cases hrem : idxRemoveDoc idx doc with
    | mk idx1 err1 =>
      cases err1 with
      | none =>
        rw [hrem] at h1
        dsimp only at h1
        cases hrest : dsRollbackInsert doc rest with
        | mk rest1 err2 =>
          rw [hrest] at h1
          dsimp only at h1
          injection h1 with hA hB
          subst hB
          subst hA
          have hrec := ih l2 rest1 r2 hrest h2
          have hstep2 : dsRollbackInsert doc (((nm, idx) :: rest) ++ l2) =
              (match idxRemoveDoc idx doc with
               | (idx', none) =>
                 match dsRollbackInsert doc (rest ++ l2) with
                 | (rest', err) => ((nm, idx') :: rest', err)
               | (idx', some e) => ((nm, idx') :: (rest ++ l2), some e)) := rfl
          rw [hstep2, hrem]
          dsimp only
          rw [hrec]
          rfl
      | some e =>
        rw [hrem] at h1
        dsimp only at h1
        injection h1 with hA hB
        exact Option.noConfusion hB

theorem dsAddGo_fail (doc : NValue) :
    ∀ rest done origDone out e,
      dsRollbackInsert doc done = (origDone, none) →
      rest.all (fun kv => insertSafe doc kv.2) = true →
      dsAddToIndexesGo doc done rest = (out, some e) →
      out = origDone ++ rest := by
  intro rest
  induction rest with
  | nil =>
    intro done origDone out e hroll hsafe h
    have h' : (done, (none : Option String)) = (out, some e) := h
    injection h' with hA hB
    exact Option.noConfusion hB
  | cons kv rest ih =>
    obtain ⟨nm, idx⟩ := kv
    intro done origDone out e hroll hsafe h
    have hsafes := hsafe
    simp only [List.all_cons, Bool.and_eq_true] at hsafes
    obtain ⟨hsafehead, hsaferest⟩ := hsafes
    have hk : keyNonArray (getDotValue doc idx.fieldName) = true := by
      have := hsafehead
      simp only [insertSafe, Bool.and_eq_true] at this
      exact this.1.2
    have hstep : dsAddToIndexesGo doc done ((nm, idx) :: rest) =
        (match idxInsertDoc idx doc with
         | (idx', none) => dsAddToIndexesGo doc (done ++ [(nm, idx')]) rest
         | (idx', some e0) =>
           match dsRollbackInsert doc done with
           | (done', some e') => (done' ++ (nm, idx') :: rest, some e')
           | (done', none) => (done' ++ (nm, idx') :: rest, some e0)) := rfl
    rw [hstep] at h
    cases hins : idxInsertDoc idx doc with
    | mk idx1 err1 =>
      cases err1 with
      | none =>
        rw [hins] at h
        dsimp only at h
        have hrem : idxRemoveDoc idx1 doc = (idx, none) :=
          idxInsertDoc_restore idx idx1 doc hsafehead hins
        have hsingle : dsRollbackInsert doc [(nm, idx1)] = ([(nm, idx)], none) := by
          simp [dsRollbackInsert, hrem]
        have hroll' : dsRollbackInsert doc (done ++ [(nm, idx1)]) =
            (origDone ++ [(nm, idx)], none) :=
          dsRollbackInsert_append doc done [(nm, idx1)] origDone [(nm, idx)] hroll hsingle
        have hrec := ih (done ++ [(nm, idx1)]) (origDone ++ [(nm, idx)]) out e hroll' hsaferest h
        rw [hrec, List.append_assoc]
        rfl
      | some e0 =>
        rw [hins] at h
        dsimp only at h
        rw [hroll] at h
        dsimp only at h
        injection h with hA hB
        have hidx : idx1 = idx := idxInsertDoc_fail idx idx1 doc e0 hk hins
        rw [← hA, hidx]

theorem dsAddGo_success (doc : NValue) :
    ∀ rest done out,
      dsAddToIndexesGo doc done rest = (out, none) →
      (∀ p : String × IndexState, p ∈ done →
        reachCond doc p.2 = true → doc ∈ idxGetMatching p.2 (getDotValue doc p.2.fieldName)) →
      ∀ p : String × IndexState, p ∈ out →
        reachCond doc p.2 = true → doc ∈ idxGetMatching p.2 (getDotValue doc p.2.fieldName) := by
  intro rest
  induction rest with
  | nil =>
    intro done out h hQ
    have h' : (done, (none : Option String)) = (out, none) := h
    injection h' with hA hB
    subst hA
    exact hQ
  | cons kv rest ih =>
    obtain ⟨nm, idx⟩ := kv
    intro done out h hQ
    have hstep : dsAddToIndexesGo doc done ((nm, idx) :: rest) =
        (match idxInsertDoc idx doc with
         | (idx', none) => dsAddToIndexesGo doc (done ++ [(nm, idx')]) rest
         | (idx', some e0) =>
           match dsRollbackInsert doc done with
           | (done', some e') => (done' ++ (nm, idx') :: rest, some e')
           | (done', none) => (done' ++ (nm, idx') :: rest, some e0)) := rfl
    rw [hstep] at h
    cases hins : idxInsertDoc idx doc with
    | mk idx1 err1 =>
      cases err1 with
      | none =>
        rw [hins] at h
        dsimp only at h
        refine ih (done ++ [(nm, idx1)]) out h ?_
        intro p hp hrc
        rcases List.mem_append.mp hp with hp1 | hp2
        · exact hQ p hp1 hrc
        · have hpe : p = (nm, idx1) := by simpa using hp2
          subst hpe
          obtain ⟨hf, hsp, hu⟩ := idxInsertDoc_fields idx idx1 doc none hins
          have hrc0 : reachCond doc idx = true := by
            simp only [reachCond] at hrc ⊢
            rw [← hf, ← hsp]
            exact hrc
          have hm := idxInsertDoc_reach idx idx1 doc hrc0 hins
          simpa using hm
      | some e0 =>
        rw [hins] at h
        dsimp only at h
        cases hroll : dsRollbackInsert doc done with
        | mk done1 err2 =>
          rw [hroll] at h
          cases err2 with
          | none =>
            dsimp only at h
            injection h with hA hB
            exact Option.noConfusion hB
          | some e' =>
            dsimp only at h
            injection h with hA hB
            exact Option.noConfusion hB

theorem idxUpdateSingle (idx idx2 : IndexState) (oldDoc newDoc : NValue)
    (h : idxUpdateMulti idx [(oldDoc, newDoc)] = (idx2, none)) :
    ∃ idx1, idxRemoveDoc idx oldDoc = (idx1, none) ∧ idxInsertDoc idx1 newDoc = (idx2, none) := by
  have hUM : idxUpdateMulti idx [(oldDoc, newDoc)] =
      (match idxRemoveList idx [oldDoc] with
       | (idx₁, some e) => (idx₁, some e)
       | (idx₁, none) =>
         match idxUpdateInsertLoop idx₁ [] [(oldDoc, newDoc)] with
         | (idx₂, none, done) => (idx₂, none)
         | (idx₂, some e, insertedNews) =>
           let removedBack := insertedNews.foldl
             (fun acc dd =>
               match acc with
               | (st, some msg) => (st, some msg)
               | (st, none) => idxRemoveDoc st dd)
             (idx₂, (none : Option String))
           match removedBack with
           | (idx₃, some e') => (idx₃, some e')
           | (idx₃, none) =>
             match idxInsertList idx₃ [] [oldDoc] with
             | (idx₄, some e') => (idx₄, some e')
             | (idx₄, none) => (idx₄, some e)) := rfl
  rw [hUM] at h
  cases hrem : idxRemoveDoc idx oldDoc with
  | mk idx1 err1 =>
    have hRL : idxRemoveList idx [oldDoc] =
        (match idxRemoveDoc idx oldDoc with
         | (idx', none) => idxRemoveList idx' []
         | (idx', some e) => (idx', some e)) := rfl
    rw [hrem] at hRL
    cases err1 with
    | some e =>
      dsimp only at hRL
      rw [hRL] at h
      dsimp only at h
      injection h with hA hB
      exact Option.noConfusion hB
    | none =>
      dsimp only at hRL
      have hRL2 : idxRemoveList idx1 ([] : List NValue) = (idx1, none) := rfl
      rw [hRL2] at hRL
      rw [hRL] at h
      dsimp only at h
      cases hins : idxInsertDoc idx1 newDoc with
      | mk idx2' err2 =>
        have hIL : idxUpdateInsertLoop idx1 [] [(oldDoc, newDoc)] =
            (match idxInsertDoc idx1 newDoc with
             | (idx', none) => idxUpdateInsertLoop idx' [newDoc] []
             | (idx', some e) => (idx', some e, [])) := rfl
        rw [hins] at hIL
        cases err2 with
        | none =>
          dsimp only at hIL
          have hIL2 : idxUpdateInsertLoop idx2' [newDoc] ([] : List (NValue × NValue)) =
              (idx2', none, [newDoc]) := rfl
          rw [hIL2] at hIL
          rw [hIL] at h
          dsimp only at h
          injection h with hA hB
          subst hA
          exact ⟨idx1, rfl, hins⟩
        | some e =>
          dsimp only at hIL
          rw [hIL] at h
          dsimp only at h
          simp only [List.foldl_nil] at h
          cases hil : idxInsertList idx2' [] [oldDoc] with
          | mk idx4 err4 =>
            rw [hil] at h
            cases err4 with
            | some e4 =>
              dsimp only at h
              injection h with hA hB
              exact Option.noConfusion hB
            | none =>
              dsimp only at h
              injection h with hA hB
              exact Option.noConfusion hB

theorem idxUpdateSingle_fields (idx idx2 : IndexState) (oldDoc newDoc : NValue)
    (h : idxUpdateMulti idx [(oldDoc, newDoc)] = (idx2, none)) :
    idx2.fieldName = idx.fieldName ∧ idx2.sparse = idx.sparse := by
  obtain ⟨idx1, hrem, hins⟩ := idxUpdateSingle idx idx2 oldDoc newDoc h
  obtain ⟨hf1, hs1, _⟩ := idxRemoveDoc_fields idx idx1 oldDoc none hrem
  obtain ⟨hf2, hs2, _⟩ := idxInsertDoc_fields idx1 idx2 newDoc none hins
  exact ⟨hf2.trans hf1, hs2.trans hs1⟩

theorem idxUpdateSingle_reach (idx idx2 : IndexState) (oldDoc newDoc : NValue)
    (hrc : reachCond newDoc idx = true)
    (h : idxUpdateMulti idx [(oldDoc, newDoc)] = (idx2, none)) :
    newDoc ∈ idxGetMatching idx2 (getDotValue newDoc idx2.fieldName) := by
  obtain ⟨idx1, hrem, hins⟩ := idxUpdateSingle idx idx2 oldDoc newDoc h
  obtain ⟨hf1, hs1, _⟩ := idxRemoveDoc_fields idx idx1 oldDoc none hrem
  have hrc1 : reachCond newDoc idx1 = true := by
    simp only [reachCond] at hrc ⊢
    rw [hf1, hs1]
    exact hrc
  exact idxInsertDoc_reach idx1 idx2 newDoc hrc1 hins

theorem dsUpdGo_success (oldDoc newDoc : NValue) :
    ∀ rest done out,
      dsUpdateIndexesGo [(oldDoc, newDoc)] done rest = (out, none) →
      (∀ p : String × IndexState, p ∈ done →
        reachCond newDoc p.2 = true →
        newDoc ∈ idxGetMatching p.2 (getDotValue newDoc p.2.fieldName)) →
      ∀ p : String × IndexState, p ∈ out →
        reachCond newDoc p.2 = true →
        newDoc ∈ idxGetMatching p.2 (getDotValue newDoc p.2.fieldName) := by
  intro rest
  induction rest with
  | nil =>
    intro done out h hQ
    have h' : (done, (none : Option String)) = (out, none) := h
    injection h' with hA hB
    subst hA
    exact hQ
  | cons kv rest ih =>
    obtain ⟨nm, idx⟩ := kv
    intro done out h hQ
    have hstep : dsUpdateIndexesGo [(oldDoc, newDoc)] done ((nm, idx) :: rest) =
        (match idxUpdateMulti idx [(oldDoc, newDoc)] with
         | (idx', none) => dsUpdateIndexesGo [(oldDoc, newDoc)] (done ++ [(nm, idx')]) rest
         | (idx', some e) =>
           match dsRollbackUpdate [(oldDoc, newDoc)] done with
           | (done', some e') => (done' ++ (nm, idx') :: rest, some e')
           | (done', none) => (done' ++ (nm, idx') :: rest, some e)) := rfl
    rw [hstep] at h
    cases hupd : idxUpdateMulti idx [(oldDoc, newDoc)] with
    | mk idx1 err1 =>
      cases err1 with
      | none =>
        rw [hupd] at h
        dsimp only at h
        refine ih (done ++ [(nm, idx1)]) out h ?_
        intro p hp hrc
        rcases List.mem_append.mp hp with hp1 | hp2
        · exact hQ p hp1 hrc
        · have hpe : p = (nm, idx1) := by simpa using hp2
          subst hpe
          obtain ⟨hf, hsp⟩ := idxUpdateSingle_fields idx idx1 oldDoc newDoc hupd
          have hrc0 : reachCond newDoc idx = true := by
            simp only [reachCond] at hrc ⊢
            rw [← hf, ← hsp]
            exact hrc
          have hm := idxUpdateSingle_reach idx idx1 oldDoc newDoc hrc0 hupd
          simpa using hm
      | some e0 =>
        rw [hupd] at h
        dsimp only at h
        cases hroll : dsRollbackUpdate [(oldDoc, newDoc)] done with
        | mk done1 err2 =>
          rw [hroll] at h
          cases err2 with
          | none =>
            dsimp only at h
            injection h with hA hB
            exact Option.noConfusion hB
          | some e' =>
            dsimp only at h
            injection h with hA hB
            exact Option.noConfusion hB

/-- Counterexample to C2 as stated.  First half: a successful insert
into a datastore with a sparse index on `s` of a document lacking `s`
installs the document (it appears in `getAllData`), yet the sparse
index skipped it, so `getMatching` on the document's projected value
(`undefined`) finds nothing -- reachability in every index fails.
Second half: a failed update (unique violation on a third index `c`)
does not restore every index to its exact pre-operation state: the
rollback re-inserts the old version at the end of its bucket, so the
non-unique `b` index ends with bucket `(d2, d1)` where it started as
`(d1, d2)` -- the document set is preserved but the observable
`getMatching` order is permuted. -/
theorem C2_counterexample :
    ((dsAddToIndexes
        { indexes := [("_id", indexNew "_id" true false),
                      ("s", { fieldName := "s", unique := false, sparse := true, tree := [] })],
          ttlIndexes := [], journal := [] }
        (NValue.obj [("_id", NValue.str "1")])).2 = none ∧
      dsGetAllData (dsAddToIndexes
        { indexes := [("_id", indexNew "_id" true false),
                      ("s", { fieldName := "s", unique := false, sparse := true, tree := [] })],
          ttlIndexes := [], journal := [] }
        (NValue.obj [("_id", NValue.str "1")])).1 = [NValue.obj [("_id", NValue.str "1")]] ∧
      ((dsAddToIndexes
        { indexes := [("_id", indexNew "_id" true false),
                      ("s", { fieldName := "s", unique := false, sparse := true, tree := [] })],
          ttlIndexes := [], journal := [] }
        (NValue.obj [("_id", NValue.str "1")])).1.indexes.find? (fun kv => kv.1 == "s")) =
        some ("s", { fieldName := "s", unique := false, sparse := true, tree := [] }) ∧
      idxGetMatching { fieldName := "s", unique := false, sparse := true, tree := [] }
        (getDotValue (NValue.obj [("_id", NValue.str "1")]) "s") = []) ∧
    ((dsUpdateIndexes
        { indexes :=
            [("_id", { fieldName := "_id", unique := true, sparse := false,
                       tree := [(NValue.str "1",
                                  [NValue.obj [("_id", NValue.str "1"), ("b", NValue.num 1),
                                    ("c", NValue.num 1)]]),
                                (NValue.str "2",
                                  [NValue.obj [("_id", NValue.str "2"), ("b", NValue.num 1),
                                    ("c", NValue.num 2)]])] }),
             ("b", { fieldName := "b", unique := false, sparse := false,
                     tree := [(NValue.num 1,
                                [NValue.obj [("_id", NValue.str "1"), ("b", NValue.num 1),
                                  ("c", NValue.num 1)],
                                 NValue.obj [("_id", NValue.str "2"), ("b", NValue.num 1),
                                  ("c", NValue.num 2)]])] }),
             ("c", { fieldName := "c", unique := true, sparse := false,
                     tree := [(NValue.num 1,
                                [NValue.obj [("_id", NValue.str "1"), ("b", NValue.num 1),
                                  ("c", NValue.num 1)]]),
                              (NValue.num 2,
                                [NValue.obj [("_id", NValue.str "2"), ("b", NValue.num 1),
                                  ("c", NValue.num 2)]])] })],
          ttlIndexes := [], journal := [] }
        [(NValue.obj [("_id", NValue.str "1"), ("b", NValue.num 1), ("c", NValue.num 1)],
          NValue.obj [("_id", NValue.str "1"), ("b", NValue.num 1), ("c", NValue.num 2)])]).2 =
        some "uniqueViolated" ∧
      ((dsUpdateIndexes
        { indexes :=
            [("_id", { fieldName := "_id", unique := true, sparse := false,
                       tree := [(NValue.str "1",
                                  [NValue.obj [("_id", NValue.str "1"), ("b", NValue.num 1),
                                    ("c", NValue.num 1)]]),
                                (NValue.str "2",
                                  [NValue.obj [("_id", NValue.str "2"), ("b", NValue.num 1),
                                    ("c", NValue.num 2)]])] }),
             ("b", { fieldName := "b", unique := false, sparse := false,
                     tree := [(NValue.num 1,
                                [NValue.obj [("_id", NValue.str "1"), ("b", NValue.num 1),
                                  ("c", NValue.num 1)],
                                 NValue.obj [("_id", NValue.str "2"), ("b", NValue.num 1),
                                  ("c", NValue.num 2)]])] }),
             ("c", { fieldName := "c", unique := true, sparse := false,
                     tree := [(NValue.num 1,
                                [NValue.obj [("_id", NValue.str "1"), ("b", NValue.num 1),
                                  ("c", NValue.num 1)]]),
                              (NValue.num 2,
                                [NValue.obj [("_id", NValue.str "2"), ("b", NValue.num 1),
                                  ("c", NValue.num 2)]])] })],
          ttlIndexes := [], journal := [] }
        [(NValue.obj [("_id", NValue.str "1"), ("b", NValue.num 1), ("c", NValue.num 1)],
          NValue.obj [("_id", NValue.str "1"), ("b", NValue.num 1), ("c", NValue.num 2)])]).1.indexes.find?
          (fun kv => kv.1 == "b")) =
        some ("b", { fieldName := "b", unique := false, sparse := false,
                     tree := [(NValue.num 1,
                                [NValue.obj [("_id", NValue.str "2"), ("b", NValue.num 1),
                                  ("c", NValue.num 2)],
                                 NValue.obj [("_id", NValue.str "1"), ("b", NValue.num 1),
                                  ("c", NValue.num 1)]])] }) ∧
      nvBEq (NValue.obj [("_id", NValue.str "1"), ("b", NValue.num 1), ("c", NValue.num 1)])
        (NValue.obj [("_id", NValue.str "2"), ("b", NValue.num 1), ("c", NValue.num 2)]) = false) := by
  exact ⟨⟨rfl, rfl, rfl, rfl⟩, rfl, rfl, rfl⟩

/-- C2 as amended.  (1) A failed single-document insert restores every
index exactly, provided the document is fresh for every index, its key
under every index is not an array, and the trees are well-formed
(non-empty buckets); the failing index itself is never mutated.  (2) A
successful single-document insert makes the document reachable through
every index via `getMatching` on its projected key value, except where
the key is an array or the document was skipped by a sparse index.
(3) The same reachability holds for the new version after a successful
single-pair update.  (A failed update restores only the per-key
document sets, not bucket order -- see the counterexample.) -/
theorem C2_index_atomicity :
    (∀ st doc st2 e,
      st.indexes.all (fun kv => insertSafe doc kv.2) = true →
      dsAddToIndexes st doc = (st2, some e) → st2 = st) ∧
    (∀ st doc st2,
      dsAddToIndexes st doc = (st2, none) →
      ∀ p : String × IndexState, p ∈ st2.indexes →
        reachCond doc p.2 = true →
        doc ∈ idxGetMatching p.2 (getDotValue doc p.2.fieldName)) ∧
    (∀ st oldDoc newDoc st2,
      dsUpdateIndexes st [(oldDoc, newDoc)] = (st2, none) →
      ∀ p : String × IndexState, p ∈ st2.indexes →
        reachCond newDoc p.2 = true →
        newDoc ∈ idxGetMatching p.2 (getDotValue newDoc p.2.fieldName)) := by
  refine ⟨?_, ?_, ?_⟩
  · intro st doc st2 e hsafe h
    have hAdd : dsAddToIndexes st doc =
        ({ st with indexes := (dsAddToIndexesGo doc [] st.indexes).1 },
          (dsAddToIndexesGo doc [] st.indexes).2) := rfl
    rw [hAdd] at h
    cases hgo : dsAddToIndexesGo doc [] st.indexes with
    | mk out err =>
      rw [hgo] at h
      injection h with hA hB
      subst hB
      have hout : out = [] ++ st.indexes :=
        dsAddGo_fail doc st.indexes [] [] out e rfl hsafe hgo
      rw [← hA, hout]
      rfl
  · intro st doc st2 h
    have hAdd : dsAddToIndexes st doc =
        ({ st with indexes := (dsAddToIndexesGo doc [] st.indexes).1 },
          (dsAddToIndexesGo doc [] st.indexes).2) := rfl
    rw [hAdd] at h
    cases hgo : dsAddToIndexesGo doc [] st.indexes with
    | mk out err =>
      rw [hgo] at h
      injection h with hA hB
      subst hB
      intro p hp hrc
      have hp' : p ∈ out := by
        rw [← hA] at hp
        exact hp
      exact dsAddGo_success doc st.indexes [] out hgo
        (fun p hp _ => absurd hp (List.not_mem_nil p)) p hp' hrc
  · intro st oldDoc newDoc st2 h
    have hUpd : dsUpdateIndexes st [(oldDoc, newDoc)] =
        ({ st with indexes := (dsUpdateIndexesGo [(oldDoc, newDoc)] [] st.indexes).1 },
          (dsUpdateIndexesGo [(oldDoc, newDoc)] [] st.indexes).2) := rfl
    rw [hUpd] at h
    cases hgo : dsUpdateIndexesGo [(oldDoc, newDoc)] [] st.indexes with
    | mk out err =>
      rw [hgo] at h
      injection h with hA hB
      subst hB
      intro p hp hrc
      have hp' : p ∈ out := by
        rw [← hA] at hp
        exact hp
      exact dsUpdGo_success oldDoc newDoc st.indexes [] out hgo
        (fun p hp _ => absurd hp (List.not_mem_nil p)) p hp' hrc

/-- Witness for C2 at concrete inputs: a duplicate-`_id` insert fails
and leaves the state exactly unchanged; a fresh insert into the initial
datastore is reachable through the `_id` index; the new version of a
successful single-pair update is reachable through the `_id` index. -/
theorem C2_index_atomicity_witness :
    (dsAddToIndexes
      { indexes := [("_id", { fieldName := "_id", unique := true, sparse := false,
                              tree := [(NValue.str "a", [NValue.obj [("_id", NValue.str "a")]])] })],
        ttlIndexes := [], journal := [] }
      (NValue.obj [("_id", NValue.str "a"), ("x", NValue.num 1)])).1 =
      { indexes := [("_id", { fieldName := "_id", unique := true, sparse := false,
                              tree := [(NValue.str "a", [NValue.obj [("_id", NValue.str "a")]])] })],
        ttlIndexes := [], journal := [] } ∧
    NValue.obj [("_id", NValue.str "a")] ∈
      idxGetMatching
        { fieldName := "_id", unique := true, sparse := false,
          tree := [(NValue.str "a", [NValue.obj [("_id", NValue.str "a")]])] }
        (getDotValue (NValue.obj [("_id", NValue.str "a")]) "_id") ∧
    NValue.obj [("_id", NValue.str "a"), ("x", NValue.num 1)] ∈
      idxGetMatching
        { fieldName := "_id", unique := true, sparse := false,
          tree := [(NValue.str "a", [NValue.obj [("_id", NValue.str "a"), ("x", NValue.num 1)]])] }
        (getDotValue (NValue.obj [("_id", NValue.str "a"), ("x", NValue.num 1)]) "_id") := by
  refine ⟨?_, ?_, ?_⟩
  · exact C2_index_atomicity.1
      { indexes := [("_id", { fieldName := "_id", unique := true, sparse := false,
                              tree := [(NValue.str "a", [NValue.obj [("_id", NValue.str "a")]])] })],
        ttlIndexes := [], journal := [] }
      (NValue.obj [("_id", NValue.str "a"), ("x", NValue.num 1)])
      ((dsAddToIndexes
        { indexes := [("_id", { fieldName := "_id", unique := true, sparse := false,
                                tree := [(NValue.str "a", [NValue.obj [("_id", NValue.str "a")]])] })],
          ttlIndexes := [], journal := [] }
        (NValue.obj [("_id", NValue.str "a"), ("x", NValue.num 1)])).1)
      "uniqueViolated" (by rfl) rfl
  · exact C2_index_atomicity.2.1 dsInit (NValue.obj [("_id", NValue.str "a")])
      { indexes := [("_id", { fieldName := "_id", unique := true, sparse := false,
                              tree := [(NValue.str "a", [NValue.obj [("_id", NValue.str "a")]])] })],
        ttlIndexes := [], journal := [] }
      rfl
      ("_id", { fieldName := "_id", unique := true, sparse := false,
                tree := [(NValue.str "a", [NValue.obj [("_id", NValue.str "a")]])] })
      (List.mem_singleton.mpr rfl)
      (by rfl)
  · exact C2_index_atomicity.2.2
      { indexes := [("_id", { fieldName := "_id", unique := true, sparse := false,
                              tree := [(NValue.str "a", [NValue.obj [("_id", NValue.str "a")]])] })],
        ttlIndexes := [], journal := [] }
      (NValue.obj [("_id", NValue.str "a")])
      (NValue.obj [("_id", NValue.str "a"), ("x", NValue.num 1)])
      { indexes := [("_id", { fieldName := "_id", unique := true, sparse := false,
                              tree := [(NValue.str "a",
                                [NValue.obj [("_id", NValue.str "a"), ("x", NValue.num 1)]])] })],
        ttlIndexes := [], journal := [] }
      rfl
      ("_id", { fieldName := "_id", unique := true, sparse := false,
                tree := [(NValue.str "a",
                  [NValue.obj [("_id", NValue.str "a"), ("x", NValue.num 1)]])] })
      (List.mem_singleton.mpr rfl)
      (by rfl)

/-!
### Claim C8 — `$exists` and `$ne` semantics
-/

/-- One step of the matcher: a map query against a map document enters
the key loop. -/
theorem me_top (n : Nat) (dkvs qkvs : List (String × NValue)) :
    matchEval (n + 1) (.top (.obj dkvs) (.obj qkvs)) =
      matchEval n (.keys (.obj dkvs) qkvs) := rfl

/-- One step of the matcher: an exhausted key loop accepts. -/
theorem me_keys_nil (n : Nat) (D : NValue) :
    matchEval (n + 1) (.keys D []) = .ok true := rfl

/-- One step of the matcher: a non-operator key is a field match. -/
theorem me_keys_cons (n : Nat) (D : NValue) (k : String) (v : NValue)
    (rest : List (String × NValue)) (hk : startsDollar k = false) :
    matchEval (n + 1) (.keys D ((k, v) :: rest)) =
      match matchEval n (.part D k v false) with
      | .error msg => .error msg
      | .ok false => .ok false
      | .ok true => matchEval n (.keys D rest) := by
  have h1 : matchEval (n + 1) (.keys D ((k, v) :: rest)) =
      match (if startsDollar k then
          (if k == "$not" then (matchEval n (.top D v)).map (fun r => !r)
          else if k == "$where" then .error "$where operator used without a function"
          else if k == "$or" then
            match v with
            | .arr qs => matchEval n (.orL D qs)
            | _ => .error "$or operator used without an array"
          else if k == "$and" then
            match v with
            | .arr qs => matchEval n (.andL D qs)
            | _ => .error "$and operator used without an array"
          else .error ("Unknown logical operator " ++ k))
        else matchEval n (.part D k v false)) with
      | .error msg => Except.error msg
      | .ok false => Except.ok false
      | .ok true => matchEval n (.keys D rest) := rfl
  rw [h1, hk]
  rfl

/-- The single unfolding of the matcher on a query part with a map
query value, exposing the dot-value dispatch of the source. -/
theorem me_part_unfold (n : Nat) (D : NValue) (f : String)
    (qkvs : List (String × NValue)) :
    matchEval (n + 1) (.part D f (.obj qkvs) false) =
      (match getDotValue D f, false with
       | NValue.arr es, false =>
         if qkvs.any (fun kv => isArrayComparisonFunction kv.1) then
           matchEval n (.part D f (.obj qkvs) true)
         else matchEval n (.anyElem es (.obj qkvs))
       | _, _ =>
         if (qkvs.filter (fun kv => startsDollar kv.1)).length != 0 &&
             (qkvs.filter (fun kv => startsDollar kv.1)).length != qkvs.length then
           Except.error "You cannot mix operators and normal fields"
         else if (qkvs.filter (fun kv => startsDollar kv.1)).length > 0 then
           matchEval n (.comps (getDotValue D f) qkvs)
         else if areThingsEqual (getDotValue D f) (.obj qkvs) then Except.ok true
         else Except.ok false) := rfl

/-- One step of the matcher: a query part whose dot-value is not an
array and whose query value is a pure-operator object dispatches to the
comparison walk. -/
theorem me_part_ops (n : Nat) (D : NValue) (f : String)
    (qkvs : List (String × NValue))
    (hna : ∀ es, getDotValue D f ≠ NValue.arr es)
    (hdollar : qkvs.filter (fun kv => startsDollar kv.1) = qkvs)
    (hne : qkvs ≠ []) :
    matchEval (n + 1) (.part D f (.obj qkvs) false) =
      matchEval n (.comps (getDotValue D f) qkvs) := by
  rw [me_part_unfold]
  have hlen : 0 < qkvs.length := List.length_pos.2 hne
  rcases hv : getDotValue D f with _ | _ | b | m | s | d | es | okvs
  case arr => exact absurd hv (hna es)
  all_goals
    rw [hdollar]
    simp [Nat.pos_iff_ne_zero.1 hlen, hlen, hv]

/-- One step of the matcher: `$exists` evaluates `cfExists` on the
dot-value. -/
theorem me_comps_exists (n : Nat) (x v : NValue) :
    matchEval (n + 2) (.comps x [("$exists", v)]) = .ok (cfExists x v) := by
  have h1 : matchEval (n + 2) (.comps x [("$exists", v)]) =
      match Except.ok (cfExists x v) with
      | .error msg => Except.error msg
      | .ok false => Except.ok false
      | .ok true => matchEval (n + 1) (.comps x []) := rfl
  rw [h1]
  cases cfExists x v
  · rfl
  · rfl

/-- One step of the matcher: `$ne` evaluates `cfNe` on the dot-value. -/
theorem me_comps_ne (n : Nat) (x w : NValue) :
    matchEval (n + 2) (.comps x [("$ne", w)]) = .ok (cfNe x w) := by
  have h1 : matchEval (n + 2) (.comps x [("$ne", w)]) =
      match Except.ok (cfNe x w) with
      | .error msg => Except.error msg
      | .ok false => Except.ok false
      | .ok true => matchEval (n + 1) (.comps x []) := rfl
  rw [h1]
  cases cfNe x w
  · rfl
  · rfl

/-- One step of the matcher: an empty-array dot-value sends a
non-array-specific operator object through the element loop, which
fails on no elements. -/
theorem me_part_emptyarr (n : Nat) (D : NValue) (f : String) (v : NValue)
    (hv : getDotValue D f = NValue.arr []) :
    matchEval (n + 2) (.part D f (.obj [("$exists", v)]) false) = .ok false := by
  rw [me_part_unfold (n + 1) D f [("$exists", v)], hv]
  rfl

/-- `$exists` in terms of definedness: the code flag is "truthy or the
empty string". -/
theorem cfExists_eq (x v : NValue) :
    cfExists x v =
      (isDefinedB x ==
        (truthy v || (match v with | .str s => s == "" | _ => false))) := by
  cases x <;> simp [cfExists, isDefinedB]

/-- Full run of the matcher on a single-field `$exists` query whose
dot-value is not an array: the verdict is `cfExists`. -/
theorem matchEval_exists_run (n : Nat) (dkvs : List (String × NValue)) (f : String)
    (v : NValue) (hf : startsDollar f = false)
    (hna : ∀ es, getDotValue (NValue.obj dkvs) f ≠ NValue.arr es) :
    matchEval (n + 5) (.top (.obj dkvs) (.obj [(f, .obj [("$exists", v)])])) =
      .ok (cfExists (getDotValue (.obj dkvs) f) v) := by
  calc matchEval (n + 5) (.top (.obj dkvs) (.obj [(f, .obj [("$exists", v)])]))
      = matchEval (n + 4) (.keys (.obj dkvs) [(f, .obj [("$exists", v)])]) :=
        me_top (n + 4) dkvs [(f, .obj [("$exists", v)])]
    _ = match matchEval (n + 2 + 1) (.part (.obj dkvs) f (.obj [("$exists", v)]) false) with
        | .error msg => Except.error msg
        | .ok false => Except.ok false
        | .ok true => matchEval (n + 3) (.keys (.obj dkvs) []) :=
        me_keys_cons (n + 3) (.obj dkvs) f (.obj [("$exists", v)]) [] hf
    _ = match matchEval (n + 2) (.comps (getDotValue (.obj dkvs) f) [("$exists", v)]) with
        | .error msg => Except.error msg
        | .ok false => Except.ok false
        | .ok true => matchEval (n + 3) (.keys (.obj dkvs) []) := by
        rw [me_part_ops (n + 2) (.obj dkvs) f [("$exists", v)] hna rfl (by simp)]
    _ = match (Except.ok (cfExists (getDotValue (.obj dkvs) f) v) : Except String Bool) with
        | .error msg => Except.error msg
        | .ok false => Except.ok false
        | .ok true => matchEval (n + 3) (.keys (.obj dkvs) []) := by
        rw [me_comps_exists n (getDotValue (.obj dkvs) f) v]
    _ = .ok (cfExists (getDotValue (.obj dkvs) f) v) := by
        cases cfExists (getDotValue (.obj dkvs) f) v
        · rfl
        · rfl

/-- Full run of the matcher on a single-field `$ne` query whose
dot-value is undefined: the match succeeds. -/
theorem matchEval_ne_run (n : Nat) (dkvs : List (String × NValue)) (f : String)
    (w : NValue) (hf : startsDollar f = false)
    (hundef : getDotValue (NValue.obj dkvs) f = NValue.undef) :
    matchEval (n + 5) (.top (.obj dkvs) (.obj [(f, .obj [("$ne", w)])])) = .ok true := by
  have hna : ∀ es, getDotValue (NValue.obj dkvs) f ≠ NValue.arr es := by
    intro es h
    rw [hundef] at h
    exact NValue.noConfusion h
  calc matchEval (n + 5) (.top (.obj dkvs) (.obj [(f, .obj [("$ne", w)])]))
      = matchEval (n + 4) (.keys (.obj dkvs) [(f, .obj [("$ne", w)])]) :=
        me_top (n + 4) dkvs [(f, .obj [("$ne", w)])]
    _ = match matchEval (n + 2 + 1) (.part (.obj dkvs) f (.obj [("$ne", w)]) false) with
        | .error msg => Except.error msg
        | .ok false => Except.ok false
        | .ok true => matchEval (n + 3) (.keys (.obj dkvs) []) :=
        me_keys_cons (n + 3) (.obj dkvs) f (.obj [("$ne", w)]) [] hf
    _ = match matchEval (n + 2) (.comps (getDotValue (.obj dkvs) f) [("$ne", w)]) with
        | .error msg => Except.error msg
        | .ok false => Except.ok false
        | .ok true => matchEval (n + 3) (.keys (.obj dkvs) []) := by
        rw [me_part_ops (n + 2) (.obj dkvs) f [("$ne", w)] hna rfl (by simp)]
    _ = match matchEval (n + 2) (.comps NValue.undef [("$ne", w)]) with
        | .error msg => Except.error msg
        | .ok false => Except.ok false
        | .ok true => matchEval (n + 3) (.keys (.obj dkvs) []) := by
        rw [hundef]
    _ = match (Except.ok (cfNe NValue.undef w) : Except String Bool) with
        | .error msg => Except.error msg
        | .ok false => Except.ok false
        | .ok true => matchEval (n + 3) (.keys (.obj dkvs) []) := by
        rw [me_comps_ne n NValue.undef w]
    _ = .ok true := rfl

/-- Full run of the matcher on a single-field `$exists` query whose
dot-value is the empty array: never a match. -/
theorem matchEval_exists_empty_run (n : Nat) (gkvs : List (String × NValue)) (g : String)
    (vv : NValue) (hg : startsDollar g = false)
    (hempty : getDotValue (NValue.obj gkvs) g = NValue.arr []) :
    matchEval (n + 5) (.top (.obj gkvs) (.obj [(g, .obj [("$exists", vv)])])) = .ok false := by
  calc matchEval (n + 5) (.top (.obj gkvs) (.obj [(g, .obj [("$exists", vv)])]))
      = matchEval (n + 4) (.keys (.obj gkvs) [(g, .obj [("$exists", vv)])]) :=
        me_top (n + 4) gkvs [(g, .obj [("$exists", vv)])]
    _ = match matchEval (n + 1 + 2) (.part (.obj gkvs) g (.obj [("$exists", vv)]) false) with
        | .error msg => Except.error msg
        | .ok false => Except.ok false
        | .ok true => matchEval (n + 3) (.keys (.obj gkvs) []) :=
        me_keys_cons (n + 3) (.obj gkvs) g (.obj [("$exists", vv)]) [] hg
    _ = match (Except.ok false : Except String Bool) with
        | .error msg => Except.error msg
        | .ok false => Except.ok false
        | .ok true => matchEval (n + 3) (.keys (.obj gkvs) []) := by
        rw [me_part_emptyarr (n + 1) (.obj gkvs) g vv hempty]
    _ = .ok false := rfl

/-- Counterexample to C8 as stated: with `v` the empty string the claim
predicate "truthy and non-empty" is false, so for a document lacking
the field the two sides coincide and the claim demands a match; the
code, however, treats `$exists: ''` as "must exist" and rejects. -/
theorem C8_counterexample :
    claimTruthyNonEmpty (NValue.str "") = false ∧
    getDotValue (NValue.obj []) "x" = NValue.undef ∧
    jsMatch (NValue.obj []) (NValue.obj [("x", NValue.obj [("$exists", NValue.str "")])]) =
      .ok false := by
  exact ⟨rfl, rfl, rfl⟩

/-- C8 as amended: matching `(f: ($exists: v))` succeeds iff the
dot-value of `f` being defined coincides with the code's existence
flag — `v` truthy or `v` the empty string — provided the dot-value is
not an array (an array dot-value takes the element-wise route; in
particular the empty array never matches, even with a truthy `v`); and
matching `(f: ($ne: w))` returns true whenever the dot-value of `f` is
undefined. -/
theorem C8_exists_ne (dkvs : List (String × NValue)) (f : String) (v w : NValue)
    (hf : startsDollar f = false)
    (hna : ∀ es, getDotValue (NValue.obj dkvs) f ≠ NValue.arr es) :
    (jsMatch (.obj dkvs) (.obj [(f, .obj [("$exists", v)])]) =
      .ok ((isDefinedB (getDotValue (.obj dkvs) f)) ==
        (truthy v || (match v with | .str s => s == "" | _ => false)))) ∧
    (getDotValue (.obj dkvs) f = .undef →
      jsMatch (.obj dkvs) (.obj [(f, .obj [("$ne", w)])]) = .ok true) ∧
    (∀ gkvs (g : String) (vv : NValue), startsDollar g = false →
      getDotValue (NValue.obj gkvs) g = .arr [] →
      jsMatch (.obj gkvs) (.obj [(g, .obj [("$exists", vv)])]) = .ok false) := by
  refine ⟨?_, ?_, ?_⟩
  · have hfuel : nvSize (NValue.obj dkvs) +
        nvSize (NValue.obj [(f, NValue.obj [("$exists", v)])]) + 4 =
        (nvSize (NValue.obj dkvs) +
          nvSize (NValue.obj [(f, NValue.obj [("$exists", v)])]) - 1) + 5 := by
      have := nvSize_pos (NValue.obj dkvs)
      omega
    rw [jsMatch, hfuel, matchEval_exists_run _ dkvs f v hf hna, cfExists_eq]
  · intro hundef
    have hfuel : nvSize (NValue.obj dkvs) +
        nvSize (NValue.obj [(f, NValue.obj [("$ne", w)])]) + 4 =
        (nvSize (NValue.obj dkvs) +
          nvSize (NValue.obj [(f, NValue.obj [("$ne", w)])]) - 1) + 5 := by
      have := nvSize_pos (NValue.obj dkvs)
      omega
    rw [jsMatch, hfuel, matchEval_ne_run _ dkvs f w hf hundef]
  · intro gkvs g vv hg hempty
    have hfuel : nvSize (NValue.obj gkvs) +
        nvSize (NValue.obj [(g, NValue.obj [("$exists", vv)])]) + 4 =
        (nvSize (NValue.obj gkvs) +
          nvSize (NValue.obj [(g, NValue.obj [("$exists", vv)])]) - 1) + 5 := by
      have := nvSize_pos (NValue.obj gkvs)
      omega
    rw [jsMatch, hfuel, matchEval_exists_empty_run _ gkvs g vv hg hempty]

/-- Witness for C8 at concrete inputs: a document with one field `a`,
queried on the missing field `x` with `$exists: false` (matches) and
with `$ne: 7` (matches). -/
theorem C8_exists_ne_witness :
    jsMatch (.obj [("a", NValue.num 1)])
      (.obj [("x", NValue.obj [("$exists", NValue.bool false)])]) = .ok true ∧
    jsMatch (.obj [("a", NValue.num 1)])
      (.obj [("x", NValue.obj [("$ne", NValue.num 7)])]) = .ok true := by
  have h := C8_exists_ne [("a", NValue.num 1)] "x" (NValue.bool false) (NValue.num 7)
    rfl (fun es h => NValue.noConfusion h)
  refine ⟨?_, h.2.1 rfl⟩
  rw [h.1]
  rfl

/-!
### Claim C9 — the `_id` index is always present
-/

/-- C9: the constructor installs a unique index on `_id`, but
`removeIndex("_id")` deletes it — after that call the index set holds
no `_id` index at all, contradicting the invariant. -/
theorem C9_removeIndex_deletes_id_index :
    dsInit.indexes.find? (fun kv => kv.1 == "_id") =
      some ("_id", indexNew "_id" true false) ∧
    ((dsRemoveIndex dsInit "_id").1.indexes.find? (fun kv => kv.1 == "_id")) = none := by
  exact ⟨rfl, rfl⟩

/-!
### Claim C10 — `ensureIndex` is idempotent
-/

/-- C10: when an index already exists for `options.fieldName`,
`ensureIndex` calls back with no error and changes nothing — the index
set, the TTL table and the journal are untouched, whatever the other
options say. -/
theorem C10_ensureIndex_idempotent (st : DsState) (opts : EnsureOpts)
    (hname : opts.fieldName ≠ "")
    (hex : (st.indexes.find? (fun kv => kv.1 == opts.fieldName)).isSome = true) :
    dsEnsureIndex st opts = (st, none) := by
  have h1 : (opts.fieldName == "") = false := by
    simpa using hname
  unfold dsEnsureIndex
  rw [h1]
  simp [hex]

/-- Witness for C10: re-ensuring the `_id` index with different options
on a fresh datastore changes nothing. -/
theorem C10_ensureIndex_idempotent_witness :
    dsEnsureIndex dsInit
      { fieldName := "_id", unique := false, sparse := true,
        expireAfterSeconds := some 5 } = (dsInit, none) :=
  C10_ensureIndex_idempotent dsInit
    { fieldName := "_id", unique := false, sparse := true, expireAfterSeconds := some 5 }
    (by decide) (by rfl)

theorem getDotValue_id (v : NValue) :
    getDotValue v "_id" = if truthy v = false then .undef else jsIndexRead v "_id" := rfl

theorem sAssocSet_mem (k : String) (v : NValue) :
    ∀ m kv, kv ∈ sAssocSet m k v → kv ∈ m ∨ kv.2 = v := by
  intro m
  induction m with
  | nil =>
    intro kv h
    simp only [sAssocSet] at h
    rcases List.mem_singleton.mp h with h
    exact Or.inr (by rw [h])
  | cons p rest ih =>
    obtain ⟨k', v'⟩ := p
    intro kv h
    simp only [sAssocSet] at h
    split_ifs at h with hk
    · rcases List.mem_cons.mp h with h1 | h1
      · exact Or.inr (by rw [h1])
      · exact Or.inl (List.mem_cons_of_mem _ h1)
    · rcases List.mem_cons.mp h with h1 | h1
      · exact Or.inl (by rw [h1]; exact List.mem_cons_self _ _)
      · rcases ih kv h1 with h2 | h2
        · exact Or.inl (List.mem_cons_of_mem _ h2)
        · exact Or.inr h2

theorem sAssocDelete_mem (k : String) (m : List (String × NValue)) (kv : String × NValue)
    (h : kv ∈ sAssocDelete m k) : kv ∈ m :=
  List.mem_of_mem_filter h

theorem treatLine_docIdOk (acc : TreatAcc) (l : RawLine)
    (hl : lineOk l = true)
    (hacc : ∀ kv ∈ acc.dataById, docIdOk kv.2 = true) :
    ∀ kv ∈ (treatLine acc l).dataById, docIdOk kv.2 = true := by
  cases l with
  | emptyLine => exact hacc
  | junk => exact hacc
  | good doc =>
    intro kv hkv
    simp only [treatLine] at hkv
    split_ifs at hkv with h1 h2 h3
    · exact hacc kv (sAssocDelete_mem _ _ _ hkv)
    · rcases sAssocSet_mem _ _ _ kv hkv with hm | hv
      · exact hacc kv hm
      · rw [hv]
        simp only [lineOk] at hl
        rcases hid : jsGet doc "_id" with _ | _ | b | n | s | d | es | kvs <;> rw [hid] at hl h1
        · exact absurd h1 (by simp [truthy])
        · exact absurd h1 (by simp [truthy])
        · exact absurd hl (by simp)
        · exact absurd hl (by simp)
        · cases hdoc : doc with
          | obj kvs2 =>
            simp only [docIdOk, hdoc]
            rw [hdoc] at hid
            rw [hid]
            simpa using hl
          | _ =>
            exfalso
            rw [hdoc] at hid
            simp [jsGet] at hid
        · exact absurd hl (by simp)
        · exact absurd hl (by simp)
        · exact absurd hl (by simp)
    · exact hacc kv hkv
    · rcases hrem : jsGet doc "$$indexRemoved" with _ | _ | b | n | s | d | es | kvs <;>
        rw [hrem] at hkv <;>
        exact hacc kv hkv

theorem treatFold_docIdOk :
    ∀ (lines : List RawLine) (acc : TreatAcc),
      lines.all lineOk = true →
      (∀ kv ∈ acc.dataById, docIdOk kv.2 = true) →
      ∀ kv ∈ (lines.foldl treatLine acc).dataById, docIdOk kv.2 = true := by
  intro lines
  induction lines with
  | nil => intro acc _ hacc; exact hacc
  | cons l rest ih =>
    intro acc hok hacc
    simp only [List.all_cons, Bool.and_eq_true] at hok
    exact ih (treatLine acc l) hok.2 (treatLine_docIdOk acc l hok.1 hacc)

theorem treeGetAll_insert (unique : Bool) :
    ∀ (t t' : Tree) (k d : NValue),
      treeInsert unique t k d = .ok t' →
      List.Perm (treeGetAll t') (d :: treeGetAll t) := by
  intro t
  induction t with
  | nil =>
    intro t' k d h
    simp only [treeInsert, Except.ok.injEq] at h
    subst h
    simp [treeGetAll]
  | cons node rest ih =>
    obtain ⟨k', ds⟩ := node
    intro t' k d h
    simp only [treeInsert] at h
    split_ifs at h with h1 h2 h3
    · simp only [Except.ok.injEq] at h
      subst h
      simp [treeGetAll]
    · simp only [Except.ok.injEq] at h
      subst h
      show List.Perm ((ds ++ [d]) ++ treeGetAll rest) (d :: (ds ++ treeGetAll rest))
      exact ((List.perm_append_singleton d ds).append_right (treeGetAll rest))
    · cases hrec : treeInsert unique rest k d with
      | error e => rw [hrec] at h; exact absurd h (by simp)
      | ok rest' =>
        rw [hrec] at h
        simp only [Except.ok.injEq] at h
        subst h
        show List.Perm (ds ++ treeGetAll rest') (d :: (ds ++ treeGetAll rest))
        exact ((ih rest' k d hrec).append_left ds).trans List.perm_middle

theorem idxInsertDoc_perm (idx idx' : IndexState) (d : NValue) (s : String)
    (hkey : getDotValue d idx.fieldName = .str s)
    (h : idxInsertDoc idx d = (idx', none)) :
    List.Perm (treeGetAll idx'.tree) (d :: treeGetAll idx.tree) := by
  obtain ⟨f, u, sp, t⟩ := idx
  rw [idxInsertDoc_eq] at h
  dsimp only at h hkey
  rw [hkey] at h
  dsimp only at h
  cases htr : treeInsert u t (.str s) d with
  | error e =>
    rw [htr] at h
    injection h with hA hB
    exact Option.noConfusion hB
  | ok t' =>
    rw [htr] at h
    injection h with hA hB
    subst hA
    exact treeGetAll_insert u t t' (.str s) d htr

theorem idxInsertList_perm :
    ∀ (docs : List NValue) (ins : List NValue) (idx idx' : IndexState),
      (∀ d ∈ docs, ∃ s, getDotValue d idx.fieldName = NValue.str s) →
      idxInsertList idx ins docs = (idx', none) →
      List.Perm (treeGetAll idx'.tree) (docs ++ treeGetAll idx.tree) := by
  intro docs
  induction docs with
  | nil =>
    intro ins idx idx' _ h
    have h' : (idx, (none : Option String)) = (idx', none) := h
    injection h' with hA hB
    subst hA
    exact List.Perm.refl _
  | cons d rest ih =>
    intro ins idx idx' hkeys h
    have hstep : idxInsertList idx ins (d :: rest) =
        (match idxInsertDoc idx d with
         | (idx1, none) => idxInsertList idx1 (ins ++ [d]) rest
         | (idx1, some e) =>
           let rolled := ins.foldl
             (fun acc dd =>
               match acc with
               | (st, some msg) => (st, some msg)
               | (st, none) => idxRemoveDoc st dd)
             (idx1, none)
           (rolled.1, some (rolled.2.getD e))) := rfl
    rw [hstep] at h
    cases hins : idxInsertDoc idx d with
    | mk idx1 err1 =>
      cases err1 with
      | none =>
        rw [hins] at h
        dsimp only at h
        obtain ⟨s, hs⟩ := hkeys d (List.mem_cons_self _ _)
        obtain ⟨hf, _, _⟩ := idxInsertDoc_fields idx idx1 d none hins
        have hkeys1 : ∀ dd ∈ rest, ∃ s, getDotValue dd idx1.fieldName = NValue.str s := by
          intro dd hdd
          rw [hf]
          exact hkeys dd (List.mem_cons_of_mem _ hdd)
        have hrec := ih (ins ++ [d]) idx1 idx' hkeys1 h
        have hone := idxInsertDoc_perm idx idx1 d s hs hins
        exact (hrec.trans ((hone.append_left rest).trans List.perm_middle))
      | some e =>
        rw [hins] at h
        dsimp only at h
        injection h with hA hB
        exact Option.noConfusion hB

theorem treatLine_spec (acc : TreatAcc) (l : RawLine) (hl : lineOk l = true) :
    (treatLine acc l).dataById = (specFoldLine (acc.dataById, acc.indexes) l).1 ∧
    (treatLine acc l).indexes = (specFoldLine (acc.dataById, acc.indexes) l).2 := by
  cases l with
  | emptyLine => exact ⟨rfl, rfl⟩
  | junk => exact ⟨rfl, rfl⟩
  | good doc =>
    have ht : treatLine acc (.good doc) =
        (if truthy (jsGet doc "_id") then
          if (match jsGet doc "$$deleted" with | .bool true => true | _ => false) then
            { acc with dataById := sAssocDelete acc.dataById (jsPropKey (jsGet doc "_id")) }
          else
            { acc with dataById := sAssocSet acc.dataById (jsPropKey (jsGet doc "_id")) doc }
        else
          if truthy (jsGet doc "$$indexCreated") &&
             !(match jsGet (jsGet doc "$$indexCreated") "fieldName" with
               | .undef => true | .null => true | _ => false) then
            { acc with indexes :=
                (sAssocSet acc.indexes
                  (jsPropKey (jsGet (jsGet doc "$$indexCreated") "fieldName"))
                  (jsGet doc "$$indexCreated")) }
          else
            match jsGet doc "$$indexRemoved" with
            | .str fn => { acc with indexes := sAssocDelete acc.indexes fn }
            | _ => acc) := rfl
    have hs : specFoldLine (acc.dataById, acc.indexes) (.good doc) =
        (match jsGet doc "_id" with
         | .undef =>
           if !(match jsGet doc "$$indexCreated" with
                | .undef => true | .null => true | _ => false) &&
              !(match jsGet (jsGet doc "$$indexCreated") "fieldName" with
                | .undef => true | .null => true | _ => false) then
             (acc.dataById, sAssocSet acc.indexes
               (jsPropKey (jsGet (jsGet doc "$$indexCreated") "fieldName"))
               (jsGet doc "$$indexCreated"))
           else
             match jsGet doc "$$indexRemoved" with
             | .str fn => (acc.dataById, sAssocDelete acc.indexes fn)
             | _ => (acc.dataById, acc.indexes)
         | idv =>
           if (match jsGet doc "$$deleted" with | .bool true => true | _ => false) then
             (sAssocDelete acc.dataById (jsPropKey idv), acc.indexes)
           else
             (sAssocSet acc.dataById (jsPropKey idv) doc, acc.indexes)) := rfl
    rw [ht, hs]
    simp only [lineOk] at hl
    rcases hid : jsGet doc "_id" with _ | _ | b | n | s | dd | es | kvs <;> rw [hid] at hl
    case undef =>
      rcases hic : jsGet doc "$$indexCreated" with _ | _ | b2 | n2 | s2 | dd2 | es2 | kvs2
      case bool =>
        have hcond : (truthy (NValue.bool b2) &&
            !(match jsGet (NValue.bool b2) "fieldName" with
              | NValue.undef => true | NValue.null => true | _ => false)) = false := by
          simp [truthy, jsGet]
        rw [hcond]
        rcases hrem : jsGet doc "$$indexRemoved" with _ | _ | b3 | n3 | s3 | dd3 | es3 | kvs3 <;>
          exact ⟨rfl, rfl⟩
      case num =>
        have hcond : (truthy (NValue.num n2) &&
            !(match jsGet (NValue.num n2) "fieldName" with
              | NValue.undef => true | NValue.null => true | _ => false)) = false := by
          simp [truthy, jsGet]
        rw [hcond]
        rcases hrem : jsGet doc "$$indexRemoved" with _ | _ | b3 | n3 | s3 | dd3 | es3 | kvs3 <;>
          exact ⟨rfl, rfl⟩
      case str =>
        have hcond : (truthy (NValue.str s2) &&
            !(match jsGet (NValue.str s2) "fieldName" with
              | NValue.undef => true | NValue.null => true | _ => false)) = false := by
          simp [truthy, jsGet]
        rw [hcond]
        rcases hrem : jsGet doc "$$indexRemoved" with _ | _ | b3 | n3 | s3 | dd3 | es3 | kvs3 <;>
          exact ⟨rfl, rfl⟩
      case obj =>
        rcases hfn : jsGet (NValue.obj kvs2) "fieldName" with _ | _ | b3 | n3 | s3 | dd3 | es3 | kvs3
        case undef =>
          rcases hrem : jsGet doc "$$indexRemoved" with _ | _ | b4 | n4 | s4 | dd4 | es4 | kvs4 <;>
            exact ⟨rfl, rfl⟩
        case null =>
          rcases hrem : jsGet doc "$$indexRemoved" with _ | _ | b4 | n4 | s4 | dd4 | es4 | kvs4 <;>
            exact ⟨rfl, rfl⟩
        all_goals exact ⟨rfl, rfl⟩
      all_goals
        rcases hrem : jsGet doc "$$indexRemoved" with _ | _ | b3 | n3 | s3 | dd3 | es3 | kvs3 <;>
          exact ⟨rfl, rfl⟩
    case bool => exact absurd hl (by simp)
    case num => exact absurd hl (by simp)
    case null => exact absurd hl (by simp)
    case date => exact absurd hl (by simp)
    case arr => exact absurd hl (by simp)
    case obj => exact absurd hl (by simp)
    case str =>
      have hst : truthy (NValue.str s) = true := by
        simp only [truthy]
        exact hl
      rw [hst]
      rcases hdel : jsGet doc "$$deleted" with _ | _ | b3 | n3 | s3 | dd3 | es3 | kvs3
      case bool =>
        cases b3 <;> exact ⟨rfl, rfl⟩
      all_goals exact ⟨rfl, rfl⟩

theorem treatFold_spec :
    ∀ (lines : List RawLine) (acc : TreatAcc),
      lines.all lineOk = true →
      (lines.foldl treatLine acc).dataById =
        (lines.foldl specFoldLine (acc.dataById, acc.indexes)).1 ∧
      (lines.foldl treatLine acc).indexes =
        (lines.foldl specFoldLine (acc.dataById, acc.indexes)).2 := by
  intro lines
  induction lines with
  | nil => intro acc _; exact ⟨rfl, rfl⟩
  | cons l rest ih =>
    intro acc hok
    simp only [List.all_cons, Bool.and_eq_true] at hok
    obtain ⟨h1, h2⟩ := treatLine_spec acc l hok.1
    have hrec := ih (treatLine acc l) hok.2
    rw [h1, h2] at hrec
    exact hrec

theorem treatFold_eq_specFold (lines : List RawLine) (hok : lines.all lineOk = true) :
    (treatFold lines).dataById = (specFold lines).1 ∧
    (treatFold lines).indexes = (specFold lines).2 :=
  treatFold_spec lines { dataById := [], indexes := [], corruptItems := -1 } hok

theorem treatRawData_ok (thr : ℚ) (lines : List RawLine)
    (pr : List NValue × List (String × NValue))
    (h : treatRawData thr lines = .ok pr) :
    pr = ((treatFold lines).dataById.map Prod.snd, (treatFold lines).indexes) := by
  simp only [treatRawData] at h
  split_ifs at h with hc
  simp only [Except.ok.injEq] at h
  exact h.symm

theorem idxRecStep_head (idx0 : IndexState) (kv : String × NValue)
    (rest0 : List (String × IndexState)) (hne : ("_id" == kv.1) = false) :
    ∃ rest1,
      (match (("_id", idx0) :: rest0).find? (fun slot => slot.1 == kv.1) with
       | some _ => (("_id", idx0) :: rest0).map
           (fun slot => if slot.1 == kv.1 then (slot.1, indexFromRecord kv.2) else slot)
       | none => (("_id", idx0) :: rest0) ++ [(kv.1, indexFromRecord kv.2)]) =
      ("_id", idx0) :: rest1 := by
  cases hfind : (("_id", idx0) :: rest0).find? (fun slot => slot.1 == kv.1) with
  | some slot =>
    refine ⟨rest0.map (fun slot => if slot.1 == kv.1 then (slot.1, indexFromRecord kv.2) else slot), ?_⟩
    simp only [List.map_cons]
    rw [hne]
    rfl
  | none =>
    exact ⟨rest0 ++ [(kv.1, indexFromRecord kv.2)], rfl⟩

theorem idxRecFold_head (idx0 : IndexState) :
    ∀ (recs : List (String × NValue)) (acc rest0 : List (String × IndexState)),
      recs.all (fun kv => kv.1 != "_id") = true →
      acc = ("_id", idx0) :: rest0 →
      ∃ rest, recs.foldl
        (fun acc kv =>
          match acc.find? (fun slot => slot.1 == kv.1) with
          | some _ => acc.map
              (fun slot => if slot.1 == kv.1 then (slot.1, indexFromRecord kv.2) else slot)
          | none => acc ++ [(kv.1, indexFromRecord kv.2)])
        acc = ("_id", idx0) :: rest := by
  intro recs
  induction recs with
  | nil =>
    intro acc rest0 _ hacc
    exact ⟨rest0, hacc⟩
  | cons kv recs ih =>
    intro acc rest0 hall hacc
    simp only [List.all_cons, Bool.and_eq_true] at hall
    subst hacc
    have hne : ("_id" == kv.1) = false := by
      have h1 := hall.1
      simp only [bne_iff_ne] at h1
      exact beq_eq_false_iff_ne.mpr (fun he => h1 he.symm)
    obtain ⟨rest1, hstep⟩ := idxRecStep_head idx0 kv rest0 hne
    rw [List.foldl_cons]
    have heq : (fun acc kv =>
          match acc.find? (fun slot => slot.1 == kv.1) with
          | some _ => acc.map
              (fun slot => if slot.1 == kv.1 then (slot.1, indexFromRecord kv.2) else slot)
          | none => acc ++ [(kv.1, indexFromRecord kv.2)]) (("_id", idx0) :: rest0) kv =
        ("_id", idx0) :: rest1 := hstep
    have hfold := congrArg
      (fun a => List.foldl
        (fun acc kv =>
          match acc.find? (fun slot => slot.1 == kv.1) with
          | some _ => acc.map
              (fun slot => if slot.1 == kv.1 then (slot.1, indexFromRecord kv.2) else slot)
          | none => acc ++ [(kv.1, indexFromRecord kv.2)]) a recs) heq
    obtain ⟨restF, hres⟩ := ih (("_id", idx0) :: rest1) rest1 hall.2 rfl
    exact ⟨restF, hfold.trans hres⟩

theorem dsFillIndexes_head (docs : List NValue) (idx0 : IndexState)
    (rest : List (String × IndexState)) (out : List (String × IndexState))
    (h : dsFillIndexes docs (("_id", idx0) :: rest) = (out, none)) :
    ∃ idxF rest', out = ("_id", idxF) :: rest' ∧
      idxInsertList { idx0 with tree := [] } [] docs = (idxF, none) := by
  have hstep : dsFillIndexes docs (("_id", idx0) :: rest) =
      (match idxInsertList { idx0 with tree := [] } [] docs with
       | (idx', none) =>
         match dsFillIndexes docs rest with
         | (rest', err) => (("_id", idx') :: rest', err)
       | (idx', some e) => (("_id", idx') :: rest, some e)) := rfl
  rw [hstep] at h
  cases hfill : idxInsertList { idx0 with tree := [] } [] docs with
  | mk idxF err1 =>
    rw [hfill] at h
    cases err1 with
    | none =>
      dsimp only at h
      cases hrest : dsFillIndexes docs rest with
      | mk rest1 err2 =>
        rw [hrest] at h
        dsimp only at h
        injection h with hA hB
        exact ⟨idxF, rest1, hA.symm, rfl⟩
    | some e =>
      dsimp only at h
      injection h with hA hB
      exact Option.noConfusion hB

theorem getDotValue_obj_id (kvs : List (String × NValue)) :
    getDotValue (NValue.obj kvs) "_id" = jsGet (NValue.obj kvs) "_id" := by
  rw [getDotValue_id]
  rfl

theorem loadDb_docs_perm (lines : List RawLine) (thr : ℚ) (st' : DsState)
    (hok : lines.all lineOk = true)
    (hnid : (treatFold lines).indexes.all (fun kv => kv.1 != "_id") = true)
    (h : loadDb dsInit thr lines = (st', none)) :
    List.Perm (dsDocs st') ((specFold lines).1.map Prod.snd) := by
  have hload : loadDb dsInit thr lines =
      (match treatRawData thr lines with
       | .error e => (dsClearIndexes dsInit, some e)
       | .ok (docs, idxRecords) =>
         match dsFillIndexes docs
           (idxRecords.foldl
             (fun acc kv =>
               match acc.find? (fun slot => slot.1 == kv.1) with
               | some _ => acc.map
                   (fun slot => if slot.1 == kv.1 then (slot.1, indexFromRecord kv.2) else slot)
               | none => acc ++ [(kv.1, indexFromRecord kv.2)])
             (dsClearIndexes dsInit).indexes) with
         | (_, some e) =>
           (dsClearIndexes { dsClearIndexes dsInit with indexes :=
             (idxRecords.foldl
               (fun acc kv =>
                 match acc.find? (fun slot => slot.1 == kv.1) with
                 | some _ => acc.map
                     (fun slot => if slot.1 == kv.1 then (slot.1, indexFromRecord kv.2) else slot)
                 | none => acc ++ [(kv.1, indexFromRecord kv.2)])
               (dsClearIndexes dsInit).indexes) }, some e)
         | (indexes₂, none) => ({ dsClearIndexes dsInit with indexes := indexes₂ }, none)) := rfl
  rw [hload] at h
  cases hTRD : treatRawData thr lines with
  | error e =>
    rw [hTRD] at h
    dsimp only at h
    injection h with hA hB
    exact Option.noConfusion hB
  | ok pr =>
    obtain ⟨docs, recs⟩ := pr
    have hpr := treatRawData_ok thr lines (docs, recs) hTRD
    have hdocs : docs = (treatFold lines).dataById.map Prod.snd := congrArg Prod.fst hpr
    have hrecs : recs = (treatFold lines).indexes := congrArg Prod.snd hpr
    rw [hTRD] at h
    dsimp only at h
    obtain ⟨restIdx, hIdx1⟩ := idxRecFold_head (indexNew "_id" true false) recs
      (dsClearIndexes dsInit).indexes [] (by rw [hrecs]; exact hnid) rfl
    rw [hIdx1] at h
    cases hfill2 : dsFillIndexes docs (("_id", indexNew "_id" true false) :: restIdx) with
    | mk idxs2 err =>
      rw [hfill2] at h
      cases err with
      | some e =>
        dsimp only at h
        injection h with hA hB
        exact Option.noConfusion hB
      | none =>
        dsimp only at h
        injection h with hA hB
        obtain ⟨idxF, rest', hout, hfillid⟩ :=
          dsFillIndexes_head docs (indexNew "_id" true false) restIdx idxs2 hfill2
        have hinv := treatFold_docIdOk lines
          { dataById := [], indexes := [], corruptItems := -1 } hok
          (by intro kv hkv; exact absurd hkv (List.not_mem_nil kv))
        have hkeys : ∀ d ∈ docs, ∃ s, getDotValue d "_id" = NValue.str s := by
          intro d hd
          rw [hdocs] at hd
          obtain ⟨kv, hkv, hkv2⟩ := List.mem_map.mp hd
          have hok2 := hinv kv hkv
          rw [hkv2] at hok2
          simp only [docIdOk, Bool.and_eq_true] at hok2
          obtain ⟨hobj, hid⟩ := hok2
          rcases hdd : d with _ | _ | b | n | s | dd2 | es | kvs2 <;> rw [hdd] at hobj hid
          case obj =>
            rcases hjs : jsGet (NValue.obj kvs2) "_id" with _ | _ | b3 | n3 | s3 | dd3 | es3 | kvs3 <;>
              rw [hjs] at hid
            case str =>
              exact ⟨s3, by rw [getDotValue_obj_id, hjs]⟩
            all_goals exact absurd hid (by simp)
          all_goals exact absurd hobj (by simp)
        have hperm := idxInsertList_perm docs []
          { indexNew "_id" true false with tree := ([] : Tree) } idxF hkeys hfillid
        have hdsd : dsDocs st' = treeGetAll idxF.tree := by
          rw [← hA]
          simp only [dsDocs, dsGetAllData]
          rw [hout]
          rw [List.find?_cons_of_pos _ (by rfl)]
        rw [hdsd]
        have hdocs2 : docs = (specFold lines).1.map Prod.snd := by
          rw [hdocs, (treatFold_eq_specFold lines hok).1]
        rw [← hdocs2]
        simpa [treeGetAll] using hperm

theorem specFoldLine_store (I m : List (String × NValue))
    (d : NValue) (id : String) (hrep : replayableDoc d id = true) :
    specFoldLine (m, I) (.good d) = (sAssocSet m id d, I) := by
  simp only [replayableDoc, Bool.and_eq_true] at hrep
  obtain ⟨⟨⟨hobj, hid⟩, hdel⟩, hwf⟩ := hrep
  have hs : specFoldLine (m, I) (.good d) =
      (match jsGet d "_id" with
       | .undef =>
         if !(match jsGet d "$$indexCreated" with
              | .undef => true | .null => true | _ => false) &&
            !(match jsGet (jsGet d "$$indexCreated") "fieldName" with
              | .undef => true | .null => true | _ => false) then
           (m, sAssocSet I
             (jsPropKey (jsGet (jsGet d "$$indexCreated") "fieldName"))
             (jsGet d "$$indexCreated"))
         else
           match jsGet d "$$indexRemoved" with
           | .str fn => (m, sAssocDelete I fn)
           | _ => (m, I)
       | idv =>
         if (match jsGet d "$$deleted" with | .bool true => true | _ => false) then
           (sAssocDelete m (jsPropKey idv), I)
         else
           (sAssocSet m (jsPropKey idv) d, I)) := rfl
  rw [hs]
  rcases hjs : jsGet d "_id" with _ | _ | b | n | s | dd | es | kvs <;> rw [hjs] at hid
  case str =>
    simp only [Bool.and_eq_true, beq_iff_eq] at hid
    obtain ⟨hseq, _⟩ := hid
    subst hseq
    rcases hdel2 : jsGet d "$$deleted" with _ | _ | b2 | n2 | s2 | dd2 | es2 | kvs2 <;>
      rw [hdel2] at hdel
    case undef => rfl
    all_goals exact absurd hdel (by simp)
  all_goals exact absurd hid (by simp)

theorem specFoldLine_tomb (I m : List (String × NValue)) (id : String) :
    specFoldLine (m, I)
      (.good (.obj [("$$deleted", .bool true), ("_id", .str id)])) =
      (sAssocDelete m id, I) := rfl

theorem execIns_spec (I : List (String × NValue)) :
    ∀ (docs : List NValue) (m m' : List (String × NValue)),
      docs.foldlM
        (fun acc d =>
          match jsGet d "_id" with
          | .str id =>
            if replayableDoc d id && (sAssocGet acc id).isNone then
              some (sAssocSet acc id d)
            else none
          | _ => none) m = some m' →
      List.foldl specFoldLine (m, I) (docs.map RawLine.good) = (m', I) := by
  intro docs
  induction docs with
  | nil =>
    intro m m' h
    simp only [List.foldlM_nil, Option.pure_def, Option.some.injEq] at h
    subst h
    rfl
  | cons d ds ih =>
    intro m m' h
    rw [List.foldlM_cons] at h
    try dsimp only at h
    rcases hjs : jsGet d "_id" with _ | _ | b | n | s | dd | es | kvs <;>
      (rw [hjs] at h; try dsimp only at h)
    case str =>
      split_ifs at h with hcond
      · simp only [Option.bind_eq_bind, Option.some_bind] at h
        simp only [Bool.and_eq_true] at hcond
        simp only [List.map_cons, List.foldl_cons]
        rw [specFoldLine_store I m d s hcond.1]
        exact ih (sAssocSet m s d) m' h
      · simp at h
    all_goals simp at h

theorem execUpd_spec (I : List (String × NValue)) :
    ∀ (mods : List (NValue × NValue)) (m m' : List (String × NValue)),
      mods.foldlM
        (fun acc p =>
          match jsGet p.1 "_id" with
          | .str id =>
            if replayableDoc p.2 id &&
               (match sAssocGet acc id with | some d => nvBEq d p.1 | none => false) then
              some (sAssocSet acc id p.2)
            else none
          | _ => none) m = some m' →
      List.foldl specFoldLine (m, I) ((mods.map Prod.snd).map RawLine.good) = (m', I) := by
  intro mods
  induction mods with
  | nil =>
    intro m m' h
    simp only [List.foldlM_nil, Option.pure_def, Option.some.injEq] at h
    subst h
    rfl
  | cons p ps ih =>
    obtain ⟨od, nd⟩ := p
    intro m m' h
    rw [List.foldlM_cons] at h
    try dsimp only at h
    rcases hjs : jsGet od "_id" with _ | _ | b | n | s | dd | es | kvs <;>
      (rw [hjs] at h; try dsimp only at h)
    case str =>
      split_ifs at h with hcond
      · simp only [Option.bind_eq_bind, Option.some_bind] at h
        simp only [Bool.and_eq_true] at hcond
        simp only [List.map_cons, List.foldl_cons]
        rw [specFoldLine_store I m nd s hcond.1]
        exact ih (sAssocSet m s nd) m' h
      · simp at h
    all_goals simp at h

theorem execRem_spec (I : List (String × NValue)) :
    ∀ (ids : List String) (m m' : List (String × NValue)),
      ids.foldlM
        (fun acc id =>
          if id != "" && (sAssocGet acc id).isSome then
            some (sAssocDelete acc id)
          else none) m = some m' →
      List.foldl specFoldLine (m, I)
        ((ids.map (fun id => NValue.obj [("$$deleted", .bool true), ("_id", .str id)])).map
          RawLine.good) = (m', I) := by
  intro ids
  induction ids with
  | nil =>
    intro m m' h
    simp only [List.foldlM_nil, Option.pure_def, Option.some.injEq] at h
    subst h
    rfl
  | cons id ids ih =>
    intro m m' h
    rw [List.foldlM_cons] at h
    try dsimp only at h
    split_ifs at h with hcond
    · simp only [Option.bind_eq_bind, Option.some_bind] at h
      simp only [List.map_cons, List.foldl_cons]
      rw [specFoldLine_tomb I m id]
      exact ih (sAssocDelete m id) m' h
    · simp at h

theorem execOp_spec (I : List (String × NValue)) (op : DsOp)
    (m m' : List (String × NValue)) (h : execOp m op = some m') :
    List.foldl specFoldLine (m, I) ((linesOfOp op).map RawLine.good) = (m', I) := by
  cases op with
  | ins docs => exact execIns_spec I docs m m' h
  | upd mods => exact execUpd_spec I mods m m' h
  | rem ids => exact execRem_spec I ids m m' h

theorem execOps_spec_aux :
    ∀ (ops : List DsOp) (m0 m : List (String × NValue)),
      ops.foldlM execOp m0 = some m →
      List.foldl specFoldLine (m0, ([] : List (String × NValue)))
        ((linesOfOps ops).map RawLine.good) = (m, []) := by
  intro ops
  induction ops with
  | nil =>
    intro m0 m h
    simp only [List.foldlM_nil, Option.pure_def, Option.some.injEq] at h
    subst h
    rfl
  | cons op ops ih =>
    intro m0 m h
    rw [List.foldlM_cons] at h
    cases hstep : execOp m0 op with
    | none => rw [hstep] at h; simp at h
    | some m1 =>
      rw [hstep] at h
      simp only [Option.bind_eq_bind, Option.some_bind] at h
      have hlines : (linesOfOps (op :: ops)).map RawLine.good =
          ((linesOfOp op).map RawLine.good) ++ ((linesOfOps ops).map RawLine.good) := by
        simp [linesOfOps, List.map_append]
      rw [hlines, List.foldl_append, execOp_spec [] op m0 m1 hstep]
      exact ih m1 m h

theorem execOps_spec (ops : List DsOp) (m : List (String × NValue))
    (h : execOps ops = some m) :
    specFold ((linesOfOps ops).map RawLine.good) = (m, []) :=
  execOps_spec_aux ops [] m h

theorem replayable_lineOk (d : NValue) (id : String) (h : replayableDoc d id = true) :
    lineOk (.good d) = true := by
  simp only [replayableDoc, Bool.and_eq_true] at h
  obtain ⟨⟨⟨_, hid⟩, _⟩, _⟩ := h
  simp only [lineOk]
  rcases hjs : jsGet d "_id" with _ | _ | b | n | s | dd | es | kvs <;> rw [hjs] at hid
  case str =>
    simp only [Bool.and_eq_true] at hid
    exact hid.2
  all_goals exact absurd hid (by simp)

theorem execIns_linesOk :
    ∀ (docs : List NValue) (m m' : List (String × NValue)),
      docs.foldlM
        (fun acc d =>
          match jsGet d "_id" with
          | .str id =>
            if replayableDoc d id && (sAssocGet acc id).isNone then
              some (sAssocSet acc id d)
            else none
          | _ => none) m = some m' →
      (docs.map RawLine.good).all lineOk = true := by
  intro docs
  induction docs with
  | nil => intro m m' _; rfl
  | cons d ds ih =>
    intro m m' h
    rw [List.foldlM_cons] at h
    try dsimp only at h
    rcases hjs : jsGet d "_id" with _ | _ | b | n | s | dd | es | kvs <;>
      (rw [hjs] at h; try dsimp only at h)
    case str =>
      split_ifs at h with hcond
      · simp only [Option.bind_eq_bind, Option.some_bind] at h
        simp only [Bool.and_eq_true] at hcond
        simp only [List.map_cons, List.all_cons, Bool.and_eq_true]
        exact ⟨replayable_lineOk d s hcond.1, ih (sAssocSet m s d) m' h⟩
      · simp at h
    all_goals simp at h

theorem execUpd_linesOk :
    ∀ (mods : List (NValue × NValue)) (m m' : List (String × NValue)),
      mods.foldlM
        (fun acc p =>
          match jsGet p.1 "_id" with
          | .str id =>
            if replayableDoc p.2 id &&
               (match sAssocGet acc id with | some d => nvBEq d p.1 | none => false) then
              some (sAssocSet acc id p.2)
            else none
          | _ => none) m = some m' →
      ((mods.map Prod.snd).map RawLine.good).all lineOk = true := by
  intro mods
  induction mods with
  | nil => intro m m' _; rfl
  | cons p ps ih =>
    obtain ⟨od, nd⟩ := p
    intro m m' h
    rw [List.foldlM_cons] at h
    try dsimp only at h
    rcases hjs : jsGet od "_id" with _ | _ | b | n | s | dd | es | kvs <;>
      (rw [hjs] at h; try dsimp only at h)
    case str =>
      split_ifs at h with hcond
      · simp only [Option.bind_eq_bind, Option.some_bind] at h
        simp only [Bool.and_eq_true] at hcond
        simp only [List.map_cons, List.all_cons, Bool.and_eq_true]
        exact ⟨replayable_lineOk nd s hcond.1, ih (sAssocSet m s nd) m' h⟩
      · simp at h
    all_goals simp at h

theorem execRem_linesOk :
    ∀ (ids : List String) (m m' : List (String × NValue)),
      ids.foldlM
        (fun acc id =>
          if id != "" && (sAssocGet acc id).isSome then
            some (sAssocDelete acc id)
          else none) m = some m' →
      ((ids.map (fun id => NValue.obj [("$$deleted", .bool true), ("_id", .str id)])).map
        RawLine.good).all lineOk = true := by
  intro ids
  induction ids with
  | nil => intro m m' _; rfl
  | cons id ids ih =>
    intro m m' h
    rw [List.foldlM_cons] at h
    try dsimp only at h
    split_ifs at h with hcond
    · simp only [Option.bind_eq_bind, Option.some_bind] at h
      simp only [Bool.and_eq_true] at hcond
      simp only [List.map_cons, List.all_cons, Bool.and_eq_true]
      refine ⟨?_, ih (sAssocDelete m id) m' h⟩
      simp only [lineOk]
      show (id != "") = true
      exact hcond.1
    · simp at h

theorem execOp_linesOk (op : DsOp) (m m' : List (String × NValue))
    (h : execOp m op = some m') :
    ((linesOfOp op).map RawLine.good).all lineOk = true := by
  cases op with
  | ins docs => exact execIns_linesOk docs m m' h
  | upd mods => exact execUpd_linesOk mods m m' h
  | rem ids => exact execRem_linesOk ids m m' h

theorem execOps_linesOk_aux :
    ∀ (ops : List DsOp) (m0 m : List (String × NValue)),
      ops.foldlM execOp m0 = some m →
      ((linesOfOps ops).map RawLine.good).all lineOk = true := by
  intro ops
  induction ops with
  | nil => intro m0 m _; rfl
  | cons op ops ih =>
    intro m0 m h
    rw [List.foldlM_cons] at h
    cases hstep : execOp m0 op with
    | none => rw [hstep] at h; simp at h
    | some m1 =>
      rw [hstep] at h
      simp only [Option.bind_eq_bind, Option.some_bind] at h
      have hlines : (linesOfOps (op :: ops)).map RawLine.good =
          ((linesOfOp op).map RawLine.good) ++ ((linesOfOps ops).map RawLine.good) := by
        simp [linesOfOps, List.map_append]
      rw [hlines, List.all_append, execOp_linesOk op m0 m1 hstep, ih m1 m h]
      rfl

theorem execOps_linesOk (ops : List DsOp) (m : List (String × NValue))
    (h : execOps ops = some m) :
    ((linesOfOps ops).map RawLine.good).all lineOk = true :=
  execOps_linesOk_aux ops [] m h

theorem replayable_wf (d : NValue) (id : String) (h : replayableDoc d id = true) :
    wfSerializable d = true := by
  simp only [replayableDoc, Bool.and_eq_true] at h
  exact h.2

theorem rawLineOfDoc_eq_good (d : NValue) (h : wfSerializable d = true) :
    rawLineOfDoc d = .good d := by
  obtain ⟨j, hs, hr⟩ := (serRound_aux (nvSize d)).1 d le_rfl h
  have h1 : rawLineOfDoc d =
      (match serialize d with
       | .ok (some j) => .good (deserialize j)
       | _ => .junk) := rfl
  rw [h1, show serialize d = .ok (some j) from hs]
  show RawLine.good (revive j) = .good d
  rw [hr]

theorem tombstone_wf (id : String) :
    wfSerializable (.obj [("$$deleted", .bool true), ("_id", .str id)]) = true := rfl

theorem execIns_lines_eq :
    ∀ (docs : List NValue) (m m' : List (String × NValue)),
      docs.foldlM
        (fun acc d =>
          match jsGet d "_id" with
          | .str id =>
            if replayableDoc d id && (sAssocGet acc id).isNone then
              some (sAssocSet acc id d)
            else none
          | _ => none) m = some m' →
      docs.map rawLineOfDoc = docs.map RawLine.good := by
  intro docs
  induction docs with
  | nil => intro m m' _; rfl
  | cons d ds ih =>
    intro m m' h
    rw [List.foldlM_cons] at h
    try dsimp only at h
    rcases hjs : jsGet d "_id" with _ | _ | b | n | s | dd | es | kvs <;>
      (rw [hjs] at h; try dsimp only at h)
    case str =>
      split_ifs at h with hcond
      · simp only [Option.bind_eq_bind, Option.some_bind] at h
        simp only [Bool.and_eq_true] at hcond
        simp only [List.map_cons]
        rw [rawLineOfDoc_eq_good d (replayable_wf d s hcond.1), ih (sAssocSet m s d) m' h]
      · simp at h
    all_goals simp at h

theorem execUpd_lines_eq :
    ∀ (mods : List (NValue × NValue)) (m m' : List (String × NValue)),
      mods.foldlM
        (fun acc p =>
          match jsGet p.1 "_id" with
          | .str id =>
            if replayableDoc p.2 id &&
               (match sAssocGet acc id with | some d => nvBEq d p.1 | none => false) then
              some (sAssocSet acc id p.2)
            else none
          | _ => none) m = some m' →
      (mods.map Prod.snd).map rawLineOfDoc = (mods.map Prod.snd).map RawLine.good := by
  intro mods
  induction mods with
  | nil => intro m m' _; rfl
  | cons p ps ih =>
    obtain ⟨od, nd⟩ := p
    intro m m' h
    rw [List.foldlM_cons] at h
    try dsimp only at h
    rcases hjs : jsGet od "_id" with _ | _ | b | n | s | dd | es | kvs <;>
      (rw [hjs] at h; try dsimp only at h)
    case str =>
      split_ifs at h with hcond
      · simp only [Option.bind_eq_bind, Option.some_bind] at h
        simp only [Bool.and_eq_true] at hcond
        simp only [List.map_cons]
        rw [rawLineOfDoc_eq_good nd (replayable_wf nd s hcond.1), ih (sAssocSet m s nd) m' h]
      · simp at h
    all_goals simp at h

theorem tombLines_eq :
    ∀ ids : List String,
      (ids.map (fun id => NValue.obj [("$$deleted", .bool true), ("_id", .str id)])).map
          rawLineOfDoc =
        (ids.map (fun id => NValue.obj [("$$deleted", .bool true), ("_id", .str id)])).map
          RawLine.good := by
  intro ids
  induction ids with
  | nil => rfl
  | cons id ids ih =>
    simp only [List.map_cons]
    rw [rawLineOfDoc_eq_good _ (tombstone_wf id), ih]

theorem execOp_lines_eq (op : DsOp) (m m' : List (String × NValue))
    (h : execOp m op = some m') :
    (linesOfOp op).map rawLineOfDoc = (linesOfOp op).map RawLine.good := by
  cases op with
  | ins docs => exact execIns_lines_eq docs m m' h
  | upd mods => exact execUpd_lines_eq mods m m' h
  | rem ids => exact tombLines_eq ids

theorem execOps_lines_eq_aux :
    ∀ (ops : List DsOp) (m0 m : List (String × NValue)),
      ops.foldlM execOp m0 = some m →
      (linesOfOps ops).map rawLineOfDoc = (linesOfOps ops).map RawLine.good := by
  intro ops
  induction ops with
  | nil => intro m0 m _; rfl
  | cons op ops ih =>
    intro m0 m h
    rw [List.foldlM_cons] at h
    cases hstep : execOp m0 op with
    | none => rw [hstep] at h; simp at h
    | some m1 =>
      rw [hstep] at h
      simp only [Option.bind_eq_bind, Option.some_bind] at h
      have hlines : ∀ f : NValue → RawLine, (linesOfOps (op :: ops)).map f =
          ((linesOfOp op).map f) ++ ((linesOfOps ops).map f) := by
        intro f
        simp [linesOfOps, List.map_append]
      rw [hlines rawLineOfDoc, hlines RawLine.good,
        execOp_lines_eq op m0 m1 hstep, ih m1 m h]

theorem execOps_lines_eq (ops : List DsOp) (m : List (String × NValue))
    (h : execOps ops = some m) :
    (linesOfOps ops).map rawLineOfDoc = (linesOfOps ops).map RawLine.good :=
  execOps_lines_eq_aux ops [] m h

/-- C1 as amended: (1) on datafile lines obeying the string-id
discipline (`lineOk`: a deserialized record either has no `_id` or a
non-empty string `_id`, so the code's truthy `doc._id` test and the
spec's "carrying `_id`" agree), `treatRawData`'s fold computes
exactly the spec's left fold of the lines -- later records override
earlier ones keyed by `_id`, `($$deleted: true)` tombstones remove,
`$$indexCreated` adds and `$$indexRemoved` removes the named index
definition; (2) a successful `loadDatabase` of such a file whose
index records do not target `_id` leaves an in-memory document set
that is a permutation of the fold's documents; (3) the datafile
lines appended by a sequence of successful inserts, updates and
removes in the replayable fragment -- each written line read back
through `serialize` and `deserialize` -- fold to exactly the
sequence's logical result; hence (4) loading the datafile produced
by such a sequence yields a document set that is a permutation of
the sequence's logical result.  The replayable fragment
(`replayableDoc`) requires every persisted document to have a
non-empty string `_id`, to carry no `$$deleted` field, and to be
`wfSerializable`, so that its line deserializes back to the very
same document. -/
theorem C1_load_equals_fold :
    (∀ lines : List RawLine, lines.all lineOk = true →
      (treatFold lines).dataById = (specFold lines).1 ∧
      (treatFold lines).indexes = (specFold lines).2) ∧
    (∀ (lines : List RawLine) (thr : ℚ), lines.all lineOk = true →
      (treatFold lines).indexes.all (fun kv => kv.1 != "_id") = true →
      (loadDb dsInit thr lines).2 = none →
      List.Perm (dsDocs (loadDb dsInit thr lines).1) ((specFold lines).1.map Prod.snd)) ∧
    (∀ (ops : List DsOp) (m : List (String × NValue)), execOps ops = some m →
      specFold ((linesOfOps ops).map rawLineOfDoc) = (m, [])) ∧
    (∀ (ops : List DsOp) (m : List (String × NValue)) (thr : ℚ),
      execOps ops = some m →
      (loadDb dsInit thr ((linesOfOps ops).map rawLineOfDoc)).2 = none →
      List.Perm (dsDocs (loadDb dsInit thr ((linesOfOps ops).map rawLineOfDoc)).1)
        (m.map Prod.snd)) := by
  refine ⟨treatFold_eq_specFold, ?_, ?_, ?_⟩
  · intro lines thr hok hnid h2
    have h : loadDb dsInit thr lines = ((loadDb dsInit thr lines).1, none) :=
      Prod.ext_iff.mpr ⟨rfl, h2⟩
    exact loadDb_docs_perm lines thr _ hok hnid h
  · intro ops m hops
    rw [execOps_lines_eq ops m hops]
    exact execOps_spec ops m hops
  · intro ops m thr hops h2
    rw [execOps_lines_eq ops m hops] at h2 ⊢
    have hok := execOps_linesOk ops m hops
    have hfold := execOps_spec ops m hops
    have hnid : (treatFold ((linesOfOps ops).map RawLine.good)).indexes.all
        (fun kv => kv.1 != "_id") = true := by
      rw [(treatFold_eq_specFold _ hok).2, hfold]
      rfl
    have h : loadDb dsInit thr ((linesOfOps ops).map RawLine.good) =
        ((loadDb dsInit thr ((linesOfOps ops).map RawLine.good)).1, none) :=
      Prod.ext_iff.mpr ⟨rfl, h2⟩
    have hperm := loadDb_docs_perm ((linesOfOps ops).map RawLine.good) thr _ hok hnid h
    rw [hfold] at hperm
    exact hperm

/-- Run of `loadDb` on the single tombstone-shaped document line. -/
theorem loadDb_run_tomb :
    loadDb dsInit 0
      [RawLine.good (NValue.obj [("_id", NValue.str "a"), ("$$deleted", NValue.bool true)])] =
      (dsInit, none) := by
  have hcond : ¬(0 < ([RawLine.good (NValue.obj [("_id", NValue.str "a"),
        ("$$deleted", NValue.bool true)])] : List RawLine).length ∧
      ((treatFold [RawLine.good (NValue.obj [("_id", NValue.str "a"),
        ("$$deleted", NValue.bool true)])]).corruptItems : ℚ) /
        (([RawLine.good (NValue.obj [("_id", NValue.str "a"),
          ("$$deleted", NValue.bool true)])] : List RawLine).length : ℚ) > 0) := by
    intro hc
    have h2 := hc.2
    rw [show (treatFold [RawLine.good (NValue.obj [("_id", NValue.str "a"),
      ("$$deleted", NValue.bool true)])]).corruptItems = -1 from rfl] at h2
    rw [show ([RawLine.good (NValue.obj [("_id", NValue.str "a"),
      ("$$deleted", NValue.bool true)])] : List RawLine).length = 1 from rfl] at h2
    norm_num at h2
  have hTRD : treatRawData 0 [RawLine.good (NValue.obj [("_id", NValue.str "a"),
      ("$$deleted", NValue.bool true)])] =
      .ok ((treatFold [RawLine.good (NValue.obj [("_id", NValue.str "a"),
        ("$$deleted", NValue.bool true)])]).dataById.map Prod.snd,
        (treatFold [RawLine.good (NValue.obj [("_id", NValue.str "a"),
          ("$$deleted", NValue.bool true)])]).indexes) := by
    simp only [treatRawData]
    rw [if_neg hcond]
  have hload : loadDb dsInit 0 [RawLine.good (NValue.obj [("_id", NValue.str "a"),
      ("$$deleted", NValue.bool true)])] =
      (match treatRawData 0 [RawLine.good (NValue.obj [("_id", NValue.str "a"),
        ("$$deleted", NValue.bool true)])] with
       | .error e => (dsClearIndexes dsInit, some e)
       | .ok (docs, idxRecords) =>
         match dsFillIndexes docs
           (idxRecords.foldl
             (fun acc kv =>
               match acc.find? (fun slot => slot.1 == kv.1) with
               | some _ => acc.map
                   (fun slot => if slot.1 == kv.1 then (slot.1, indexFromRecord kv.2) else slot)
               | none => acc ++ [(kv.1, indexFromRecord kv.2)])
             (dsClearIndexes dsInit).indexes) with
         | (_, some e) =>
           (dsClearIndexes { dsClearIndexes dsInit with indexes :=
             (idxRecords.foldl
               (fun acc kv =>
                 match acc.find? (fun slot => slot.1 == kv.1) with
                 | some _ => acc.map
                     (fun slot => if slot.1 == kv.1 then (slot.1, indexFromRecord kv.2) else slot)
                 | none => acc ++ [(kv.1, indexFromRecord kv.2)])
               (dsClearIndexes dsInit).indexes) }, some e)
         | (indexes₂, none) => ({ dsClearIndexes dsInit with indexes := indexes₂ }, none)) := rfl
  rw [hload, hTRD]
  rfl

/-- Run of `loadDb` on a single well-formed document line. -/
theorem loadDb_run_ins :
    loadDb dsInit 0 [RawLine.good (NValue.obj [("_id", NValue.str "a")])] =
      ({ indexes := [("_id",
           { fieldName := "_id", unique := true, sparse := false,
             tree := [(NValue.str "a", [NValue.obj [("_id", NValue.str "a")]])] })],
         ttlIndexes := [], journal := [] }, none) := by
  have hcond : ¬(0 < ([RawLine.good (NValue.obj [("_id", NValue.str "a")])] :
        List RawLine).length ∧
      ((treatFold [RawLine.good (NValue.obj [("_id", NValue.str "a")])]).corruptItems : ℚ) /
        (([RawLine.good (NValue.obj [("_id", NValue.str "a")])] : List RawLine).length : ℚ) >
        0) := by
    intro hc
    have h2 := hc.2
    rw [show (treatFold [RawLine.good (NValue.obj [("_id", NValue.str "a")])]).corruptItems =
      -1 from rfl] at h2
    rw [show ([RawLine.good (NValue.obj [("_id", NValue.str "a")])] :
      List RawLine).length = 1 from rfl] at h2
    norm_num at h2
  have hTRD : treatRawData 0 [RawLine.good (NValue.obj [("_id", NValue.str "a")])] =
      .ok ((treatFold [RawLine.good (NValue.obj [("_id", NValue.str "a")])]).dataById.map
        Prod.snd,
        (treatFold [RawLine.good (NValue.obj [("_id", NValue.str "a")])]).indexes) := by
    simp only [treatRawData]
    rw [if_neg hcond]
  have hload : loadDb dsInit 0 [RawLine.good (NValue.obj [("_id", NValue.str "a")])] =
      (match treatRawData 0 [RawLine.good (NValue.obj [("_id", NValue.str "a")])] with
       | .error e => (dsClearIndexes dsInit, some e)
       | .ok (docs, idxRecords) =>
         match dsFillIndexes docs
           (idxRecords.foldl
             (fun acc kv =>
               match acc.find? (fun slot => slot.1 == kv.1) with
               | some _ => acc.map
                   (fun slot => if slot.1 == kv.1 then (slot.1, indexFromRecord kv.2) else slot)
               | none => acc ++ [(kv.1, indexFromRecord kv.2)])
             (dsClearIndexes dsInit).indexes) with
         | (_, some e) =>
           (dsClearIndexes { dsClearIndexes dsInit with indexes :=
             (idxRecords.foldl
               (fun acc kv =>
                 match acc.find? (fun slot => slot.1 == kv.1) with
                 | some _ => acc.map
                     (fun slot => if slot.1 == kv.1 then (slot.1, indexFromRecord kv.2) else slot)
                 | none => acc ++ [(kv.1, indexFromRecord kv.2)])
               (dsClearIndexes dsInit).indexes) }, some e)
         | (indexes₂, none) => ({ dsClearIndexes dsInit with indexes := indexes₂ }, none)) := rfl
  rw [hload, hTRD]
  rfl

/-- Three divergences from C1 as stated.  A record whose `_id` is the
empty string is dropped by the code's truthy `doc._id` test, although
the claim's fold stores it under the key `""`.  A document that
itself carries `$$deleted: true` can be successfully inserted, yet
the load of the produced one-line datafile reads it back as a
tombstone: the loaded document set is empty while the logical result
of the insert sequence holds the document.  And a document with a
nested literal `$$date` key serializes without error -- `checkKey`
admits `$$date` over a number -- yet its persisted line deserializes
to a different document, the nested object collapsed to a date, so
the loaded set again differs from the logical result. -/
theorem C1_counterexample :
    (treatFold [RawLine.good (NValue.obj [("_id", NValue.str "")])]).dataById = [] ∧
    (specFold [RawLine.good (NValue.obj [("_id", NValue.str "")])]).1 =
      [("", NValue.obj [("_id", NValue.str "")])] ∧
    ([] : List (String × NValue)) ≠ [("", NValue.obj [("_id", NValue.str "")])] ∧
    loadDb dsInit 0
      [RawLine.good (NValue.obj [("_id", NValue.str "a"), ("$$deleted", NValue.bool true)])] =
      (dsInit, none) ∧
    dsDocs dsInit = [] ∧
    linesOfOps [DsOp.ins [NValue.obj [("_id", NValue.str "a"), ("$$deleted", NValue.bool true)]]] =
      [NValue.obj [("_id", NValue.str "a"), ("$$deleted", NValue.bool true)]] ∧
    serialize (NValue.obj [("_id", NValue.str "a"),
        ("x", NValue.obj [("$$date", NValue.num 5)])]) =
      .ok (some (JValue.jobj [("_id", JValue.jstr "a"),
        ("x", JValue.jobj [("$$date", JValue.jnum 5)])])) ∧
    rawLineOfDoc (NValue.obj [("_id", NValue.str "a"),
        ("x", NValue.obj [("$$date", NValue.num 5)])]) =
      RawLine.good (NValue.obj [("_id", NValue.str "a"), ("x", NValue.date 5)]) ∧
    NValue.date 5 ≠ NValue.obj [("$$date", NValue.num 5)] := by
  refine ⟨rfl, rfl, ?_, loadDb_run_tomb, rfl, rfl, rfl, rfl, ?_⟩
  · intro h
    exact List.noConfusion h
  · intro h
    exact NValue.noConfusion h

/-- Witness: inserting one plain document and then loading the
produced one-line datafile yields exactly that document. -/
theorem C1_load_equals_fold_witness :
    List.Perm
      (dsDocs (loadDb dsInit 0
        ((linesOfOps [DsOp.ins [NValue.obj [("_id", NValue.str "a")]]]).map rawLineOfDoc)).1)
      ([("a", NValue.obj [("_id", NValue.str "a")])].map Prod.snd) := by
  have h2 : (loadDb dsInit 0
      ((linesOfOps [DsOp.ins [NValue.obj [("_id", NValue.str "a")]]]).map rawLineOfDoc)).2 =
      none := by
    rw [show ((linesOfOps [DsOp.ins [NValue.obj [("_id", NValue.str "a")]]]).map rawLineOfDoc) =
      [RawLine.good (NValue.obj [("_id", NValue.str "a")])] from rfl, loadDb_run_ins]
  exact C1_load_equals_fold.2.2.2 [DsOp.ins [NValue.obj [("_id", NValue.str "a")]]]
    [("a", NValue.obj [("_id", NValue.str "a")])] 0 rfl h2

end NeDB
